import Mathlib

/-!
# Verification of the 2D-geometry quoting pipeline (`geomCalc.py`)

Shallow embedding of the cost-estimation pipeline for 2D laser-cut parts.
The source is a Python 2 program; we embed it as follows.

* Floating-point numbers are modelled by an arbitrary `LinearOrderedField K`
  (with a `FloorRing` instance for the final display rounding).  The
  transcendental library functions `math.sqrt`, `math.asin`, `math.exp` are
  abstracted into a bundle `MathOps K` of functions; every theorem below is
  proved for an arbitrary interpretation of that bundle, so it holds in
  particular for the intended `ℝ`-instantiation with the genuine `Real.sqrt`,
  `Real.arcsin` and `Real.exp`.  Domain checks (negative argument to `sqrt`,
  argument of `asin` outside `[-1, 1]`, division by zero) are modelled
  explicitly, matching the Python exceptions.

* Python exceptions are modelled by `Except Err`.  The constructors of `Err`
  record the Python exception *class*, which matters because `main` catches
  only `ValueError`: `MalformedSchema` and `ParseFailure` are `ValueError`s,
  `math` domain errors and `list.index` failures are `ValueError`s, while
  `NetworkXNoCycle` (the `NoClosedCurve` error), `ZeroDivisionError`,
  `IndexError` and `KeyError` are not.

* JSON object keys are strings of decimal digits in the source; the code
  freely converts between the string and `int` forms (`str(p)` / `int(a)`),
  assuming canonical numerals.  We model both forms by `Nat` and the
  conversions by the identity.

* Python dictionaries are modelled by association lists with unique keys;
  the raw (pre-`json.load`) schema may have duplicate keys, which
  `json.load` collapses keeping the last occurrence.

* The `networkx` library calls are not part of the repository.
  `nx.cycle_basis` is modelled from the spec (§9): the standard
  spanning-forest-plus-fundamental-cycle algorithm.  `nx.shortest_path` is
  modelled by breadth-first search.  `nx.Graph` is modelled by a node list
  plus a duplicate-free list of canonically ordered edge pairs, matching its
  collapsing of parallel and reversed edges.
-/

/-- Python exception classes raised by the pipeline.  The first five are
subclasses of `ValueError` (hence caught by `main`'s `except ValueError`);
the remaining ones are not. -/
inductive Err : Type
  /-- `ValueError("... is not a valid schema")` raised by `validateSchema`
  (the spec's `MalformedSchema`). -/
  | malformedSchema
  /-- `ValueError` raised by `json.load` on invalid JSON (the spec's
  `ParseFailure`; in Python 2 `json` raises `ValueError`). -/
  | parseFailure
  /-- `ValueError: math domain error` from `math.sqrt` / `math.asin`. -/
  | mathDomain
  /-- `ValueError` from `list.index` when the element is absent. -/
  | indexValueError
  /-- `ValueError: min() arg is an empty sequence`. -/
  | minValueError
  /-- `networkx.exception.NetworkXNoCycle` raised by `findPath` (the spec's
  `NoClosedCurve`); *not* a `ValueError`. -/
  | noClosedCurve
  /-- `ZeroDivisionError`; *not* a `ValueError`. -/
  | zeroDivisionError
  /-- `IndexError` from `[...][0]` on an empty list; *not* a `ValueError`. -/
  | indexError
  /-- `KeyError` from a failed dictionary lookup; *not* a `ValueError`. -/
  | keyError
  /-- `networkx.exception.NetworkXNoPath`; *not* a `ValueError`. -/
  | noPathError
deriving DecidableEq, Repr

/-- Which of the exception classes are (subclasses of) Python `ValueError` —
exactly those are caught by the `except ValueError` clause of `main`. -/
def Err.isValueError : Err → Bool
  | .malformedSchema => true
  | .parseFailure => true
  | .mathDomain => true
  | .indexValueError => true
  | .minValueError => true
  | _ => false

/-- Abstract interpretations of the `math`-module functions used by the
source.  All theorems hold for every interpretation, in particular for
`⟨Real.sqrt, Real.arcsin, Real.exp⟩` over `ℝ`. -/
structure MathOps (K : Type) where
  sqrt : K → K
  asin : K → K
  exp : K → K

variable {K : Type} [LinearOrderedField K]

/-- Python float division: raises `ZeroDivisionError` on a zero
denominator. -/
def pydiv (a b : K) : Except Err K :=
  if b = 0 then .error .zeroDivisionError else .ok (a / b)

/-- `math.sqrt`: raises `ValueError: math domain error` on a negative
argument. -/
def pysqrt (ops : MathOps K) (x : K) : Except Err K :=
  if x < 0 then .error .mathDomain else .ok (ops.sqrt x)

/-- `math.asin`: raises `ValueError: math domain error` outside `[-1, 1]`. -/
def pyasin (ops : MathOps K) (x : K) : Except Err K :=
  if x < -1 ∨ 1 < x then .error .mathDomain else .ok (ops.asin x)

/-- `PADDING = 0.1  # inches`. -/
def PADDING : K := 1 / 10

/-- `MATERIAL_COST = 0.75  # dollars/in^2`. -/
def MATERIAL_COST : K := 3 / 4

/-- `LASER_SPEED = 0.5  # in/s`. -/
def LASER_SPEED : K := 1 / 2

/-- `TIME_COST = 0.07  # dollars/s`. -/
def TIME_COST : K := 7 / 100

/-- A point in the plane (a Python coordinate pair). -/
abbrev Pt (K : Type) := K × K

/-- `Type` field of an edge record. -/
inductive PyEdgeType : Type
  | lineSegment
  | circularArc
deriving DecidableEq, Repr

/-- One record of the `Edges` collection.  `Center` and `ClockwiseFrom` are
only meaningful for `circularArc` edges (the JSON for segments omits them;
we carry dummy values, which the code never reads for segments). -/
structure PyEdge (K : Type) where
  type : PyEdgeType
  v1 : Nat
  v2 : Nat
  center : Pt K
  cwFrom : Nat
deriving DecidableEq

/-- A parsed schema object.  A missing `Vertices`/`Edges` key is `none`.
Vertex values are their `Position` coordinate pairs. -/
structure PySchema (K : Type) where
  vertices : Option (List (Nat × Pt K))
  edges : Option (List (Nat × PyEdge K))
deriving DecidableEq

/-- A raw schema as written in the JSON text: the same shape, but the key
lists may contain duplicate keys. -/
abbrev RawSchema (K : Type) := PySchema K

/-- Collapse duplicate keys keeping the last occurrence, as Python's JSON
object parsing does when building a `dict`. -/
def dedupKeysLast {α : Type} (l : List (Nat × α)) : List (Nat × α) :=
  l.foldl (fun acc kv => acc.filter (fun p => p.1 ≠ kv.1) ++ [kv]) []

/-- `json.load`: the external parse step, restricted to its effect on the
schema shape (duplicate keys in either collection collapse, last wins). -/
def jsonLoad (r : RawSchema K) : PySchema K :=
  { vertices := r.vertices.map dedupKeysLast
    edges := r.edges.map dedupKeysLast }

/-- Python `dict[k]` lookup: `KeyError` when the key is absent. -/
def getKey {α : Type} (l : List (Nat × α)) (k : Nat) : Except Err α :=
  match l.find? (fun p => p.1 = k) with
  | some p => .ok p.2
  | none => .error .keyError

/-! ## The graph (`networkx.Graph` model)

`nx.Graph` stores at most one edge per unordered vertex pair; we keep the
pairs canonically ordered (`min` first) and duplicate-free, in insertion
order.  Self-loops are representable. -/

/-- Canonical (unordered-pair) form of an edge. -/
def canonPair (p : Nat × Nat) : Nat × Nat :=
  if p.1 ≤ p.2 then p else (p.2, p.1)

/-- The graph model. -/
structure PyGraph where
  nodes : List Nat
  edges : List (Nat × Nat)
deriving DecidableEq, Repr

/-- `g.add_node`. -/
def PyGraph.addNode (g : PyGraph) (v : Nat) : PyGraph :=
  if v ∈ g.nodes then g else { g with nodes := g.nodes ++ [v] }

/-- `g.add_edge` (also inserts missing endpoint nodes, as networkx does). -/
def PyGraph.addEdge (g : PyGraph) (e : Nat × Nat) : PyGraph :=
  let g := (g.addNode e.1).addNode e.2
  if canonPair e ∈ g.edges then g else { g with edges := g.edges ++ [canonPair e] }

/-- `createGraph(schema)`: nodes from the vertex keys, edges from each edge
record's `Vertices` pair. -/
def createGraph (vs : List (Nat × Pt K)) (es : List (Nat × PyEdge K)) : PyGraph :=
  let g : PyGraph := { nodes := [], edges := [] }
  let g := vs.foldl (fun g kv => g.addNode kv.1) g
  es.foldl (fun g ke => g.addEdge (ke.2.v1, ke.2.v2)) g

/-- Neighbours of `x` along an edge-pair list. -/
def nbrs (es : List (Nat × Nat)) (x : Nat) : List Nat :=
  es.filterMap (fun e => if e.1 = x then some e.2 else if e.2 = x then some e.1 else none)

/-- One step of the reachability closure: add all neighbours. -/
def expandR (es : List (Nat × Nat)) (s : List Nat) : List Nat :=
  (s ++ s.flatMap (nbrs es)).dedup

/-- All vertices reachable from `u` along `es` (iterated closure; the fuel
`es.length + 1` suffices because each useful iteration adds a vertex and at
most `2 * es.length + 1` vertices are involved). -/
def reachList (es : List (Nat × Nat)) (u : Nat) : List Nat :=
  (expandR es)^[2 * es.length + 2] [u]

/-- Decidable connectivity along an edge-pair list. -/
def reachableB (es : List (Nat × Nat)) (u v : Nat) : Bool :=
  v ∈ reachList es u

/-! ## Shortest paths and the cycle basis -/

/-- One breadth-first expansion: extend the parent map `par` from the
current `frontier`, returning the updated map and the new frontier. -/
def bfsStep (es : List (Nat × Nat)) (par : List (Nat × Nat)) (frontier : List Nat) :
    List (Nat × Nat) × List Nat :=
  frontier.foldl
    (fun acc x =>
      (nbrs es x).foldl
        (fun acc y =>
          if (acc.1.find? (fun p => p.1 = y)).isSome then acc
          else (acc.1 ++ [(y, x)], acc.2 ++ [y]))
        acc)
    (par, [])

/-- Iterate breadth-first expansions until the frontier empties (bounded
fuel). -/
def bfsLoop (es : List (Nat × Nat)) : Nat → List Nat → List (Nat × Nat) → List (Nat × Nat)
  | 0, _, par => par
  | fuel + 1, frontier, par =>
    if frontier = [] then par
    else
      let st := bfsStep es par frontier
      bfsLoop es fuel st.2 st.1

/-- Follow parent pointers from `v` back to the root (the root is its own
parent), accumulating the path in forward order. -/
def traceBack (par : List (Nat × Nat)) : Nat → Nat → List Nat → List Nat
  | 0, v, acc => v :: acc
  | fuel + 1, v, acc =>
    match par.find? (fun p => p.1 = v) with
    | some pr => if pr.2 = v then v :: acc else traceBack par fuel pr.2 (v :: acc)
    | none => v :: acc

/-- Model of the library routine `nx.shortest_path(G, a, b)`: breadth-first
search, raising `NetworkXNoPath` when `b` is unreachable.  (The library is
external to the repository; this model realizes its documented contract —
some shortest path, deterministically — with neighbour order taken from the
edge-insertion order.) -/
def nxShortestPath (es : List (Nat × Nat)) (u v : Nat) : Except Err (List Nat) :=
  let par := bfsLoop es (2 * es.length + 2) [u] [(u, u)]
  if (par.find? (fun p => p.1 = v)).isSome then
    .ok (traceBack par (2 * es.length + 2) v [])
  else .error .noPathError

/-- The fundamental cycle closed by edge `e` over the earlier edges `prev`:
the tree path between its endpoints (as a vertex list, matching the
vertex-list cycles `nx.cycle_basis` returns). -/
def fundCycle (prev : List (Nat × Nat)) (e : Nat × Nat) : List Nat :=
  match nxShortestPath prev e.1 e.2 with
  | .ok p => p
  | .error _ => [e.1]

/-- Scan the edges in insertion order; an edge whose endpoints are already
connected by the earlier edges closes a fundamental cycle.  Returns each
such closing edge with the list of edges before it. -/
def cbGo (prev : List (Nat × Nat)) : List (Nat × Nat) → List (List (Nat × Nat) × (Nat × Nat))
  | [] => []
  | e :: rest =>
    if reachableB prev e.1 e.2 then (prev, e) :: cbGo (prev ++ [e]) rest
    else cbGo (prev ++ [e]) rest

/-- Modelled from the spec: `nx.cycle_basis` is library code external to
the repository; following §9 ("a standard spanning-tree-plus-fundamental-
cycle algorithm; no special library needed") we model it as the fundamental
cycles of the edge-scan spanning forest.  Its cardinality (`|E| − |V| + c`)
and its emptiness/acyclicity behaviour agree with the library routine. -/
def cycleBasis (g : PyGraph) : List (List Nat) :=
  (cbGo [] g.edges).map (fun pe => fundCycle pe.1 pe.2)

/-- `findPath(schema_graph)`: return the cycle basis if non-empty, else
raise `NetworkXNoCycle('No closed cycle found.')`. -/
def findPath (g : PyGraph) : Except Err (List (List Nat)) :=
  let cycles := cycleBasis g
  if 0 < cycles.length then .ok cycles else .error .noClosedCurve

/-- `validateSchema(name, schema)`: check both top-level collections are
present, check for duplicate ids by comparing `len(keys)` with
`len(set(keys))`, build the graph and return the cycles and the graph. -/
def validateSchema (s : PySchema K) : Except Err (List (List Nat) × PyGraph) :=
  match s.edges, s.vertices with
  | some es, some vs =>
    if (es.map Prod.fst).length ≠ (es.map Prod.fst).dedup.length
        ∨ (vs.map Prod.fst).length ≠ (vs.map Prod.fst).dedup.length then
      .error .malformedSchema
    else
      let g := createGraph vs es
      (findPath g).map (fun cycles => (cycles, g))
  | _, _ => .error .malformedSchema

/-! ## Edge geometry (`computeValues`) and cut cost (`arcLength`) -/

/-- The per-edge record stored in `values_dict`.  A `LineSegment` entry has
keys `start_id`, `finish_id`, `dist`; a `CircularArc` entry has the full
arc geometry. -/
inductive EdgeValues (K : Type) where
  | seg (start_id finish_id : Nat) (dist : K)
  | arc (start_id finish_id : Nat) (center : Pt K) (radius chord_length : K)
      (chord_midpoint : Pt K) (sector_length sector_height : K)
      (box_points : List (Pt K))
deriving DecidableEq

/-- `[p for p in edge["Vertices"] if str(p) != start_id][0]`: the finish
vertex of an arc; `IndexError` when both endpoints equal `ClockwiseFrom`. -/
def arcFinish (e : PyEdge K) : Except Err Nat :=
  match [e.v1, e.v2].filter (fun p => p ≠ e.cwFrom) with
  | [] => .error .indexError
  | f :: _ => .ok f

/-- The body of the `computeValues` loop for one edge record.  The
`CircularArc` branch performs, in source order: `radius` (distance from
`Center` to the `ClockwiseFrom` vertex), chord length, chord midpoint,
sector length `2 r asin(chord/(2r))`, sagitta `r - sqrt(r² - chord²/4)`,
and the four `boxPoints` (offset perpendicular to the chord by the sagitta
at both endpoints).  The eight `boxPoints` component divisions all share
the denominator `chord_length`; we compute the two distinct quotients
once, which raises the same `ZeroDivisionError` in the same place. -/
def edgeValues (ops : MathOps K) (vs : List (Nat × Pt K)) (e : PyEdge K) :
    Except Err (EdgeValues K) :=
  match e.type with
  | .lineSegment => do
    let start_id := e.v1
    let finish_id := e.v2
    let sc ← getKey vs start_id
    let fc ← getKey vs finish_id
    let dist ← pysqrt ops ((fc.1 - sc.1) ^ 2 + (fc.2 - sc.2) ^ 2)
    .ok (.seg start_id finish_id dist)
  | .circularArc => do
    let start_id := e.cwFrom
    let finish_id ← arcFinish e
    let sc ← getKey vs start_id
    let fc ← getKey vs finish_id
    let center := e.center
    let radius ← pysqrt ops ((center.1 - sc.1) ^ 2 + (center.2 - sc.2) ^ 2)
    let dx := fc.1 - sc.1
    let dy := fc.2 - sc.2
    let chord_length ← pysqrt ops (dx ^ 2 + dy ^ 2)
    let mx ← pydiv (sc.1 + fc.1) 2
    let my ← pydiv (sc.2 + fc.2) 2
    let asinArg ← pydiv chord_length (2 * radius)
    let asinVal ← pyasin ops asinArg
    let sector_length := 2 * radius * asinVal
    let csq ← pydiv (chord_length ^ 2) 4
    let sroot ← pysqrt ops (radius ^ 2 - csq)
    let sector_height := radius - sroot
    let ty ← pydiv (sector_height * dy) chord_length
    let tx ← pydiv (sector_height * dx) chord_length
    let box_points : List (Pt K) :=
      [(sc.1 + ty, sc.2 - tx), (sc.1 - ty, sc.2 + tx),
        (fc.1 - ty, fc.2 + tx), (fc.1 + ty, fc.2 - tx)]
    .ok (.arc start_id finish_id center radius chord_length (mx, my)
      sector_length sector_height box_points)

/-- `computeValues(schema)`: build `values_dict`, keyed by edge id, in the
iteration order of the `Edges` collection. -/
def computeValues (ops : MathOps K) (s : PySchema K) :
    Except Err (List (Nat × EdgeValues K)) :=
  match s.edges with
  | none => .error .keyError
  | some es =>
    es.foldlM
      (fun acc ke => do
        let vs ←
          (match s.vertices with
            | some vs => .ok vs
            | none => .error .keyError : Except Err (List (Nat × Pt K)))
        let v ← edgeValues ops vs ke.2
        .ok (acc ++ [(ke.1, v)]))
      []

/-- Read the `dist` entry of a `values_dict` record (`KeyError` when the
record is an arc record, which has no `dist` key). -/
def EdgeValues.getDist : EdgeValues K → Except Err K
  | .seg _ _ d => .ok d
  | _ => .error .keyError

/-- Read the `sector_length` and `radius` entries of a `values_dict`
record (`KeyError` on a segment record). -/
def EdgeValues.getArcData : EdgeValues K → Except Err (K × K)
  | .arc _ _ _ radius _ _ sector_length _ _ => .ok (sector_length, radius)
  | _ => .error .keyError

/-- The loop body of `arcLength`: one edge's contribution added to the
running price.  For a `LineSegment`, `dist / LASER_SPEED * TIME_COST`;
for a `CircularArc`,
`sector_length / (LASER_SPEED * exp(-1 / radius)) * TIME_COST`. -/
def arcStep (ops : MathOps K) (vd : List (Nat × EdgeValues K)) (price : K)
    (ke : Nat × PyEdge K) : Except Err K :=
  match ke.2.type with
  | .lineSegment => do
    let v ← getKey vd ke.1
    let d ← v.getDist
    let q ← pydiv d LASER_SPEED
    .ok (price + q * TIME_COST)
  | .circularArc => do
    let v ← getKey vd ke.1
    let sr ← v.getArcData
    let w ← pydiv (-1) sr.2
    let q ← pydiv sr.1 (LASER_SPEED * ops.exp w)
    .ok (price + q * TIME_COST)

def arcLength (ops : MathOps K) (s : PySchema K) (vd : List (Nat × EdgeValues K)) :
    Except Err K :=
  match s.edges with
  | none => .error .keyError
  | some es => es.foldlM (arcStep ops vd) 0

/-! ## Convex hulls (`turn` / `keep_left` / `grahams_hull`) -/

/-- Python tuple comparison on coordinate pairs (lexicographic). -/
def lexLe (p q : Pt K) : Prop :=
  p.1 < q.1 ∨ (p.1 = q.1 ∧ p.2 ≤ q.2)

instance (p q : Pt K) : Decidable (lexLe p q) := by
  unfold lexLe; infer_instance

/-- `turn(p, q, r) = cmp((q-p) × (r-p), 0)`: `1` for a strict left
(counter-clockwise) turn, `-1` for a right turn, `0` for collinear. -/
def turn (p q r : Pt K) : Int :=
  let c := (q.1 - p.1) * (r.2 - p.2) - (r.1 - p.1) * (q.2 - p.2)
  if 0 < c then 1 else if c < 0 then -1 else 0

/-- `keep_left(hull, r)`.  The chain is stored *reversed* (most recent
point first, i.e. Python's `hull[-1]` is our head): pop while the last two
chain points and `r` fail to make a strict left turn, then append `r`
unless it already equals the top. -/
def keepLeft : List (Pt K) → Pt K → List (Pt K)
  | b :: a :: rest, r =>
    if turn a b r ≠ 1 then keepLeft (a :: rest) r
    else if b = r then b :: a :: rest else r :: b :: a :: rest
  | [a], r => if a = r then [a] else [r, a]
  | [], r => [r]

/-- `sorted(points)`: Python's stable sort under tuple comparison.  (Ties
under `lexLe` are equal points, so stability is irrelevant.) -/
def sortLex (points : List (Pt K)) : List (Pt K) :=
  points.insertionSort lexLe

/-- `grahams_hull(points)`: lower chain over the sorted points, upper
chain over the reverse-sorted points, concatenated with the upper chain's
first and last points dropped. -/
def grahams_hull (points : List (Pt K)) : List (Pt K) :=
  let pts := sortLex points
  let l := (pts.foldl keepLeft []).reverse
  let u := (pts.reverse.foldl keepLeft []).reverse
  l ++ (u.drop 1).dropLast

/-! ## Hull construction over the schema -/

/-- `schema["Vertices"]`, raising `KeyError` when absent. -/
def getVerts (s : PySchema K) : Except Err (List (Nat × Pt K)) :=
  match s.vertices with
  | some vs => .ok vs
  | none => .error .keyError

/-- `schema["Edges"]`, raising `KeyError` when absent. -/
def getEdges (s : PySchema K) : Except Err (List (Nat × PyEdge K)) :=
  match s.edges with
  | some es => .ok es
  | none => .error .keyError

/-- `pointLookup((x, y), schema)`: the first vertex id whose position has
exactly these coordinates; `[...][0]` raises `IndexError` when none. -/
def pointLookup (xy : Pt K) (s : PySchema K) : Except Err Nat := do
  let vs ← getVerts s
  match vs.filter (fun kv => kv.2.1 = xy.1 ∧ kv.2.2 = xy.2) with
  | [] => .error .indexError
  | kv :: _ => .ok kv.1

/-- `edgeLookup((x, y), schema)`: the first edge id whose `Vertices` pair
contains both given vertex ids; `[...][0]` raises `IndexError` when
none. -/
def edgeLookup (xy : Nat × Nat) (s : PySchema K) : Except Err Nat := do
  let es ← getEdges s
  match es.filter
      (fun ke => (xy.1 = ke.2.v1 ∨ xy.1 = ke.2.v2) ∧ (xy.2 = ke.2.v1 ∨ xy.2 = ke.2.v2)) with
  | [] => .error .indexError
  | ke :: _ => .ok ke.1

/-- `computeInnerHull(schema, schema_graph)`: for each cycle of
`findPath`, the Graham hull of the cycle vertices' positions, mapped back
to vertex ids by reverse coordinate lookup. -/
def computeInnerHull (s : PySchema K) (g : PyGraph) : Except Err (List (List Nat)) := do
  let paths ← findPath g
  paths.mapM (fun path => do
    let coords ← path.mapM (fun p => do
      let vs ← getVerts s
      getKey vs p)
    (grahams_hull coords).mapM (fun h => pointLookup h s))

/-- `values_dict[x]["start_id"]` (present in both record kinds). -/
def EdgeValues.startId : EdgeValues K → Nat
  | .seg s _ _ => s
  | .arc s _ _ _ _ _ _ _ _ => s

/-- `values_dict[x]["finish_id"]` (present in both record kinds). -/
def EdgeValues.finishId : EdgeValues K → Nat
  | .seg _ f _ => f
  | .arc _ f _ _ _ _ _ _ _ => f

/-- `values_dict[x]["box_points"]` (`KeyError` on a segment record). -/
def EdgeValues.getBoxPoints : EdgeValues K → Except Err (List (Pt K))
  | .arc _ _ _ _ _ _ _ _ bp => .ok bp
  | _ => .error .keyError

/-- `path.index(v)`: first index of `v`, raising `ValueError` when
absent. -/
def pyIndex (l : List Nat) (x : Nat) : Except Err Nat :=
  match l.findIdx? (fun y => y = x) with
  | some i => .ok i
  | none => .error .indexValueError

/-- The body of the pair loop in `computeConvexHull`: the box points
contributed by one consecutive hull pair `(a, b)` — compute the shortest
path from `a` to `b`, keep the `CircularArc` edges lying on it, classify
an arc as an outward extrusion exactly when its start (`clockwiseFrom`)
vertex occurs later than its finish vertex in path order, and collect the
four `boxPoints` of every extrusion. -/
def pairBoxes (s : PySchema K) (g : PyGraph) (vd : List (Nat × EdgeValues K))
    (es : List (Nat × PyEdge K)) (ab : Nat × Nat) : Except Err (List (Pt K)) := do
  let path ← nxShortestPath g.edges ab.1 ab.2
  let onPath ← (path.zip (path.drop 1)).mapM (fun xy => edgeLookup xy s)
  let arcs_on_path ← onPath.filterM (fun arc =>
    (getKey es arc).map (fun e => decide (e.type = .circularArc)))
  let extrusions ← arcs_on_path.filterM (fun x => do
    let v ← getKey vd x
    let i1 ← pyIndex path v.startId
    let i2 ← pyIndex path v.finishId
    pure (decide (i2 < i1)))
  let boxes ← extrusions.mapM (fun x => do
    let v ← getKey vd x
    v.getBoxPoints)
  pure boxes.flatten

/-- `computeConvexHull(schema, schema_graph, values_dict)`: the initial
hulls if the schema has no `CircularArc` edge; otherwise each hull is
walked as a cyclic sequence of neighbouring id pairs, each pair
contributing the `boxPoints` of its outward extrusions (`pairBoxes`),
and the Graham hull is recomputed over the enlarged point set. -/
def computeConvexHull (s : PySchema K) (g : PyGraph)
    (vd : List (Nat × EdgeValues K)) : Except Err (List (List (Pt K))) := do
  let initial_hull ← computeInnerHull s g
  let es ← getEdges s
  if (es.filter (fun ke => ke.2.type = .circularArc)).length = 0 then
    initial_hull.mapM (fun hull => hull.mapM (fun h => do
      let vs ← getVerts s
      getKey vs h))
  else
    initial_hull.mapM (fun hull => do
      let new_hull ← hull.mapM (fun h => do
        let vs ← getVerts s
        getKey vs h)
      let hd ←
        (match hull with
          | [] => .error .indexError
          | h :: _ => .ok h : Except Err Nat)
      let points := hull ++ [hd]
      let extra ← (points.zip (points.drop 1)).foldlM
        (fun acc ab => do
          let b ← pairBoxes s g vd es ab
          pure (acc ++ b))
        []
      pure (grahams_hull (new_hull ++ extra)))

/-! ## Minimum bounding rectangle (`findMinimumRectangle`) -/

/-- `height_numerator = (y2-y1)*x3-(x2-x1)*y3+x2*y1-y2*x1`: the cross
product giving (signed perpendicular distance of `p3` from the line
`p1 p2`) × (edge length). -/
def heightNum (p1 p2 p3 : Pt K) : K :=
  (p2.2 - p1.2) * p3.1 - (p2.1 - p1.1) * p3.2 + p2.1 * p1.2 - p2.2 * p1.1

/-- `width_numerator = (x5-x4)*(x2-x1)+(y5-y4)*(y2-y1)`: the dot product
giving (projection of `p5 - p4` onto the edge direction) × (edge
length). -/
def widthNum (p1 p2 p4 p5 : Pt K) : K :=
  (p5.1 - p4.1) * (p2.1 - p1.1) + (p5.2 - p4.2) * (p2.2 - p1.2)

/-- `segment_length_square = (x2-x1)**2+(y2-y1)**2`. -/
def segLenSq (p1 p2 : Pt K) : K :=
  (p2.1 - p1.1) ^ 2 + (p2.2 - p1.2) ^ 2

/-- The stored `caliper_sizes` value: `(area, (height_numerator,
width_numerator, segment_length_square))`. -/
structure CaliperEntry (K : Type) where
  area : K
  h : K
  w : K
  L : K
deriving DecidableEq

/-- `product(hull, hull)`, in iteration order. -/
def pairsOf {α : Type} (hull : List α) : List (α × α) :=
  hull.flatMap (fun p4 => hull.map (fun p5 => (p4, p5)))

/-- The `p3` candidates for an edge: hull points that are not one of its
endpoints (`x[1] not in x[0]`). -/
def candPts (hull : List (Pt K)) (e : Pt K × Pt K) : List (Pt K) :=
  hull.filter (fun p3 => p3 ≠ e.1 ∧ p3 ≠ e.2)

/-- All `(p3, (p4, p5))` combinations examined for one edge, in iteration
order (`p3`-major, matching `product`'s nesting). -/
def comboList (hull : List (Pt K)) (e : Pt K × Pt K) : List (Pt K × (Pt K × Pt K)) :=
  (candPts hull e).flatMap (fun p3 => (pairsOf hull).map (fun pr => (p3, pr)))

/-- The dictionary-update fold for one edge: keep the entry of the
first combination attaining the maximal
`fabs(height_numerator*width_numerator)/segment_length_square` (the source
replaces only on a strictly larger area).  Returns `none` when the edge
has no combination at all. -/
def bestEntryForEdge (e : Pt K × Pt K) (combos : List (Pt K × (Pt K × Pt K))) :
    Except Err (Option (CaliperEntry K)) :=
  combos.foldlM
    (fun best c => do
      let h := heightNum e.1 e.2 c.1
      let w := widthNum e.1 e.2 c.2.1 c.2.2
      let L := segLenSq e.1 e.2
      let area ← pydiv |h * w| L
      pure
        (match best with
          | none => some ⟨area, h, w, L⟩
          | some b => if b.area < area then some ⟨area, h, w, L⟩ else some b))
    none

/-- `findMinimumRectangle(hull)`.  The candidate `(edge, p3)` pairs are
iterated edge-major, so in the source the `caliper_sizes` dictionary entry
for an edge is exactly the fold over that edge's own combinations (hull
points are pairwise distinct in every intended use, so the ordered edge
pairs are distinct dictionary keys).  `min(caliper_sizes,
key=caliper_sizes.get)` selects a key of minimal value; values are
compared as tuples, i.e. by area first — we model the selection by area
with first-wins tie-breaking (the source's tie-break on the nested numerator
tuple and hash order differs only between entries of equal area, which no
theorem below depends on).  The returned amount is
`(fabs(h)/sqrt(L)+PADDING) * (fabs(w)/sqrt(L)+PADDING)` for the selected
edge. -/
def findMinimumRectangle (ops : MathOps K) (hull : List (Pt K)) : Except Err K := do
  let hd ←
    (match hull with
      | [] => .error .indexError
      | h :: _ => .ok h : Except Err (Pt K))
  let p := hull ++ [hd]
  let edges := p.zip (p.drop 1)
  let entries ← edges.foldlM
    (fun acc e => do
      let b ← bestEntryForEdge e (comboList hull e)
      pure
        (match b with
          | none => acc
          | some ent => acc ++ [(e, ent)]))
    ([] : List ((Pt K × Pt K) × CaliperEntry K))
  match entries with
  | [] => .error .minValueError
  | e0 :: rest => do
    let best := rest.foldl (fun b x => if x.2.area < b.2.area then x else b) e0
    let s1 ← pysqrt ops best.2.L
    let d1 ← pydiv |best.2.h| s1
    let d2 ← pydiv |best.2.w| s1
    .ok ((d1 + PADDING) * (d2 + PADDING))

/-- `rotateCalipers(schema, schema_graph, values_dict)`: sum
`MATERIAL_COST * area` over the minimal rectangles of all hulls. -/
def rotateCalipers (ops : MathOps K) (s : PySchema K) (g : PyGraph)
    (vd : List (Nat × EdgeValues K)) : Except Err K := do
  let hulls ← computeConvexHull s g vd
  let areas ← hulls.mapM (findMinimumRectangle ops)
  pure (areas.foldl (fun price region => price + MATERIAL_COST * region) 0)

/-! ## The driver (`main`) -/

/-- `costFormat(x)`: the two-decimal display amount `"$%.2f" % x`, as a
number (we model the decimal string by the rational it denotes). -/
def costFormat [FloorRing K] (x : K) : K :=
  (round (100 * x) : ℤ) / 100

/-- The body of `main`'s loop for one already-parsed schema: validate,
compute the edge values, and return the *unrounded* price
`arcLength(...) + rotateCalipers(...)`. -/
def processOne (ops : MathOps K) (s : PySchema K) : Except Err K := do
  let pg ← validateSchema s
  let values ← computeValues ops s
  let cut ← arcLength ops s values
  let mat ← rotateCalipers ops s pg.2 values
  pure (cut + mat)

/-- One printed line of `main`: either a name with its formatted price, or
the `"... is not in valid JSON format."` failure report. -/
inductive OutLine (K : Type) where
  | priced (name : String) (amount : K)
  | failed (name : String)
deriving DecidableEq

/-- The result of `json.load` plus the pipeline for one input file: a
`ParseFailure` surfaces unchanged, otherwise the parsed schema is
processed. -/
def runSchema (ops : MathOps K) (d : Except Err (RawSchema K)) : Except Err K := do
  let r ← d
  processOne ops (jsonLoad r)

/-- `main(schemas)`: process the batch in order.  Each input is a name
together with the result of the external `json.load` (a raw schema or a
`ParseFailure`).  Only `ValueError`-class errors are caught by the
`except ValueError` clause (printing the failure line and continuing);
any other exception propagates and aborts the remaining batch, which we
record in the second component. -/
def pymain [FloorRing K] (ops : MathOps K) :
    List (String × Except Err (RawSchema K)) → List (OutLine K) × Option Err
  | [] => ([], none)
  | (n, raw) :: rest =>
    match runSchema ops raw with
    | .ok price =>
      let tail := pymain ops rest
      (.priced n (costFormat price) :: tail.1, tail.2)
    | .error e =>
      if e.isValueError then
        let tail := pymain ops rest
        (.failed n :: tail.1, tail.2)
      else ([], some e)

/-! ## Concrete instances used by witnesses and counterexamples

All pipeline theorems are proved for an arbitrary `LinearOrderedField` and
an arbitrary interpretation of the `math` functions, so they can be
instantiated over `ℚ` with a dummy interpretation, where every stage is
decidable. -/

/-- A dummy interpretation of the `math` functions over `ℚ` (any
interpretation works for the theorems; this one keeps witnesses
computable). -/
def ratOps : MathOps ℚ := ⟨id, id, fun _ => 1⟩

/-- Boolean success test for `Except`. -/
def exceptOk {α : Type} : Except Err α → Bool
  | .ok _ => true
  | .error _ => false

/-- The unit square schema: four vertices, four `LineSegment` edges. -/
def sqSchema : PySchema ℚ :=
  { vertices := some [(1, (0, 0)), (2, (1, 0)), (3, (1, 1)), (4, (0, 1))]
    edges := some
      [(1, ⟨.lineSegment, 1, 2, (0, 0), 0⟩), (2, ⟨.lineSegment, 2, 3, (0, 0), 0⟩),
        (3, ⟨.lineSegment, 3, 4, (0, 0), 0⟩), (4, ⟨.lineSegment, 4, 1, (0, 0), 0⟩)] }

/-- A triangle with a pendant vertex far outside it (vertex `4` hangs off
the cycle by a single edge). -/
def pendantSchema : PySchema ℚ :=
  { vertices := some [(1, (0, 0)), (2, (2, 0)), (3, (0, 2)), (4, (9, 9))]
    edges := some
      [(1, ⟨.lineSegment, 1, 2, (0, 0), 0⟩), (2, ⟨.lineSegment, 2, 3, (0, 0), 0⟩),
        (3, ⟨.lineSegment, 3, 1, (0, 0), 0⟩), (4, ⟨.lineSegment, 1, 4, (0, 0), 0⟩)] }

/-- A schema whose graph is a simple path (no cycle). -/
def pathSchema : PySchema ℚ :=
  { vertices := some [(1, (0, 0)), (2, (1, 0)), (3, (2, 0))]
    edges := some
      [(1, ⟨.lineSegment, 1, 2, (0, 0), 0⟩), (2, ⟨.lineSegment, 2, 3, (0, 0), 0⟩)] }

/-- A schema with a triangle cycle plus a degenerate `CircularArc` whose
two endpoints (ids `4` and `5`) have identical coordinates. -/
def degArcSchema : PySchema ℚ :=
  { vertices := some
      [(1, (0, 0)), (2, (2, 0)), (3, (0, 2)), (4, (5, 5)), (5, (5, 5))]
    edges := some
      [(1, ⟨.lineSegment, 1, 2, (0, 0), 0⟩), (2, ⟨.lineSegment, 2, 3, (0, 0), 0⟩),
        (3, ⟨.lineSegment, 3, 1, (0, 0), 0⟩), (4, ⟨.circularArc, 4, 5, (0, 0), 4⟩)] }

/-- A raw schema with a duplicate edge id (`1` appears twice) over a
triangle cycle. -/
def dupEdgeRaw : RawSchema ℚ :=
  { vertices := some [(1, (0, 0)), (2, (2, 0)), (3, (0, 2))]
    edges := some
      [(1, ⟨.lineSegment, 1, 2, (0, 0), 0⟩), (1, ⟨.lineSegment, 1, 2, (0, 0), 0⟩),
        (2, ⟨.lineSegment, 2, 3, (0, 0), 0⟩), (3, ⟨.lineSegment, 3, 1, (0, 0), 0⟩)] }

/-- A raw schema missing the `Edges` collection. -/
def noEdgesRaw : RawSchema ℚ :=
  { vertices := some [(1, (0, 0))], edges := none }

/-- An inconsistent arc schema: the arc from vertex `1` (distance `1` from
the declared center) to vertex `2` (distance `5` from it), so the chord
exceeds twice the start-derived radius. -/
def inconsistentArcSchema : PySchema ℚ :=
  { vertices := some [(1, (1, 0)), (2, (5, 0))]
    edges := some
      [(1, ⟨.lineSegment, 1, 2, (0, 0), 0⟩), (2, ⟨.circularArc, 1, 2, (0, 0), 1⟩)] }

/-! ## Generic lemmas about the `Except` embedding -/

theorem exceptMapM_ok_iff {α β : Type} (f : α → Except Err β) :
    ∀ (l : List α) (r : List β),
      l.mapM f = .ok r ↔ List.Forall₂ (fun a b => f a = .ok b) l r := by
  intro l
  induction l with
  | nil =>
    intro r
    constructor
    · intro h
      cases h
      exact List.Forall₂.nil
    · intro h
      cases h
      rfl
  | cons a l ih =>
    intro r
    rw [List.mapM_cons]
    constructor
    · intro h
      cases hfa : f a with
      | error e => rw [hfa] at h; simp [bind, Except.bind] at h
      | ok b =>
        rw [hfa] at h
        cases hfl : l.mapM f with
        | error e =>
          rw [hfl] at h
          simp [bind, Except.bind] at h
        | ok bs =>
          rw [hfl] at h
          simp only [bind, Except.bind, pure, Except.pure] at h
          cases h
          exact List.Forall₂.cons hfa ((ih bs).mp hfl)
    · intro h
      cases h with
      | cons hab htl =>
        rw [hab, (ih _).mpr htl]
        rfl

theorem exceptMapM_error {α β : Type} (f : α → Except Err β) (l : List α) (e : Err)
    (h : l.mapM f = .error e) : ∃ a ∈ l, f a = .error e := by
  induction l with
  | nil => cases h
  | cons a l ih =>
    rw [List.mapM_cons] at h
    cases hfa : f a with
    | error e' =>
      rw [hfa] at h
      simp only [bind, Except.bind] at h
      cases h
      exact ⟨a, List.mem_cons_self a l, hfa⟩
    | ok b =>
      rw [hfa] at h
      cases hfl : l.mapM f with
      | error e' =>
        rw [hfl] at h
        simp only [bind, Except.bind] at h
        cases h
        obtain ⟨x, hx, hfx⟩ := ih hfl
        exact ⟨x, List.mem_cons_of_mem a hx, hfx⟩
      | ok bs =>
        rw [hfl] at h
        simp [bind, Except.bind, pure, Except.pure] at h

theorem exceptMapM_length {α β : Type} (f : α → Except Err β) (l : List α) (r : List β)
    (h : l.mapM f = .ok r) : r.length = l.length :=
  ((exceptMapM_ok_iff f l r).mp h).length_eq.symm

/-! ## Validation (claim C8) -/

theorem dedupKeysLast_aux_nodup {α : Type} (l acc : List (Nat × α))
    (h : (acc.map Prod.fst).Nodup) :
    ((l.foldl (fun acc kv => acc.filter (fun p => p.1 ≠ kv.1) ++ [kv]) acc).map
      Prod.fst).Nodup := by
  induction l generalizing acc with
  | nil => exact h
  | cons kv l ih =>
    simp only [List.foldl_cons]
    refine ih _ ?_
    rw [List.map_append, List.nodup_append]
    refine ⟨?_, List.nodup_singleton _, ?_⟩
    · exact h.sublist ((List.filter_sublist acc).map Prod.fst)
    · intro x hx
      simp only [List.map_cons, List.map_nil, List.mem_singleton]
      obtain ⟨p, hp, rfl⟩ := List.mem_map.mp hx
      have := List.of_mem_filter hp
      simpa using this

theorem dedupKeysLast_nodup {α : Type} (l : List (Nat × α)) :
    ((dedupKeysLast l).map Prod.fst).Nodup :=
  dedupKeysLast_aux_nodup l [] List.nodup_nil

/-- **C8.**  The claim asserts that a schema missing either top-level
collection, *or containing a duplicate vertex or edge id*, fails with
`MalformedSchema`.  The first half is what the code does; the second half
is not: the duplicate check compares `len(schema[...].keys())` with
`len(set(...))` on the already-parsed dictionary, whose keys are always
unique because `json.load` collapses duplicate keys, so it can never fire.
Amended claim: a raw schema missing `Vertices` or `Edges` raises the
classified `MalformedSchema` error, and for every raw schema with both
keys present — duplicate ids included — validation never raises
`MalformedSchema`. -/
theorem C8_validation (r : RawSchema K) :
    ((r.vertices = none ∨ r.edges = none) →
        validateSchema (jsonLoad r) = .error .malformedSchema
          ∧ Err.isValueError .malformedSchema = true) ∧
      (∀ vs es, r.vertices = some vs → r.edges = some es →
        validateSchema (jsonLoad r) ≠ .error .malformedSchema) := by
  constructor
  · rintro (h | h) <;>
      simp only [validateSchema, jsonLoad, h, Option.map_none', Option.map_some'] <;>
      [cases r.edges.map dedupKeysLast <;> simp [Err.isValueError];
        simp [Err.isValueError]]
  · intro vs es hv he
    simp only [validateSchema, jsonLoad, hv, he, Option.map_some']
    have h1 : ((dedupKeysLast es).map Prod.fst).dedup = (dedupKeysLast es).map Prod.fst :=
      List.dedup_eq_self.mpr (dedupKeysLast_nodup es)
    have h2 : ((dedupKeysLast vs).map Prod.fst).dedup = (dedupKeysLast vs).map Prod.fst :=
      List.dedup_eq_self.mpr (dedupKeysLast_nodup vs)
    rw [h1, h2]
    simp only [ne_eq, not_true_eq_false, or_self, if_false]
    by_cases hcb :
        0 < (cycleBasis (createGraph (dedupKeysLast vs) (dedupKeysLast es))).length <;>
      simp [findPath, hcb, Except.map]

/-- **C8 counterexample.**  A raw schema with both top-level keys and a
*duplicate edge id* (`dupEdgeRaw` has edge id `1` twice) is claimed to
raise `MalformedSchema`; instead validation succeeds and returns the
triangle cycle. -/
theorem C8_counterexample :
    validateSchema (jsonLoad dupEdgeRaw)
      = .ok ([[1, 2, 3]], ⟨[1, 2, 3], [(1, 2), (2, 3), (1, 3)]⟩) := rfl

theorem C8_validation_witness :
    ((validateSchema (jsonLoad noEdgesRaw) = .error .malformedSchema
          ∧ Err.isValueError .malformedSchema = true)
        ∧ validateSchema (jsonLoad dupEdgeRaw) ≠ .error .malformedSchema) :=
  ⟨(C8_validation noEdgesRaw).1 (Or.inr rfl),
    (C8_validation dupEdgeRaw).2 _ _ rfl rfl⟩

/-! ## Batch processing (claim C10) -/

/-- **C10.**  The claim asserts that *any* per-schema error
(`MalformedSchema`, `NoClosedCurve`, `DegenerateArc`, `ParseFailure`)
leaves the remaining schemas processed.  In the code only `ValueError` is
caught, so only the `ValueError`-class errors (`MalformedSchema`,
`ParseFailure`, math-domain errors) are reported per schema; an uncaught
class (`NetworkXNoCycle` alias `NoClosedCurve`, or the
`ZeroDivisionError` of a degenerate arc) propagates out of the loop and
aborts the remaining batch.  Amended claim: a `ValueError`-class failure
of one schema is reported individually, yields no price for that schema
and does not prevent the remaining schemas from being processed; a
successful schema contributes exactly its formatted price; any other
error class aborts the batch with no further schemas processed. -/
theorem C10_batch [FloorRing K] (ops : MathOps K) (n : String)
    (d : Except Err (RawSchema K)) (rest : List (String × Except Err (RawSchema K))) :
    (∀ p, runSchema ops d = .ok p →
        pymain ops ((n, d) :: rest)
          = (.priced n (costFormat p) :: (pymain ops rest).1, (pymain ops rest).2)) ∧
      (∀ e, runSchema ops d = .error e → e.isValueError = true →
        pymain ops ((n, d) :: rest)
          = (.failed n :: (pymain ops rest).1, (pymain ops rest).2)) ∧
      (∀ e, runSchema ops d = .error e → e.isValueError = false →
        pymain ops ((n, d) :: rest) = ([], some e)) := by
  refine ⟨fun p hp => ?_, fun e he hve => ?_, fun e he hve => ?_⟩
  · simp [pymain, hp]
  · simp [pymain, he, hve]
  · simp [pymain, he, hve]

/-- **C10 counterexample.**  A batch whose first schema has no closed
curve: the `NetworkXNoCycle` exception is not a `ValueError`, so the
batch aborts and the valid second schema is never processed (no output
line at all is produced). -/
theorem C10_counterexample :
    pymain ratOps [("a", .ok pathSchema), ("b", .ok sqSchema)]
      = ([], some .noClosedCurve) := rfl

theorem C10_batch_witness :
    (pymain ratOps [("m", .ok noEdgesRaw), ("m2", .ok noEdgesRaw)]
        = ([.failed "m", .failed "m2"], none))
      ∧ pymain ratOps [("a", .ok pathSchema)] = ([], some .noClosedCurve) := by
  constructor
  · have h2 : pymain ratOps [("m2", .ok noEdgesRaw)]
        = (.failed "m2" :: (pymain ratOps ([] : List (String × Except Err (RawSchema ℚ)))).1,
          (pymain ratOps ([] : List (String × Except Err (RawSchema ℚ)))).2) :=
      (C10_batch ratOps "m2" (.ok noEdgesRaw) []).2.1 .malformedSchema rfl rfl
    have h1 := (C10_batch ratOps "m" (.ok noEdgesRaw)
      [("m2", .ok noEdgesRaw)]).2.1 .malformedSchema rfl rfl
    rw [h1, h2]
    rfl
  · exact (C10_batch ratOps "a" (.ok pathSchema) []).2.2 .noClosedCurve rfl rfl

/-! ## Degenerate arcs (claim C7) -/

/-- **C7.**  The claim asserts a classified `DegenerateArc` error for an
arc whose endpoints coincide.  No such error class exists in the code: the
computation proceeds into the `boxPoints` division by the (zero) chord
length and dies there with an *uncaught* `ZeroDivisionError` (not a
`ValueError`, so `main` does not even report it per-schema).  Amended
claim: for every arc whose two endpoint ids resolve to identical
coordinates (zero chord), with a nonzero start-derived radius,
`computeValues`' per-edge computation raises `ZeroDivisionError` at the
`boxPoints` chord division, an error class that is not caught. -/
theorem C7_degenerate_arc (ops : MathOps K) (vs : List (Nat × Pt K)) (e : PyEdge K)
    (f : Nat) (c0 : Pt K)
    (htype : e.type = .circularArc)
    (hfil : arcFinish e = .ok f)
    (hs : getKey vs e.cwFrom = .ok c0) (hf : getKey vs f = .ok c0)
    (hz : ops.sqrt 0 = 0)
    (hr : ops.sqrt ((e.center.1 - c0.1) ^ 2 + (e.center.2 - c0.2) ^ 2) ≠ 0) :
    edgeValues ops vs e = .error .zeroDivisionError
      ∧ Err.isValueError .zeroDivisionError = false := by
  refine ⟨?_, rfl⟩
  have hd : ¬((e.center.1 - c0.1) ^ 2 + (e.center.2 - c0.2) ^ 2 < 0) :=
    not_lt.mpr (by positivity)
  have h2r : 2 * ops.sqrt ((e.center.1 - c0.1) ^ 2 + (e.center.2 - c0.2) ^ 2) ≠ 0 :=
    mul_ne_zero two_ne_zero hr
  have hsr : ¬(ops.sqrt ((e.center.1 - c0.1) ^ 2 + (e.center.2 - c0.2) ^ 2) ^ 2 < 0) :=
    not_lt.mpr (sq_nonneg _)
  simp only [edgeValues, htype, hfil, hs, hf, bind, Except.bind, pysqrt, pydiv, pyasin,
    sub_self, ne_eq, OfNat.ofNat_ne_zero, not_false_eq_true, zero_pow, add_zero,
    if_neg hd, if_neg h2r, zero_div, if_neg two_ne_zero, if_neg four_ne_zero, hz,
    mul_zero, zero_mul, if_pos rfl]
  norm_num [if_neg hsr]

theorem C7_degenerate_arc_witness :
    edgeValues ratOps [(4, ((5 : ℚ), 5)), (5, (5, 5))] ⟨.circularArc, 4, 5, (0, 0), 4⟩
        = .error .zeroDivisionError ∧ Err.isValueError .zeroDivisionError = false :=
  C7_degenerate_arc ratOps _ _ 5 (5, 5) rfl rfl rfl rfl rfl (by norm_num [ratOps])

/-- **C7 counterexample.**  On a concrete schema with a zero-chord arc the
pipeline does *not* raise a classified `DegenerateArc` schema error: it
proceeds into the `boxPoints` computation and raises the
`ZeroDivisionError` of the chord division. -/
theorem C7_counterexample : processOne ratOps degArcSchema = .error .zeroDivisionError := by
  have h1 : validateSchema degArcSchema
      = .ok ([[1, 2, 3]], ⟨[1, 2, 3, 4, 5], [(1, 2), (2, 3), (1, 3), (4, 5)]⟩) := rfl
  have h2 : computeValues ratOps degArcSchema = .error .zeroDivisionError := by
    norm_num [computeValues, degArcSchema, edgeValues, arcFinish, getKey, pysqrt, pydiv,
      pyasin, ratOps, List.foldlM_cons, List.foldlM_nil, bind, Except.bind, pure,
      Except.pure, List.find?, List.filter]
  simp [processOne, h1, h2, bind, Except.bind]

/-! ## Inconsistent arcs use the start-derived radius (claim C9) -/

/-- **C9.**  The claim has two parts.  The second part is what the code
does: nothing compares the two endpoint distances, and every downstream
quantity (sector length, sagitta, `boxPoints`, hence also the cut cost,
which reads the stored `radius`) is derived from the distance between
`Center` and the `ClockwiseFrom` vertex.  The first part — "the pipeline
accepts the schema without raising any error" — fails: when the chord is
longer than twice the start-derived radius, `math.asin` (or `math.sqrt`
in the sagitta) raises a domain `ValueError` (see the counterexample).
Amended claim: an inconsistent arc is accepted *provided* the chord is
nonzero and compatible with the start-derived radius (`asin` argument in
`[-1, 1]`, nonnegative sagitta radicand, nonzero radius), and then the
radius used everywhere downstream is the start-derived one. -/
theorem C9_start_radius (ops : MathOps K) (vs : List (Nat × Pt K)) (e : PyEdge K)
    (f : Nat) (sc fc : Pt K)
    (htype : e.type = .circularArc)
    (hfil : arcFinish e = .ok f)
    (hs : getKey vs e.cwFrom = .ok sc) (hf : getKey vs f = .ok fc)
    (hr : ops.sqrt ((e.center.1 - sc.1) ^ 2 + (e.center.2 - sc.2) ^ 2) ≠ 0)
    (hch : ops.sqrt ((fc.1 - sc.1) ^ 2 + (fc.2 - sc.2) ^ 2) ≠ 0)
    (hasin : ¬(ops.sqrt ((fc.1 - sc.1) ^ 2 + (fc.2 - sc.2) ^ 2)
          / (2 * ops.sqrt ((e.center.1 - sc.1) ^ 2 + (e.center.2 - sc.2) ^ 2)) < -1
        ∨ 1 < ops.sqrt ((fc.1 - sc.1) ^ 2 + (fc.2 - sc.2) ^ 2)
          / (2 * ops.sqrt ((e.center.1 - sc.1) ^ 2 + (e.center.2 - sc.2) ^ 2))))
    (hsag : ¬(ops.sqrt ((e.center.1 - sc.1) ^ 2 + (e.center.2 - sc.2) ^ 2) ^ 2
        - ops.sqrt ((fc.1 - sc.1) ^ 2 + (fc.2 - sc.2) ^ 2) ^ 2 / 4 < 0)) :
    edgeValues ops vs e
      = .ok (.arc e.cwFrom f e.center
          (ops.sqrt ((e.center.1 - sc.1) ^ 2 + (e.center.2 - sc.2) ^ 2))
          (ops.sqrt ((fc.1 - sc.1) ^ 2 + (fc.2 - sc.2) ^ 2))
          ((sc.1 + fc.1) / 2, (sc.2 + fc.2) / 2)
          (2 * ops.sqrt ((e.center.1 - sc.1) ^ 2 + (e.center.2 - sc.2) ^ 2)
            * ops.asin (ops.sqrt ((fc.1 - sc.1) ^ 2 + (fc.2 - sc.2) ^ 2)
              / (2 * ops.sqrt ((e.center.1 - sc.1) ^ 2 + (e.center.2 - sc.2) ^ 2))))
          (ops.sqrt ((e.center.1 - sc.1) ^ 2 + (e.center.2 - sc.2) ^ 2)
            - ops.sqrt (ops.sqrt ((e.center.1 - sc.1) ^ 2 + (e.center.2 - sc.2) ^ 2) ^ 2
              - ops.sqrt ((fc.1 - sc.1) ^ 2 + (fc.2 - sc.2) ^ 2) ^ 2 / 4))
          [(sc.1 + (ops.sqrt ((e.center.1 - sc.1) ^ 2 + (e.center.2 - sc.2) ^ 2)
                - ops.sqrt (ops.sqrt ((e.center.1 - sc.1) ^ 2 + (e.center.2 - sc.2) ^ 2) ^ 2
                  - ops.sqrt ((fc.1 - sc.1) ^ 2 + (fc.2 - sc.2) ^ 2) ^ 2 / 4)) * (fc.2 - sc.2)
                / ops.sqrt ((fc.1 - sc.1) ^ 2 + (fc.2 - sc.2) ^ 2),
              sc.2 - (ops.sqrt ((e.center.1 - sc.1) ^ 2 + (e.center.2 - sc.2) ^ 2)
                - ops.sqrt (ops.sqrt ((e.center.1 - sc.1) ^ 2 + (e.center.2 - sc.2) ^ 2) ^ 2
                  - ops.sqrt ((fc.1 - sc.1) ^ 2 + (fc.2 - sc.2) ^ 2) ^ 2 / 4)) * (fc.1 - sc.1)
                / ops.sqrt ((fc.1 - sc.1) ^ 2 + (fc.2 - sc.2) ^ 2)),
            (sc.1 - (ops.sqrt ((e.center.1 - sc.1) ^ 2 + (e.center.2 - sc.2) ^ 2)
                - ops.sqrt (ops.sqrt ((e.center.1 - sc.1) ^ 2 + (e.center.2 - sc.2) ^ 2) ^ 2
                  - ops.sqrt ((fc.1 - sc.1) ^ 2 + (fc.2 - sc.2) ^ 2) ^ 2 / 4)) * (fc.2 - sc.2)
                / ops.sqrt ((fc.1 - sc.1) ^ 2 + (fc.2 - sc.2) ^ 2),
              sc.2 + (ops.sqrt ((e.center.1 - sc.1) ^ 2 + (e.center.2 - sc.2) ^ 2)
                - ops.sqrt (ops.sqrt ((e.center.1 - sc.1) ^ 2 + (e.center.2 - sc.2) ^ 2) ^ 2
                  - ops.sqrt ((fc.1 - sc.1) ^ 2 + (fc.2 - sc.2) ^ 2) ^ 2 / 4)) * (fc.1 - sc.1)
                / ops.sqrt ((fc.1 - sc.1) ^ 2 + (fc.2 - sc.2) ^ 2)),
            (fc.1 - (ops.sqrt ((e.center.1 - sc.1) ^ 2 + (e.center.2 - sc.2) ^ 2)
                - ops.sqrt (ops.sqrt ((e.center.1 - sc.1) ^ 2 + (e.center.2 - sc.2) ^ 2) ^ 2
                  - ops.sqrt ((fc.1 - sc.1) ^ 2 + (fc.2 - sc.2) ^ 2) ^ 2 / 4)) * (fc.2 - sc.2)
                / ops.sqrt ((fc.1 - sc.1) ^ 2 + (fc.2 - sc.2) ^ 2),
              fc.2 + (ops.sqrt ((e.center.1 - sc.1) ^ 2 + (e.center.2 - sc.2) ^ 2)
                - ops.sqrt (ops.sqrt ((e.center.1 - sc.1) ^ 2 + (e.center.2 - sc.2) ^ 2) ^ 2
                  - ops.sqrt ((fc.1 - sc.1) ^ 2 + (fc.2 - sc.2) ^ 2) ^ 2 / 4)) * (fc.1 - sc.1)
                / ops.sqrt ((fc.1 - sc.1) ^ 2 + (fc.2 - sc.2) ^ 2)),
            (fc.1 + (ops.sqrt ((e.center.1 - sc.1) ^ 2 + (e.center.2 - sc.2) ^ 2)
                - ops.sqrt (ops.sqrt ((e.center.1 - sc.1) ^ 2 + (e.center.2 - sc.2) ^ 2) ^ 2
                  - ops.sqrt ((fc.1 - sc.1) ^ 2 + (fc.2 - sc.2) ^ 2) ^ 2 / 4)) * (fc.2 - sc.2)
                / ops.sqrt ((fc.1 - sc.1) ^ 2 + (fc.2 - sc.2) ^ 2),
              fc.2 - (ops.sqrt ((e.center.1 - sc.1) ^ 2 + (e.center.2 - sc.2) ^ 2)
                - ops.sqrt (ops.sqrt ((e.center.1 - sc.1) ^ 2 + (e.center.2 - sc.2) ^ 2) ^ 2
                  - ops.sqrt ((fc.1 - sc.1) ^ 2 + (fc.2 - sc.2) ^ 2) ^ 2 / 4)) * (fc.1 - sc.1)
                / ops.sqrt ((fc.1 - sc.1) ^ 2 + (fc.2 - sc.2) ^ 2))]) := by
  have hdc : ¬((e.center.1 - sc.1) ^ 2 + (e.center.2 - sc.2) ^ 2 < 0) :=
    not_lt.mpr (by positivity)
  have hdf : ¬((fc.1 - sc.1) ^ 2 + (fc.2 - sc.2) ^ 2 < 0) :=
    not_lt.mpr (by positivity)
  have h2r : 2 * ops.sqrt ((e.center.1 - sc.1) ^ 2 + (e.center.2 - sc.2) ^ 2) ≠ 0 :=
    mul_ne_zero two_ne_zero hr
  simp only [edgeValues, htype, hfil, hs, hf, bind, Except.bind, pysqrt, pydiv, pyasin,
    if_neg hdc, if_neg hdf, if_neg h2r, if_neg hch, if_neg hasin, if_neg hsag]
  norm_num
  rw [if_neg (not_lt.mpr (sub_nonneg.mp (not_lt.mp hsag)))]

theorem C9_start_radius_witness :
    edgeValues ratOps [(1, ((1 : ℚ), 0)), (2, (1, 1))] ⟨.circularArc, 1, 2, (0, 0), 1⟩
      = .ok (.arc 1 2 (0, 0) 1 1 (1, 1 / 2) 1 (1 / 4)
          [(5 / 4, 0), (3 / 4, 0), (3 / 4, 1), (5 / 4, 1)]) := by
  have h := C9_start_radius (K := ℚ) ratOps [(1, (1, 0)), (2, (1, 1))]
    ⟨.circularArc, 1, 2, (0, 0), 1⟩ 2 (1, 0) (1, 1) rfl rfl rfl rfl
    (by norm_num [ratOps]) (by norm_num [ratOps]) (by norm_num [ratOps])
    (by norm_num [ratOps])
  rw [h]
  norm_num [ratOps]

/-- **C9 counterexample.**  An arc whose endpoints lie at different
distances from the declared center (`inconsistentArcSchema`: start at
distance `1`, end at distance `5`) is claimed to be "accepted without
raising any error"; instead, because the chord exceeds twice the
start-derived radius, the `asin` argument leaves `[-1, 1]` and
`computeValues` raises a `math` domain `ValueError`. -/
theorem C9_counterexample :
    computeValues ratOps inconsistentArcSchema = .error .mathDomain := by
  norm_num [computeValues, inconsistentArcSchema, edgeValues, arcFinish, getKey, pysqrt,
    pydiv, pyasin, ratOps, List.foldlM_cons, List.foldlM_nil, bind, Except.bind, pure,
    Except.pure, List.find?, List.filter]

/-! ## The cut-cost contract (claim C2) -/

/-- `schema["Vertices"][str(i)]["Position"]` as a total function (defaults
are never reached on the success paths where it is used). -/
def coordOf (vs : List (Nat × Pt K)) (i : Nat) : Pt K :=
  (((vs.find? (fun p => p.1 = i)).map Prod.snd).getD (0, 0))

/-- The finish vertex of an arc (`[p for p in edge["Vertices"] if str(p)
!= start_id][0]` when that list is non-empty). -/
def specFinish (e : PyEdge K) : Nat :=
  if e.v1 ≠ e.cwFrom then e.v1 else e.v2

/-- Spec: the start-derived arc radius — the distance from `Center` to
the `ClockwiseFrom` vertex. -/
def specRadius (ops : MathOps K) (vs : List (Nat × Pt K)) (e : PyEdge K) : K :=
  ops.sqrt ((e.center.1 - (coordOf vs e.cwFrom).1) ^ 2
    + (e.center.2 - (coordOf vs e.cwFrom).2) ^ 2)

/-- Spec: the chord length of an arc. -/
def specChord (ops : MathOps K) (vs : List (Nat × Pt K)) (e : PyEdge K) : K :=
  ops.sqrt (((coordOf vs (specFinish e)).1 - (coordOf vs e.cwFrom).1) ^ 2
    + ((coordOf vs (specFinish e)).2 - (coordOf vs e.cwFrom).2) ^ 2)

/-- Spec: the cut length of an edge — the Euclidean distance of a
segment, the sector arc length `2 r asin(chord / 2r)` of an arc. -/
def specCutLen (ops : MathOps K) (vs : List (Nat × Pt K)) (e : PyEdge K) : K :=
  match e.type with
  | .lineSegment =>
    ops.sqrt (((coordOf vs e.v2).1 - (coordOf vs e.v1).1) ^ 2
      + ((coordOf vs e.v2).2 - (coordOf vs e.v1).2) ^ 2)
  | .circularArc =>
    2 * specRadius ops vs e
      * ops.asin (specChord ops vs e / (2 * specRadius ops vs e))

/-- Spec: the effective speed of an edge — the nominal laser speed for a
segment, the nominal speed times `exp(-1/radius)` for an arc. -/
def specEffSpeed (ops : MathOps K) (vs : List (Nat × Pt K)) (e : PyEdge K) : K :=
  match e.type with
  | .lineSegment => LASER_SPEED
  | .circularArc => LASER_SPEED * ops.exp (-1 / specRadius ops vs e)

theorem pydiv_ok {a b q : K} (h : pydiv a b = .ok q) : b ≠ 0 ∧ q = a / b := by
  by_cases hb : b = 0
  · rw [pydiv, if_pos hb] at h; cases h
  · rw [pydiv, if_neg hb] at h
    cases h
    exact ⟨hb, rfl⟩

theorem pysqrt_ok (ops : MathOps K) {x y : K} (h : pysqrt ops x = .ok y) :
    y = ops.sqrt x := by
  by_cases hx : x < 0
  · rw [pysqrt, if_pos hx] at h; cases h
  · rw [pysqrt, if_neg hx] at h; cases h; rfl

theorem pyasin_ok (ops : MathOps K) {x y : K} (h : pyasin ops x = .ok y) :
    y = ops.asin x := by
  by_cases hx : x < -1 ∨ 1 < x
  · rw [pyasin, if_pos hx] at h; cases h
  · rw [pyasin, if_neg hx] at h; cases h; rfl

theorem getKey_coordOf {vs : List (Nat × Pt K)} {i : Nat} {p : Pt K}
    (h : getKey vs i = .ok p) : coordOf vs i = p := by
  unfold getKey at h
  unfold coordOf
  cases hf : vs.find? (fun q => q.1 = i) with
  | none => rw [hf] at h; cases h
  | some q => rw [hf] at h; cases h; rfl

/-- Inversion: a successful `LineSegment` entry of `values_dict` is the
record with the Euclidean distance of the segment. -/
theorem edgeValues_seg_spec (ops : MathOps K) (vs : List (Nat × Pt K)) (e : PyEdge K)
    (v : EdgeValues K) (hty : e.type = .lineSegment)
    (h : edgeValues ops vs e = .ok v) :
    v = .seg e.v1 e.v2 (specCutLen ops vs e) := by
  unfold edgeValues at h
  rw [hty] at h
  cases h1 : getKey vs e.v1 with
  | error e1 => simp [h1, bind, Except.bind] at h
  | ok sc =>
    cases h2 : getKey vs e.v2 with
    | error e2 => simp [h1, h2, bind, Except.bind] at h
    | ok fc =>
      simp only [h1, h2, bind, Except.bind] at h
      cases h3 : pysqrt ops ((fc.1 - sc.1) ^ 2 + (fc.2 - sc.2) ^ 2) with
      | error e3 => simp [h3] at h
      | ok d =>
        simp only [h3] at h
        cases h
        rw [specCutLen, hty, getKey_coordOf h1, getKey_coordOf h2, pysqrt_ok ops h3]

/-- A successful finish-vertex selection picks `v1` unless it is the
`ClockwiseFrom` vertex, else `v2`. -/
theorem arcFinish_ok {e : PyEdge K} {f : Nat} (h : arcFinish e = .ok f) :
    f = specFinish e := by
  unfold arcFinish at h
  rw [specFinish]
  by_cases h1 : e.v1 = e.cwFrom <;> by_cases h2 : e.v2 = e.cwFrom <;>
    simp [h1, h2, List.filter] at h ⊢ <;> omega

/-- Inversion: a successful `CircularArc` entry stores the start-derived
radius and the sector length computed from it, and that radius is
nonzero. -/
theorem edgeValues_arc_spec (ops : MathOps K) (vs : List (Nat × Pt K)) (e : PyEdge K)
    (v : EdgeValues K) (hty : e.type = .circularArc)
    (h : edgeValues ops vs e = .ok v) :
    v.getArcData = .ok (specCutLen ops vs e, specRadius ops vs e)
      ∧ specRadius ops vs e ≠ 0 := by
  unfold edgeValues at h
  rw [hty] at h
  cases hfl : arcFinish e with
  | error e0 => simp [hfl, bind, Except.bind] at h
  | ok f =>
    have hfin : f = specFinish e := arcFinish_ok hfl
    simp only [hfl, bind, Except.bind] at h
    cases h1 : getKey vs e.cwFrom with
    | error e1 => simp [h1] at h
    | ok sc =>
      simp only [h1] at h
      cases h2 : getKey vs f with
      | error e2 => simp [h2] at h
      | ok fc =>
        simp only [h2] at h
        cases h3 : pysqrt ops ((e.center.1 - sc.1) ^ 2 + (e.center.2 - sc.2) ^ 2) with
        | error e3 => simp [h3] at h
        | ok radius =>
          simp only [h3] at h
          cases h4 : pysqrt ops ((fc.1 - sc.1) ^ 2 + (fc.2 - sc.2) ^ 2) with
          | error e4 => simp [h4] at h
          | ok chord =>
            simp only [h4] at h
            cases h5 : pydiv (sc.1 + fc.1) 2 with
            | error e5 => simp [h5] at h
            | ok mx =>
              simp only [h5] at h
              cases h6 : pydiv (sc.2 + fc.2) 2 with
              | error e6 => simp [h6] at h
              | ok my =>
                simp only [h6] at h
                cases h7 : pydiv chord (2 * radius) with
                | error e7 => simp [h7] at h
                | ok asinArg =>
                  simp only [h7] at h
                  cases h8 : pyasin ops asinArg with
                  | error e8 => simp [h8] at h
                  | ok asinVal =>
                    simp only [h8] at h
                    cases h9 : pydiv (chord ^ 2) 4 with
                    | error e9 => simp [h9] at h
                    | ok csq =>
                      simp only [h9] at h
                      cases h10 : pysqrt ops (radius ^ 2 - csq) with
                      | error e10 => simp [h10] at h
                      | ok sroot =>
                        simp only [h10] at h
                        cases h11 : pydiv ((radius - sroot) * (fc.2 - sc.2)) chord with
                        | error e11 => simp [h11] at h
                        | ok ty =>
                          simp only [h11] at h
                          cases h12 : pydiv ((radius - sroot) * (fc.1 - sc.1)) chord with
                          | error e12 => simp [h12] at h
                          | ok tx =>
                            simp only [h12] at h
                            cases h
                            have hrad : radius
                                = specRadius ops vs e := by
                              rw [specRadius, getKey_coordOf h1, pysqrt_ok ops h3]
                            have hchord : chord = specChord ops vs e := by
                              rw [specChord, getKey_coordOf h1, ← hfin,
                                getKey_coordOf h2, pysqrt_ok ops h4]
                            obtain ⟨h2r, harg⟩ := pydiv_ok h7
                            have hrne : radius ≠ 0 := fun hr0 => h2r (by rw [hr0, mul_zero])
                            refine ⟨?_, hrad ▸ hrne⟩
                            rw [EdgeValues.getArcData, specCutLen, hty,
                              pyasin_ok ops h8, harg, hrad, hchord]

theorem foldlM_append_eq_mapM {α β : Type} (f : α → Except Err β) :
    ∀ (l : List α) (acc : List β),
      l.foldlM (fun acc a => do
          let b ← f a
          pure (acc ++ [b])) acc
        = (l.mapM f).map (fun r => acc ++ r) := by
  intro l
  induction l with
  | nil =>
    intro acc
    rw [List.foldlM_nil, List.mapM_nil]
    simp [Except.map, pure, Except.pure]
  | cons a l ih =>
    intro acc
    rw [List.foldlM_cons, List.mapM_cons]
    simp only [bind, Except.bind, pure, Except.pure] at ih ⊢
    cases hfa : f a with
    | error e => simp [hfa, Except.map]
    | ok b =>
      simp only [hfa]
      rw [ih (acc ++ [b])]
      cases hl : l.mapM f with
      | error e => simp [hl, Except.map]
      | ok bs => simp [hl, Except.map]

/-- `computeValues` is the element-wise run of `edgeValues` over the edge
list, pairing each result with its edge id. -/
theorem computeValues_eq_mapM (ops : MathOps K) (s : PySchema K)
    (es : List (Nat × PyEdge K)) (vs : List (Nat × Pt K))
    (hes : s.edges = some es) (hvs : s.vertices = some vs) :
    computeValues ops s
      = es.mapM (fun ke => (edgeValues ops vs ke.2).map (fun v => (ke.1, v))) := by
  unfold computeValues
  rw [hes]
  have hbody : (fun (acc : List (Nat × EdgeValues K)) (ke : Nat × PyEdge K) => do
        let vsv ←
          (match s.vertices with
            | some vs => .ok vs
            | none => .error .keyError : Except Err (List (Nat × Pt K)))
        let v ← edgeValues ops vsv ke.2
        Except.ok (acc ++ [(ke.1, v)]))
      = (fun acc ke => do
        let b ← (edgeValues ops vs ke.2).map (fun v => (ke.1, v))
        pure (acc ++ [b])) := by
    funext acc ke
    rw [hvs]
    cases h : edgeValues ops vs ke.2 <;>
      simp [h, bind, Except.bind, pure, Except.pure, Except.map]
  dsimp only
  rw [hbody, foldlM_append_eq_mapM]
  cases h : es.mapM (fun ke => (edgeValues ops vs ke.2).map (fun v => (ke.1, v))) <;>
    simp [h, Except.map]

/-- With duplicate-free edge ids, every edge's `values_dict` lookup
returns the entry `edgeValues` computed for it. -/
theorem computeValues_lookup (ops : MathOps K) (s : PySchema K)
    (es : List (Nat × PyEdge K)) (vs : List (Nat × Pt K))
    (hes : s.edges = some es) (hvs : s.vertices = some vs)
    (hnd : (es.map Prod.fst).Nodup)
    (vd : List (Nat × EdgeValues K)) (hvd : computeValues ops s = .ok vd) :
    ∀ ke ∈ es, ∃ v, getKey vd ke.1 = .ok v ∧ edgeValues ops vs ke.2 = .ok v := by
  rw [computeValues_eq_mapM ops s es vs hes hvs] at hvd
  have hf2 := (exceptMapM_ok_iff _ es vd).mp hvd
  clear hvd hes
  revert hnd
  induction hf2 with
  | nil => intro hnd ke hke; cases hke
  | cons hab htl ih =>
    rename_i ke0 kv0 esr vdr
    intro hnd ke hke
    have hkv0 : ∃ v0, edgeValues ops vs ke0.2 = .ok v0 ∧ kv0 = (ke0.1, v0) := by
      cases h : edgeValues ops vs ke0.2 with
      | error e => rw [h] at hab; cases hab
      | ok v0 => rw [h] at hab; cases hab; exact ⟨v0, rfl, rfl⟩
    obtain ⟨v0, hv0, rfl⟩ := hkv0
    rcases List.mem_cons.mp hke with rfl | hmem
    · refine ⟨v0, ?_, hv0⟩
      unfold getKey
      simp [List.find?]
    · have hnd' : (esr.map Prod.fst).Nodup := (List.nodup_cons.mp hnd).2
      have hne : ke.1 ≠ ke0.1 := by
        intro hc
        exact (List.nodup_cons.mp hnd).1 (hc ▸ List.mem_map_of_mem Prod.fst hmem)
      obtain ⟨v, hv, hev⟩ := ih hnd' ke hmem
      refine ⟨v, ?_, hev⟩
      unfold getKey at hv ⊢
      rw [List.find?_cons_of_neg]
      · exact hv
      · simp only [decide_eq_true_eq]
        exact Ne.symm hne

theorem arcLength_fold (ops : MathOps K) (vs : List (Nat × Pt K))
    (vd : List (Nat × EdgeValues K)) :
    ∀ (el : List (Nat × PyEdge K)) (acc c : K),
      (∀ ke ∈ el, ∃ v, getKey vd ke.1 = .ok v ∧ edgeValues ops vs ke.2 = .ok v) →
      el.foldlM (arcStep ops vd) acc = .ok c →
      c = acc + (el.map (fun ke =>
        specCutLen ops vs ke.2 / specEffSpeed ops vs ke.2 * TIME_COST)).sum := by
  intro el
  induction el with
  | nil =>
    intro acc c _ h
    rw [List.foldlM_nil] at h
    cases h
    simp
  | cons ke el ih =>
    intro acc c hlk h
    rw [List.foldlM_cons] at h
    obtain ⟨v, hv, hev⟩ := hlk ke (List.mem_cons_self ke el)
    have hlk' : ∀ ke' ∈ el, ∃ v, getKey vd ke'.1 = .ok v
        ∧ edgeValues ops vs ke'.2 = .ok v :=
      fun ke' hke' => hlk ke' (List.mem_cons_of_mem ke hke')
    cases hty : ke.2.type with
    | lineSegment =>
      have hseg := edgeValues_seg_spec ops vs ke.2 v hty hev
      have hls : (LASER_SPEED : K) ≠ 0 := by rw [LASER_SPEED]; norm_num
      have hstep : arcStep ops vd acc ke
          = .ok (acc + specCutLen ops vs ke.2 / LASER_SPEED * TIME_COST) := by
        rw [arcStep, hty]
        simp [hv, hseg, EdgeValues.getDist, pydiv, if_neg hls, bind, Except.bind]
      rw [hstep] at h
      simp only [bind, Except.bind] at h
      have hc := ih _ _ hlk' h
      rw [hc, List.map_cons, List.sum_cons, add_assoc]
      have heff : specEffSpeed ops vs ke.2 = LASER_SPEED := by
        rw [specEffSpeed, hty]
      rw [heff]
    | circularArc =>
      obtain ⟨hsr, hrne⟩ := edgeValues_arc_spec ops vs ke.2 v hty hev
      have hw : pydiv (-1) (specRadius ops vs ke.2)
          = .ok (-1 / specRadius ops vs ke.2) := by
        rw [pydiv, if_neg hrne]
      have hstep : arcStep ops vd acc ke
          = (pydiv (specCutLen ops vs ke.2)
              (LASER_SPEED * ops.exp (-1 / specRadius ops vs ke.2))).bind
            (fun q => .ok (acc + q * TIME_COST)) := by
        rw [arcStep, hty]
        simp [hv, hsr, hw, bind, Except.bind, Except.bind.eq_def]
      rw [hstep] at h
      cases hq : pydiv (specCutLen ops vs ke.2)
          (LASER_SPEED * ops.exp (-1 / specRadius ops vs ke.2)) with
      | error e =>
        rw [hq] at h
        simp [bind, Except.bind, Except.bind.eq_def] at h
      | ok q =>
        rw [hq] at h
        simp only [Except.bind, bind, Except.bind.eq_def] at h
        have hc := ih _ _ hlk' h
        obtain ⟨_, hqv⟩ := pydiv_ok hq
        rw [hc, List.map_cons, List.sum_cons, add_assoc, hqv]
        have heff : specEffSpeed ops vs ke.2
            = LASER_SPEED * ops.exp (-1 / specRadius ops vs ke.2) := by
          rw [specEffSpeed, hty]
        rw [heff]

/-- **C2.**  The total cut cost is the sum over all edges of
`(cut length / effective speed) × TIME_COST`, with a `LineSegment`'s cut
length its Euclidean distance at the nominal laser speed, and a
`CircularArc`'s cut length the sector arc length at the nominal speed
times `exp(-1/radius)`, the radius being the distance from the declared
center to the `clockwiseFrom` vertex. -/
theorem C2_cut_cost (ops : MathOps K) (s : PySchema K)
    (es : List (Nat × PyEdge K)) (vs : List (Nat × Pt K))
    (hes : s.edges = some es) (hvs : s.vertices = some vs)
    (hnd : (es.map Prod.fst).Nodup)
    (vd : List (Nat × EdgeValues K)) (hvd : computeValues ops s = .ok vd)
    (c : K) (hc : arcLength ops s vd = .ok c) :
    c = (es.map (fun ke =>
      specCutLen ops vs ke.2 / specEffSpeed ops vs ke.2 * TIME_COST)).sum := by
  have hlk := computeValues_lookup ops s es vs hes hvs hnd vd hvd
  unfold arcLength at hc
  rw [hes] at hc
  have hres := arcLength_fold ops vs vd es 0 c hlk hc
  rwa [zero_add] at hres

/-- A schema with one segment and one arc, used to instantiate C2. -/
def arcSegSchema : PySchema ℚ :=
  { vertices := some [(1, (1, 0)), (2, (1, 1))]
    edges := some
      [(1, ⟨.lineSegment, 1, 2, (0, 0), 0⟩), (2, ⟨.circularArc, 1, 2, (0, 0), 1⟩)] }

/-- The `values_dict` of `arcSegSchema` under the dummy `ℚ`
interpretation. -/
def arcSegVals : List (Nat × EdgeValues ℚ) :=
  [(1, .seg 1 2 1),
    (2, .arc 1 2 (0, 0) 1 1 (1, 1 / 2) 1 (1 / 4)
      [(5 / 4, 0), (3 / 4, 0), (3 / 4, 1), (5 / 4, 1)])]

theorem C2_cut_cost_witness :
    ((7 : ℚ) / 25) = (((arcSegSchema.edges).getD []).map (fun ke =>
      specCutLen ratOps (((arcSegSchema.vertices).getD [])) ke.2
        / specEffSpeed ratOps (((arcSegSchema.vertices).getD [])) ke.2
        * TIME_COST)).sum := by
  have hvd : computeValues ratOps arcSegSchema = .ok arcSegVals := by
    norm_num [computeValues, arcSegSchema, arcSegVals, edgeValues, arcFinish, getKey,
      pysqrt, pydiv, pyasin, ratOps, List.foldlM_cons, List.foldlM_nil, bind,
      Except.bind, pure, Except.pure, List.find?, List.filter]
  have hc : arcLength ratOps arcSegSchema arcSegVals = .ok (7 / 25) := by
    norm_num [arcLength, arcStep, arcSegSchema, arcSegVals, getKey, EdgeValues.getDist,
      EdgeValues.getArcData, pydiv, ratOps, LASER_SPEED, TIME_COST, List.foldlM_cons,
      List.foldlM_nil, bind, Except.bind, pure, Except.pure, List.find?]
  exact C2_cut_cost ratOps arcSegSchema _ _ rfl rfl (by decide) arcSegVals hvd _ hc

/-! ## Price aggregation (claim C1) -/

theorem foldl_add_mul_sum (f : K → K) :
    ∀ (l : List K) (acc : K),
      l.foldl (fun price region => price + f region) acc = acc + (l.map f).sum := by
  intro l
  induction l with
  | nil => intro acc; simp
  | cons a l ih =>
    intro acc
    rw [List.foldl_cons, ih, List.map_cons, List.sum_cons, add_assoc]

/-- Inversion of a successful validation: the schema had both collections,
the graph is built from them, and `findPath` returned the cycles. -/
theorem validateSchema_ok (s : PySchema K) (cycles : List (List Nat)) (g : PyGraph)
    (h : validateSchema s = .ok (cycles, g)) :
    findPath g = .ok cycles
      ∧ ∃ es vs, s.edges = some es ∧ s.vertices = some vs ∧ g = createGraph vs es := by
  unfold validateSchema at h
  cases hse : s.edges with
  | none => rw [hse] at h; cases h
  | some es =>
    cases hsv : s.vertices with
    | none => rw [hse, hsv] at h; cases h
    | some vs =>
      rw [hse, hsv] at h
      dsimp only at h
      by_cases hif : (es.map Prod.fst).length ≠ (es.map Prod.fst).dedup.length
          ∨ (vs.map Prod.fst).length ≠ (vs.map Prod.fst).dedup.length
      · rw [if_pos hif] at h; cases h
      · rw [if_neg hif] at h
        cases hfp : findPath (createGraph vs es) with
        | error e => rw [hfp] at h; cases h
        | ok cs =>
          rw [hfp] at h
          simp only [Except.map] at h
          cases h
          exact ⟨hfp, es, vs, rfl, rfl, rfl⟩

/-- A successful `computeInnerHull` yields one hull per cycle of
`findPath`. -/
theorem computeInnerHull_length (s : PySchema K) (g : PyGraph)
    (cycles : List (List Nat)) (hfp : findPath g = .ok cycles)
    (ih : List (List Nat)) (h : computeInnerHull s g = .ok ih) :
    ih.length = cycles.length := by
  unfold computeInnerHull at h
  rw [hfp] at h
  simp only [bind, Except.bind] at h
  exact exceptMapM_length _ _ _ h

/-- A successful `computeConvexHull` yields one hull per cycle of
`findPath`. -/
theorem computeConvexHull_length (s : PySchema K) (g : PyGraph)
    (vd : List (Nat × EdgeValues K)) (hulls : List (List (Pt K)))
    (h : computeConvexHull s g vd = .ok hulls)
    (cycles : List (List Nat)) (hfp : findPath g = .ok cycles) :
    hulls.length = cycles.length := by
  unfold computeConvexHull at h
  cases hih : computeInnerHull s g with
  | error e => rw [hih] at h; cases h
  | ok ihl =>
    rw [hih] at h
    simp only [bind, Except.bind] at h
    cases hge : getEdges s with
    | error e => rw [hge] at h; cases h
    | ok es =>
      rw [hge] at h
      dsimp only at h
      have hlen := computeInnerHull_length s g cycles hfp ihl hih
      by_cases hz : (es.filter (fun ke => ke.2.type = .circularArc)).length = 0
      · rw [if_pos hz] at h
        rw [exceptMapM_length _ _ _ h, hlen]
      · rw [if_neg hz] at h
        rw [exceptMapM_length _ _ _ h, hlen]

/-- **C1.**  For a schema whose pipeline stages succeed, the price is
exactly the cut cost plus, for each cycle of the cycle basis, the
material unit cost times that cycle's padded minimum-bounding-rectangle
area — at full precision (there is one area per basis cycle, so a
two-cycle schema contributes both areas); the two-decimal rounding
(`costFormat`) is applied only to the final displayed amount. -/
theorem C1_price [FloorRing K] (ops : MathOps K) (s : PySchema K)
    (cycles : List (List Nat)) (g : PyGraph)
    (h1 : validateSchema s = .ok (cycles, g))
    (vd : List (Nat × EdgeValues K)) (h2 : computeValues ops s = .ok vd)
    (cut : K) (h3 : arcLength ops s vd = .ok cut)
    (hulls : List (List (Pt K))) (h4 : computeConvexHull s g vd = .ok hulls)
    (areas : List K) (h5 : hulls.mapM (findMinimumRectangle ops) = .ok areas) :
    processOne ops s = .ok (cut + (areas.map (fun a => MATERIAL_COST * a)).sum)
      ∧ hulls.length = cycles.length
      ∧ areas.length = cycles.length
      ∧ (∀ (n : String) (r : RawSchema K) rest, jsonLoad r = s →
          pymain ops ((n, .ok r) :: rest)
            = (.priced n (costFormat (cut + (areas.map (fun a => MATERIAL_COST * a)).sum))
                :: (pymain ops rest).1, (pymain ops rest).2)) := by
  have hrc : rotateCalipers ops s g vd
      = .ok ((areas.map (fun a => MATERIAL_COST * a)).sum) := by
    unfold rotateCalipers
    rw [h4]
    simp only [bind, Except.bind]
    rw [h5]
    simp only [pure, Except.pure]
    rw [foldl_add_mul_sum _ areas 0, zero_add]
  have hpo : processOne ops s = .ok (cut + (areas.map (fun a => MATERIAL_COST * a)).sum) := by
    unfold processOne
    rw [h1]
    simp only [bind, Except.bind]
    rw [h2]
    dsimp only
    rw [h3]
    dsimp only
    rw [hrc]
    simp [pure, Except.pure]
  have hfp := (validateSchema_ok s cycles g h1).1
  have hhl := computeConvexHull_length s g vd hulls h4 cycles hfp
  refine ⟨hpo, hhl, ?_, ?_⟩
  · rw [exceptMapM_length _ _ _ h5, hhl]
  · intro n r rest hr
    have hrun : runSchema ops (.ok r)
        = .ok (cut + (areas.map (fun a => MATERIAL_COST * a)).sum) := by
      unfold runSchema
      simp only [bind, Except.bind]
      rw [hr, hpo]
    simp [pymain, hrun]

/-- Push `decide` through coordinate-pair equality (used when evaluating
the pipeline on concrete rational inputs). -/
theorem decide_pt_eq (a b : Pt K) :
    decide (a = b) = (decide (a.1 = b.1) && decide (a.2 = b.2)) := by
  by_cases h1 : a.1 = b.1 <;> by_cases h2 : a.2 = b.2 <;>
    simp [h1, h2, Prod.ext_iff]

/-- A right-triangle schema used to instantiate the pipeline claims. -/
def triSchema : PySchema ℚ :=
  { vertices := some [(1, (0, 0)), (2, (1, 0)), (3, (0, 1))]
    edges := some
      [(1, ⟨.lineSegment, 1, 2, (0, 0), 0⟩), (2, ⟨.lineSegment, 2, 3, (0, 0), 0⟩),
        (3, ⟨.lineSegment, 3, 1, (0, 0), 0⟩)] }

/-- The `values_dict` of `triSchema` under the dummy `ℚ`
interpretation. -/
def triVals : List (Nat × EdgeValues ℚ) :=
  [(1, .seg 1 2 1), (2, .seg 2 3 2), (3, .seg 3 1 1)]

theorem C1_price_witness :
    processOne ratOps triSchema
        = .ok ((14 : ℚ) / 25 + ([(121 : ℚ) / 100].map (fun a => MATERIAL_COST * a)).sum)
      ∧ pymain ratOps [("tri", .ok triSchema)]
        = ([.priced "tri" (costFormat ((14 : ℚ) / 25
            + ([(121 : ℚ) / 100].map (fun a => MATERIAL_COST * a)).sum))], none) := by
  have h1 : validateSchema triSchema = .ok ([[1, 2, 3]], ⟨[1, 2, 3], [(1, 2), (2, 3), (1, 3)]⟩) := rfl
  have h2 : computeValues ratOps triSchema = .ok triVals := by
    norm_num [computeValues, triSchema, triVals, edgeValues, getKey, pysqrt, ratOps,
      List.foldlM_cons, List.foldlM_nil, bind, Except.bind, pure, Except.pure,
      List.find?]
  have h3 : arcLength ratOps triSchema triVals = .ok (14 / 25) := by
    norm_num [arcLength, arcStep, triSchema, triVals, getKey, EdgeValues.getDist,
      pydiv, ratOps, LASER_SPEED, TIME_COST, List.foldlM_cons, List.foldlM_nil,
      bind, Except.bind, pure, Except.pure, List.find?]
  have hfp : findPath (⟨[1, 2, 3], [(1, 2), (2, 3), (1, 3)]⟩ : PyGraph) = .ok [[1, 2, 3]] := rfl
  have h4 : computeConvexHull triSchema ⟨[1, 2, 3], [(1, 2), (2, 3), (1, 3)]⟩ triVals
      = .ok [[(0, 0), (1, 0), (0, 1)]] := by
    norm_num [computeConvexHull, computeInnerHull, hfp, getVerts, getEdges, getKey,
      pointLookup, triSchema, grahams_hull, sortLex, List.insertionSort,
      List.orderedInsert, lexLe, keepLeft, turn, List.foldl, List.mapM_cons,
      List.mapM_nil, List.mapM.loop, bind, Except.bind, pure, Except.pure,
      List.find?, List.filter, Prod.mk.injEq, decide_pt_eq, Bool.decide_and,
      decide_not,
      show decide (PyEdgeType.lineSegment = PyEdgeType.circularArc) = false from rfl,
      show decide (PyEdgeType.circularArc = PyEdgeType.circularArc) = true from rfl]
  have h5 : ([[((0 : ℚ), (0 : ℚ)), (1, 0), (0, 1)]]).mapM (findMinimumRectangle ratOps)
      = .ok [121 / 100] := by
    rw [List.mapM_cons, List.mapM_nil]
    have hm : findMinimumRectangle ratOps [((0 : ℚ), (0 : ℚ)), (1, 0), (0, 1)]
        = .ok (121 / 100) := by
      norm_num [findMinimumRectangle, bestEntryForEdge, comboList, candPts, pairsOf,
        heightNum, widthNum, segLenSq, pydiv, pysqrt, ratOps, PADDING,
        List.foldlM_cons, List.foldlM_nil, bind, Except.bind, pure, Except.pure,
        List.zip, List.zipWith, List.flatMap, List.filter, List.foldl,
        Prod.mk.injEq, CaliperEntry.mk.injEq, decide_pt_eq, Bool.decide_and, decide_not]
    rw [hm]
    rfl
  have h := C1_price ratOps triSchema [[1, 2, 3]] ⟨[1, 2, 3], [(1, 2), (2, 3), (1, 3)]⟩
    h1 triVals h2 (14 / 25) h3 [[(0, 0), (1, 0), (0, 1)]] h4 [121 / 100] h5
  refine ⟨h.1, ?_⟩
  have hline := h.2.2.2 "tri" triSchema [] rfl
  rw [hline]
  rfl

/-! ## Hull expansion (claim C4) -/

/-- The coordinates of a hull given by vertex ids. -/
def hullCoords (s : PySchema K) (hull : List Nat) : Except Err (List (Pt K)) :=
  hull.mapM (fun h => do
    let vs ← getVerts s
    getKey vs h)

theorem foldlM_catlist_eq_mapM {α β : Type} (f : α → Except Err (List β)) :
    ∀ (l : List α) (acc : List β),
      l.foldlM (fun acc a => do
          let b ← f a
          pure (acc ++ b)) acc
        = (l.mapM f).map (fun r => acc ++ r.flatten) := by
  intro l
  induction l with
  | nil =>
    intro acc
    rw [List.foldlM_nil, List.mapM_nil]
    simp [Except.map, pure, Except.pure]
  | cons a l ih =>
    intro acc
    rw [List.foldlM_cons, List.mapM_cons]
    simp only [bind, Except.bind, pure, Except.pure] at ih ⊢
    cases hfa : f a with
    | error e => simp [hfa, Except.map]
    | ok b =>
      simp only [hfa]
      rw [ih (acc ++ b)]
      cases hl : l.mapM f with
      | error e => simp [hl, Except.map]
      | ok bs => simp [hl, Except.map, List.append_assoc]


theorem ebind_ok {α β : Type} (a : α) (f : α → Except Err β) :
    (bind (Except.ok a) f : Except Err β) = f a := rfl

theorem ebind_error {α β : Type} (e : Err) (f : α → Except Err β) :
    (bind (Except.error e : Except Err α) f : Except Err β) = .error e := rfl

/-- **C4.**  If the schema has no `CircularArc` edge, every cycle's
initial Graham hull (as coordinates) is the final hull.  Otherwise each
cycle's final hull is the Graham scan of the initial hull's coordinates
enlarged by, for every consecutive pair of hull vertices (cyclically),
the `boxPoints` of the arcs on the shortest path between them that are
classified as outward extrusions — exactly those whose start
(`clockwiseFrom`) vertex occurs later than their finish vertex in path
order (`pairBoxes`). -/
theorem C4_hull_expansion (s : PySchema K) (g : PyGraph)
    (vd : List (Nat × EdgeValues K)) (es : List (Nat × PyEdge K))
    (hes : s.edges = some es) (hulls : List (List (Pt K)))
    (hok : computeConvexHull s g vd = .ok hulls) :
    ∃ ih, computeInnerHull s g = .ok ih
      ∧ (((es.filter (fun ke => ke.2.type = .circularArc)).length = 0 →
          List.Forall₂ (fun hull fin => hullCoords s hull = .ok fin) ih hulls)
        ∧ ((es.filter (fun ke => ke.2.type = .circularArc)).length ≠ 0 →
          List.Forall₂ (fun hull fin => ∃ coords hd bss,
            hullCoords s hull = .ok coords
              ∧ hull.head? = some hd
              ∧ ((hull ++ [hd]).zip ((hull ++ [hd]).drop 1)).mapM
                  (pairBoxes s g vd es) = .ok bss
              ∧ fin = grahams_hull (coords ++ bss.flatten)) ih hulls)) := by
  have hge : getEdges s = .ok es := by unfold getEdges; rw [hes]
  unfold computeConvexHull at hok
  cases hih : computeInnerHull s g with
  | error e => rw [hih] at hok; cases hok
  | ok ih =>
    rw [hih, ebind_ok] at hok
    rw [hge, ebind_ok] at hok
    refine ⟨ih, rfl, ?_, ?_⟩
    · intro hz
      rw [if_pos hz] at hok
      exact ((exceptMapM_ok_iff _ ih hulls).mp hok).imp (fun {hull fin} h => h)
    · intro hz
      rw [if_neg hz] at hok
      have hfa := (exceptMapM_ok_iff _ ih hulls).mp hok
      refine hfa.imp (fun {hull fin} h => ?_)
      cases hco : hull.mapM (fun h => do
          let vs ← getVerts s
          getKey vs h) with
      | error e => rw [hco, ebind_error] at h; cases h
      | ok coords =>
        rw [hco, ebind_ok] at h
        cases hull with
        | nil => cases h
        | cons h0 ht =>
          rw [show (match (h0 :: ht : List Nat) with
              | [] => Except.error Err.indexError
              | h :: _ => Except.ok h : Except Err Nat) = Except.ok h0 from rfl,
            ebind_ok] at h
          dsimp only at h
          rw [foldlM_catlist_eq_mapM (pairBoxes s g vd es)] at h
          cases hbs : (((h0 :: ht) ++ [h0]).zip (((h0 :: ht) ++ [h0]).drop 1)).mapM
              (pairBoxes s g vd es) with
          | error e => rw [hbs] at h; cases h
          | ok bss =>
            rw [hbs] at h
            simp only [Except.map, ebind_ok, pure, Except.pure, List.nil_append] at h
            cases h
            exact ⟨coords, h0, bss, hco, rfl, hbs, rfl⟩

/-- A triangle whose hypotenuse is a `CircularArc` (declared clockwise
from vertex `3`, so the walk `2 → 3` classifies it as an outward
extrusion). -/
def arcTriSchema : PySchema ℚ :=
  { vertices := some [(1, (0, 0)), (2, (1, 0)), (3, (0, 1))]
    edges := some
      [(1, ⟨.lineSegment, 1, 2, (0, 0), 0⟩),
        (2, ⟨.circularArc, 2, 3, (0, 0), 3⟩),
        (3, ⟨.lineSegment, 3, 1, (0, 0), 0⟩)] }

/-- The `values_dict` of `arcTriSchema` under the dummy `ℚ`
interpretation. -/
def arcTriVals : List (Nat × EdgeValues ℚ) :=
  [(1, .seg 1 2 1),
    (2, .arc 3 2 (0, 0) 1 2 (1 / 2, 1 / 2) 2 1
      [(-(1 / 2), 1 / 2), (1 / 2, 3 / 2), (3 / 2, 1 / 2), (1 / 2, -(1 / 2))]),
    (3, .seg 3 1 1)]

/-- The graph of `arcTriSchema`. -/
def arcTriGraph : PyGraph := ⟨[1, 2, 3], [(1, 2), (2, 3), (1, 3)]⟩

theorem C4_hull_expansion_witness :
    ∃ ih, computeInnerHull arcTriSchema arcTriGraph = .ok ih
      ∧ ((((arcTriSchema.edges.getD []).filter
            (fun ke => ke.2.type = .circularArc)).length = 0 →
          List.Forall₂ (fun hull fin => hullCoords arcTriSchema hull = .ok fin) ih
            [[(-(1 / 2), 1 / 2), (1 / 2, -(1 / 2)), (3 / 2, 1 / 2), (1 / 2, 3 / 2)]])
        ∧ (((arcTriSchema.edges.getD []).filter
            (fun ke => ke.2.type = .circularArc)).length ≠ 0 →
          List.Forall₂ (fun hull fin => ∃ coords hd bss,
            hullCoords arcTriSchema hull = .ok coords
              ∧ hull.head? = some hd
              ∧ ((hull ++ [hd]).zip ((hull ++ [hd]).drop 1)).mapM
                  (pairBoxes arcTriSchema arcTriGraph arcTriVals
                    (arcTriSchema.edges.getD [])) = .ok bss
              ∧ fin = grahams_hull (coords ++ bss.flatten)) ih
            [[(-(1 / 2), 1 / 2), (1 / 2, -(1 / 2)), (3 / 2, 1 / 2), (1 / 2, 3 / 2)]])) := by
  have hih : computeInnerHull arcTriSchema arcTriGraph = .ok [[1, 2, 3]] := by
    norm_num [computeInnerHull,
      show findPath arcTriGraph = .ok [[1, 2, 3]] from rfl,
      getVerts, getKey, pointLookup, arcTriSchema, grahams_hull, sortLex,
      List.insertionSort, List.orderedInsert, lexLe, keepLeft, turn, List.foldl,
      List.mapM_cons, List.mapM_nil, List.mapM.loop, bind, Except.bind, pure,
      Except.pure, List.find?, List.filter, Prod.mk.injEq, decide_pt_eq,
      Bool.decide_and, decide_not]
  have hg : grahams_hull [((0 : ℚ), (0 : ℚ)), (1, 0), (0, 1), (-(1 / 2), 1 / 2),
        (1 / 2, 3 / 2), (3 / 2, 1 / 2), (1 / 2, -(1 / 2))]
      = [(-(1 / 2), 1 / 2), (1 / 2, -(1 / 2)), (3 / 2, 1 / 2), (1 / 2, 3 / 2)] := by
    norm_num [grahams_hull, sortLex, List.insertionSort, List.orderedInsert, lexLe,
      keepLeft, turn, List.foldl, Prod.mk.injEq, decide_pt_eq, Bool.decide_and,
      decide_not]
  have hok : computeConvexHull arcTriSchema arcTriGraph arcTriVals
      = .ok [[(-(1 / 2), 1 / 2), (1 / 2, -(1 / 2)), (3 / 2, 1 / 2), (1 / 2, 3 / 2)]] := by
    calc computeConvexHull arcTriSchema arcTriGraph arcTriVals
        = .ok [grahams_hull [((0 : ℚ), (0 : ℚ)), (1, 0), (0, 1), (-(1 / 2), 1 / 2),
            (1 / 2, 3 / 2), (3 / 2, 1 / 2), (1 / 2, -(1 / 2))]] := by
          simp only [computeConvexHull, hih]
          rfl
      _ = .ok [[(-(1 / 2), 1 / 2), (1 / 2, -(1 / 2)), (3 / 2, 1 / 2), (1 / 2, 3 / 2)]] := by
          rw [hg]
  exact C4_hull_expansion arcTriSchema arcTriGraph arcTriVals
    (arcTriSchema.edges.getD []) rfl _ hok

/-! ## Graph-theoretic semantics of the cycle scan (claim C6) -/

/-- The neighbour relation read off an edge-pair list. -/
def adjE (es : List (Nat × Nat)) (a b : Nat) : Prop :=
  (a, b) ∈ es ∨ (b, a) ∈ es

theorem mem_nbrs {es : List (Nat × Nat)} {x y : Nat} :
    y ∈ nbrs es x ↔ adjE es x y := by
  unfold nbrs adjE
  rw [List.mem_filterMap]
  constructor
  · rintro ⟨⟨p, q⟩, he, hfe⟩
    dsimp only at hfe
    split_ifs at hfe with h1 h2
    · injection hfe with hq
      subst h1; subst hq
      exact Or.inl he
    · injection hfe with hq
      subst h2; subst hq
      exact Or.inr he
  · rintro (h | h)
    · exact ⟨(x, y), h, by simp⟩
    · by_cases hxy : y = x
      · subst hxy
        exact ⟨(y, y), h, by simp⟩
      · exact ⟨(y, x), h, by simp [hxy]⟩

theorem mem_expandR {es : List (Nat × Nat)} {s : List Nat} {x : Nat} :
    x ∈ expandR es s ↔ x ∈ s ∨ ∃ y ∈ s, adjE es y x := by
  unfold expandR
  rw [List.mem_dedup, List.mem_append, List.mem_flatMap]
  simp only [mem_nbrs]

theorem mem_iterate_succ {es : List (Nat × Nat)} {u : Nat} {n : Nat} {x : Nat}
    (h : x ∈ (expandR es)^[n] [u]) : x ∈ (expandR es)^[n + 1] [u] := by
  rw [Function.iterate_succ_apply']
  exact mem_expandR.mpr (Or.inl h)

theorem mem_iterate_le {es : List (Nat × Nat)} {u : Nat} {m n : Nat} (hmn : m ≤ n)
    {x : Nat} (h : x ∈ (expandR es)^[m] [u]) : x ∈ (expandR es)^[n] [u] := by
  obtain ⟨d, rfl⟩ := Nat.le.dest hmn
  induction d with
  | zero => exact h
  | succ d ih =>
    rw [Nat.add_succ]
    exact mem_iterate_succ (ih (Nat.le_add_right m d))

theorem expandR_congr {es : List (Nat × Nat)} {s t : List Nat}
    (h : ∀ x, x ∈ s ↔ x ∈ t) (x : Nat) :
    x ∈ expandR es s ↔ x ∈ expandR es t := by
  simp only [mem_expandR, h]

theorem iterate_subset_verts {es : List (Nat × Nat)} {u : Nat} :
    ∀ n x, x ∈ (expandR es)^[n] [u] → x ∈ u :: es.flatMap (fun e => [e.1, e.2]) := by
  intro n
  induction n with
  | zero =>
    intro x hx
    rw [Function.iterate_zero_apply, List.mem_singleton] at hx
    simp [hx]
  | succ n ih =>
    intro x hx
    rw [Function.iterate_succ_apply'] at hx
    rcases mem_expandR.mp hx with h | ⟨y, hy, hadj⟩
    · exact ih x h
    · rcases hadj with h | h
      · exact List.mem_cons_of_mem _ (List.mem_flatMap.mpr ⟨(y, x), h, by simp⟩)
      · exact List.mem_cons_of_mem _ (List.mem_flatMap.mpr ⟨(x, y), h, by simp⟩)

theorem length_flatMap_pairs (es : List (Nat × Nat)) :
    (es.flatMap (fun e => [e.1, e.2])).length = 2 * es.length := by
  induction es with
  | nil => rfl
  | cons e es ih =>
    rw [List.flatMap_cons, List.length_append, ih, List.length_cons]
    simp
    ring

theorem iterate_stab {es : List (Nat × Nat)} {u : Nat} {k : Nat}
    (h : ∀ x, x ∈ (expandR es)^[k + 1] [u] ↔ x ∈ (expandR es)^[k] [u]) :
    ∀ m, k ≤ m → ∀ x, (x ∈ (expandR es)^[m] [u] ↔ x ∈ (expandR es)^[k] [u]) := by
  intro m hm
  induction m, hm using Nat.le_induction with
  | base => intro x; rfl
  | succ m hkm ih =>
    intro x
    rw [Function.iterate_succ_apply', expandR_congr ih x]
    have h2 := h x
    rw [Function.iterate_succ_apply'] at h2
    exact h2

theorem iterate_stabilizes (es : List (Nat × Nat)) (u : Nat) :
    ∃ k, k ≤ 2 * es.length + 1
      ∧ ∀ x, (x ∈ (expandR es)^[k + 1] [u] ↔ x ∈ (expandR es)^[k] [u]) := by
  by_contra hcon
  push_neg at hcon
  have hgrow : ∀ k, k ≤ 2 * es.length + 2 →
      k + 1 ≤ ((expandR es)^[k] [u]).toFinset.card := by
    intro k
    induction k with
    | zero =>
      intro _
      have hu : u ∈ ((expandR es)^[0] [u]).toFinset := by simp
      exact Finset.card_pos.mpr ⟨u, hu⟩
    | succ k ih =>
      intro hk
      obtain ⟨x, hx⟩ := hcon k (by omega)
      have hsub : ((expandR es)^[k] [u]).toFinset ⊆ ((expandR es)^[k + 1] [u]).toFinset := by
        intro y hy
        rw [List.mem_toFinset] at hy ⊢
        exact mem_iterate_succ hy
      have hxmem : x ∈ (expandR es)^[k + 1] [u] ∧ x ∉ (expandR es)^[k] [u] := by
        rcases hx with h | h
        · exact h
        · exact absurd (mem_iterate_succ h.2) h.1
      have hss : ((expandR es)^[k] [u]).toFinset ⊂ ((expandR es)^[k + 1] [u]).toFinset := by
        refine ⟨hsub, fun hsup => hxmem.2 ?_⟩
        have := hsup (List.mem_toFinset.mpr hxmem.1)
        exact List.mem_toFinset.mp this
      have h3 := Finset.card_lt_card hss
      have h4 := ih (by omega)
      omega
  have hbound := hgrow (2 * es.length + 2) le_rfl
  have hsubV : ((expandR es)^[2 * es.length + 2] [u]).toFinset
      ⊆ (u :: es.flatMap (fun e => [e.1, e.2])).toFinset := by
    intro x hx
    rw [List.mem_toFinset] at hx ⊢
    exact iterate_subset_verts _ x hx
  have h1 := Finset.card_le_card hsubV
  have h2 := List.toFinset_card_le (u :: es.flatMap (fun e => [e.1, e.2]))
  have h3 : (u :: es.flatMap (fun e => [e.1, e.2])).length = 2 * es.length + 1 := by
    rw [List.length_cons, length_flatMap_pairs]
  omega

theorem rtg_mem_reachList {es : List (Nat × Nat)} {u v : Nat}
    (h : Relation.ReflTransGen (adjE es) u v) : v ∈ reachList es u := by
  obtain ⟨k, hk, hstab⟩ := iterate_stabilizes es u
  have hfix := iterate_stab hstab (2 * es.length + 2) (by omega)
  unfold reachList
  rw [hfix v]
  induction h with
  | refl => exact mem_iterate_le (Nat.zero_le k) (by simp)
  | tail hab hbc ih =>
    have h1 := mem_expandR.mpr (Or.inr ⟨_, ih, hbc⟩)
    exact (hstab _).mp (by rw [Function.iterate_succ_apply']; exact h1)

theorem mem_reachList_rtg {es : List (Nat × Nat)} {u : Nat} :
    ∀ n x, x ∈ (expandR es)^[n] [u] → Relation.ReflTransGen (adjE es) u x := by
  intro n
  induction n with
  | zero =>
    intro x hx
    rw [Function.iterate_zero_apply, List.mem_singleton] at hx
    rw [hx]
  | succ n ih =>
    intro x hx
    rw [Function.iterate_succ_apply'] at hx
    rcases mem_expandR.mp hx with h | ⟨y, hy, hadj⟩
    · exact ih x h
    · exact (ih y hy).tail hadj

theorem reachableB_iff {es : List (Nat × Nat)} {u v : Nat} :
    reachableB es u v = true ↔ Relation.ReflTransGen (adjE es) u v := by
  unfold reachableB
  rw [decide_eq_true_eq]
  exact ⟨fun h => mem_reachList_rtg _ v h, rtg_mem_reachList⟩

/-- The simple graph on `ℕ` described by an edge-pair list (self-loop
entries contribute no adjacency). -/
def esGraph (es : List (Nat × Nat)) : SimpleGraph ℕ where
  Adj a b := a ≠ b ∧ adjE es a b
  symm := by
    rintro a b ⟨hne, hadj⟩
    exact ⟨hne.symm, hadj.symm⟩
  loopless := by
    rintro a ⟨hne, _⟩
    exact hne rfl

/-- The edge list describes a multigraph containing a simple cycle: either
some entry is a self-loop, or the associated simple graph has a cycle. -/
def hasSimpleCycle (es : List (Nat × Nat)) : Prop :=
  (∃ a, (a, a) ∈ es) ∨ ∃ (u : ℕ) (w : (esGraph es).Walk u u), w.IsCycle

theorem esGraph_mono {es es' : List (Nat × Nat)} (h : ∀ e ∈ es, e ∈ es') :
    esGraph es ≤ esGraph es' := by
  intro a b hab
  exact ⟨hab.1, hab.2.imp (h _) (h _)⟩

theorem rtg_iff_reachable {es : List (Nat × Nat)} {a b : Nat} :
    Relation.ReflTransGen (adjE es) a b ↔ (esGraph es).Reachable a b := by
  constructor
  · intro h
    induction h with
    | refl => exact SimpleGraph.Reachable.refl a
    | tail hab hbc ih =>
      rename_i c d
      by_cases hcd : c = d
      · rwa [hcd] at ih
      · exact ih.trans (SimpleGraph.Adj.reachable ⟨hcd, hbc⟩)
  · rintro ⟨w⟩
    induction w with
    | nil => exact Relation.ReflTransGen.refl
    | cons h p ih => exact Relation.ReflTransGen.head h.2 ih

theorem reachableB_iff_reachable {es : List (Nat × Nat)} {u v : Nat} :
    reachableB es u v = true ↔ (esGraph es).Reachable u v :=
  reachableB_iff.trans rtg_iff_reachable

theorem reachableB_self (es : List (Nat × Nat)) (a : Nat) :
    reachableB es a a = true :=
  reachableB_iff.mpr Relation.ReflTransGen.refl

theorem canonPair_fst_le {p : Nat × Nat} (h : canonPair p = p) : p.1 ≤ p.2 := by
  by_cases hle : p.1 ≤ p.2
  · exact hle
  · unfold canonPair at h
    rw [if_neg hle] at h
    have h2 : p.2 = p.1 := congrArg Prod.fst h
    omega

theorem esGraph_nil_acyclic : (esGraph []).IsAcyclic := by
  intro v c hc
  cases c with
  | nil => exact hc.ne_nil rfl
  | cons h p => exact absurd h.2 (by simp [adjE])

theorem acyclic_snoc {prev : List (Nat × Nat)} {e : Nat × Nat}
    (hac : (esGraph prev).IsAcyclic) (hr : reachableB prev e.1 e.2 = false) :
    (esGraph (prev ++ [e])).IsAcyclic := by
  obtain ⟨a, b⟩ := e
  dsimp only at hr
  have hne : a ≠ b := by
    intro h
    rw [h, reachableB_self] at hr
    cases hr
  have hnr : ¬ (esGraph prev).Reachable a b := fun h => by
    rw [reachableB_iff_reachable.mpr h] at hr
    cases hr
  have hadj : (esGraph (prev ++ [(a, b)])).Adj a b :=
    ⟨hne, Or.inl (by simp)⟩
  have hdel : (esGraph (prev ++ [(a, b)]) \ SimpleGraph.fromEdgeSet {s(a, b)})
      ≤ esGraph prev := by
    intro x y hxy
    rw [SimpleGraph.sdiff_adj] at hxy
    obtain ⟨⟨hne2, hmem⟩, hnotdel⟩ := hxy
    refine ⟨hne2, ?_⟩
    have hsne : s(x, y) ≠ s(a, b) := by
      intro hs
      exact hnotdel ((SimpleGraph.fromEdgeSet_adj _).mpr ⟨by rw [hs]; exact rfl, hne2⟩)
    rcases hmem with h | h <;> rw [List.mem_append, List.mem_singleton] at h
    · rcases h with h | h
      · exact Or.inl h
      · rw [Prod.mk.injEq] at h
        exact absurd (by rw [h.1, h.2]) hsne
    · rcases h with h | h
      · exact Or.inr h
      · rw [Prod.mk.injEq] at h
        exact absurd (by rw [h.1, h.2]; exact Sym2.eq_swap) hsne
  have hbridge : (esGraph (prev ++ [(a, b)])).IsBridge s(a, b) := by
    rw [SimpleGraph.isBridge_iff]
    exact ⟨hadj, fun h => hnr (h.mono hdel)⟩
  intro v c hc
  have hnotmem : s(a, b) ∉ c.edges :=
    (SimpleGraph.isBridge_iff_adj_and_forall_cycle_not_mem.mp hbridge).2 c hc
  have hedges : ∀ e2 ∈ c.edges, e2 ∈ (esGraph prev).edgeSet := by
    intro e2 he2
    have hbig := c.edges_subset_edgeSet he2
    have hne3 : e2 ≠ s(a, b) := fun h => hnotmem (h ▸ he2)
    revert hbig hne3
    induction e2 using Sym2.ind with
    | _ x y =>
      intro hbig hne3
      rw [SimpleGraph.mem_edgeSet] at hbig ⊢
      refine hdel ((SimpleGraph.sdiff_adj _ _ _ _).mpr ⟨hbig, ?_⟩)
      intro hdeladj
      rw [SimpleGraph.fromEdgeSet_adj] at hdeladj
      exact hne3 (Set.mem_singleton_iff.mp hdeladj.1)
  exact hac (c.transfer (esGraph prev) hedges) (hc.transfer hedges)

theorem cbGo_eq_nil_not_cycle :
    ∀ (rest prev : List (Nat × Nat)),
      (∀ e ∈ prev, e.1 ≠ e.2) → (esGraph prev).IsAcyclic → cbGo prev rest = [] →
      (∀ e ∈ prev ++ rest, e.1 ≠ e.2) ∧ (esGraph (prev ++ rest)).IsAcyclic := by
  intro rest
  induction rest with
  | nil =>
    intro prev h1 h2 _
    rw [List.append_nil]
    exact ⟨h1, h2⟩
  | cons e rest ih =>
    intro prev h1 h2 hgo
    simp only [cbGo] at hgo
    by_cases hr : reachableB prev e.1 e.2 = true
    · rw [if_pos hr] at hgo
      exact absurd hgo (List.cons_ne_nil _ _)
    · rw [if_neg hr] at hgo
      have hrf : reachableB prev e.1 e.2 = false := Bool.not_eq_true _ ▸ hr
      have h1a : ∀ e2 ∈ prev ++ [e], e2.1 ≠ e2.2 := by
        intro e2 he2
        rcases List.mem_append.mp he2 with h | h
        · exact h1 e2 h
        · rw [List.mem_singleton] at h
          subst h
          intro hee
          rw [hee, reachableB_self] at hrf
          cases hrf
      have h2a := acyclic_snoc h2 hrf
      have hres := ih (prev ++ [e]) h1a h2a hgo
      rwa [List.append_assoc, List.singleton_append] at hres

theorem not_hasSimpleCycle_of_cbGo_nil {es : List (Nat × Nat)}
    (h : cbGo [] es = []) : ¬ hasSimpleCycle es := by
  obtain ⟨hloop, hac⟩ := cbGo_eq_nil_not_cycle es [] (by simp) esGraph_nil_acyclic h
  rw [List.nil_append] at hloop hac
  rintro (⟨a, ha⟩ | ⟨u, w, hw⟩)
  · exact hloop (a, a) ha rfl
  · exact hac w hw

theorem hasSimpleCycle_of_cbGo_ne_nil :
    ∀ (rest prev : List (Nat × Nat)), (prev ++ rest).Nodup →
      (∀ e ∈ prev ++ rest, canonPair e = e) → cbGo prev rest ≠ [] →
      hasSimpleCycle (prev ++ rest) := by
  intro rest
  induction rest with
  | nil =>
    intro prev _ _ hgo
    exact absurd rfl hgo
  | cons e rest ih =>
    intro prev hnd hcanon hgo
    by_cases hr : reachableB prev e.1 e.2 = true
    · by_cases he : e.1 = e.2
      · refine Or.inl ⟨e.1, ?_⟩
        have hm : (e.1, e.1) = e := by
          nth_rewrite 2 [he]
          exact Prod.mk.eta
        rw [hm]
        simp
      · have hreach : (esGraph prev).Reachable e.1 e.2 := reachableB_iff_reachable.mp hr
        obtain ⟨w⟩ := hreach
        have hmono : ∀ e2 ∈ prev, e2 ∈ prev ++ e :: rest :=
          fun _ h => List.mem_append_left _ h
        have hle : esGraph prev ≤ esGraph (prev ++ e :: rest) := esGraph_mono hmono
        have hedges : ∀ e2 ∈ w.edges, e2 ∈ (esGraph (prev ++ e :: rest)).edgeSet :=
          fun e2 he2 => SimpleGraph.edgeSet_mono hle (w.edges_subset_edgeSet he2)
        have hadj : (esGraph (prev ++ e :: rest)).Adj e.2 e.1 :=
          ⟨Ne.symm he, Or.inr (by simp)⟩
        have hemem : s(e.2, e.1) ∉ ((w.transfer _ hedges).toPath
            : (esGraph (prev ++ e :: rest)).Walk e.1 e.2).edges := by
          intro hmem
          have h2 := SimpleGraph.Walk.edges_toPath_subset (w.transfer _ hedges) hmem
          rw [SimpleGraph.Walk.edges_transfer] at h2
          have h3 := w.edges_subset_edgeSet h2
          rw [Sym2.eq_swap, SimpleGraph.mem_edgeSet] at h3
          rcases h3.2 with h | h
          · have hp1 := canonPair_fst_le (hcanon e (by simp))
            have hp2 : e ∈ prev := by
              rwa [Prod.mk.eta] at h
            have hd := (List.nodup_append.mp hnd).2.2
            exact hd hp2 (List.mem_cons_self e rest)
          · have hp1 := canonPair_fst_le (hcanon e (by simp))
            have hp2 := canonPair_fst_le (hcanon (e.2, e.1) (List.mem_append_left _ h))
            dsimp only at hp2
            omega
        refine Or.inr ⟨e.2, SimpleGraph.Walk.cons hadj ((w.transfer _ hedges).toPath : _), ?_⟩
        exact SimpleGraph.Path.cons_isCycle ((w.transfer _ hedges).toPath) hadj hemem
    · have hgo2 : cbGo (prev ++ [e]) rest ≠ [] := by
        simp only [cbGo] at hgo
        rwa [if_neg hr] at hgo
      have hnd2 : ((prev ++ [e]) ++ rest).Nodup := by
        rwa [List.append_assoc, List.singleton_append]
      have hcanon2 : ∀ e2 ∈ (prev ++ [e]) ++ rest, canonPair e2 = e2 := by
        rw [List.append_assoc, List.singleton_append]
        exact hcanon
      have hres := ih (prev ++ [e]) hnd2 hcanon2 hgo2
      rwa [List.append_assoc, List.singleton_append] at hres

/-- **C6.** Over a schema graph (canonically ordered, duplicate-free edge
list, as `createGraph` builds): if the graph contains no simple cycle the
cycle basis is empty and `findPath` raises the classified
`NetworkXNoCycle` error (`noClosedCurve`), so no price is produced; if it
contains one, `findPath` returns the non-empty cycle basis and no such
error is raised. -/
theorem C6_no_closed_curve (g : PyGraph) (hnd : g.edges.Nodup)
    (hcanon : ∀ e ∈ g.edges, canonPair e = e) :
    (¬ hasSimpleCycle g.edges → findPath g = .error .noClosedCurve)
    ∧ (hasSimpleCycle g.edges →
        findPath g = .ok (cycleBasis g) ∧ cycleBasis g ≠ []) := by
  constructor
  · intro hnc
    have hcb : cbGo [] g.edges = [] := by
      by_contra h
      have h2 := hasSimpleCycle_of_cbGo_ne_nil g.edges [] (by simpa using hnd)
        (by simpa using hcanon) h
      rw [List.nil_append] at h2
      exact hnc h2
    unfold findPath cycleBasis
    rw [hcb]
    rfl
  · intro hc
    have hcb : cbGo [] g.edges ≠ [] := fun h => not_hasSimpleCycle_of_cbGo_nil h hc
    have hlen : cycleBasis g ≠ [] := by
      unfold cycleBasis
      intro h
      exact hcb (List.map_eq_nil.mp h)
    refine ⟨?_, hlen⟩
    show (if 0 < (cycleBasis g).length then (Except.ok (cycleBasis g) : Except Err _)
        else .error .noClosedCurve) = .ok (cycleBasis g)
    rw [if_pos (List.length_pos.mpr hlen)]

/-- Witness: the one-vertex graph with a self-loop has a simple cycle, and
`findPath` returns its cycle basis `[[1]]`. -/
theorem C6_no_closed_curve_witness :
    findPath ⟨[1], [(1, 1)]⟩ = .ok [[1]] := by
  have h := C6_no_closed_curve ⟨[1], [(1, 1)]⟩ (by decide) (by decide)
  have h2 := h.2 (Or.inl ⟨1, by decide⟩)
  rw [h2.1]
  rfl

theorem canonPair_canonPair (p : Nat × Nat) : canonPair (canonPair p) = canonPair p := by
  obtain ⟨a, b⟩ := p
  by_cases h : a ≤ b
  · simp [canonPair, h]
  · simp [canonPair, h, le_of_not_le h]

theorem addNode_edges (g : PyGraph) (v : Nat) : (g.addNode v).edges = g.edges := by
  unfold PyGraph.addNode
  split <;> rfl

theorem addEdge_invariant (g : PyGraph) (e : Nat × Nat)
    (h1 : g.edges.Nodup) (h2 : ∀ p ∈ g.edges, canonPair p = p) :
    (g.addEdge e).edges.Nodup ∧ ∀ p ∈ (g.addEdge e).edges, canonPair p = p := by
  unfold PyGraph.addEdge
  dsimp only
  rw [addNode_edges, addNode_edges]
  split_ifs with hm
  · rw [addNode_edges, addNode_edges]
    exact ⟨h1, h2⟩
  · constructor
    · show (g.edges ++ [canonPair e]).Nodup
      rw [List.nodup_append]
      refine ⟨h1, List.nodup_singleton _, ?_⟩
      intro a ha hb
      rw [List.mem_singleton] at hb
      subst hb
      exact hm ha
    · intro p hp
      rcases List.mem_append.mp hp with h | h
      · exact h2 p h
      · rw [List.mem_singleton] at h
        subst h
        exact canonPair_canonPair e

/-- Every graph `createGraph` builds satisfies the side conditions of the
cycle-basis analysis: its edge list is duplicate-free and canonically
ordered. -/
theorem createGraph_edges_invariant (vs : List (Nat × Pt K)) (es : List (Nat × PyEdge K)) :
    (createGraph vs es).edges.Nodup
      ∧ ∀ p ∈ (createGraph vs es).edges, canonPair p = p := by
  unfold createGraph
  have hnodes : ∀ (l : List (Nat × Pt K)) (g : PyGraph),
      (l.foldl (fun g kv => g.addNode kv.1) g).edges = g.edges := by
    intro l
    induction l with
    | nil => intro g; rfl
    | cons kv l ih =>
      intro g
      rw [List.foldl_cons, ih, addNode_edges]
  have hfold : ∀ (l : List (Nat × PyEdge K)) (g : PyGraph),
      g.edges.Nodup → (∀ p ∈ g.edges, canonPair p = p) →
      (l.foldl (fun g ke => g.addEdge (ke.2.v1, ke.2.v2)) g).edges.Nodup
        ∧ ∀ p ∈ (l.foldl (fun g ke => g.addEdge (ke.2.v1, ke.2.v2)) g).edges,
            canonPair p = p := by
    intro l
    induction l with
    | nil => intro g h1 h2; exact ⟨h1, h2⟩
    | cons ke l ih =>
      intro g h1 h2
      rw [List.foldl_cons]
      obtain ⟨h1a, h2a⟩ := addEdge_invariant g (ke.2.v1, ke.2.v2) h1 h2
      exact ih _ h1a h2a
  refine hfold es _ ?_ ?_
  · rw [hnodes]
    exact List.nodup_nil
  · rw [hnodes]
    intro p hp
    cases hp

/-! ## Minimum-rectangle semantics (claim C3) -/

/-- Fold-maximum with seed `d`. -/
def foldMaxD (d : K) (l : List K) : K := l.foldl max d

/-- Fold-minimum with seed `d`. -/
def foldMinD (d : K) (l : List K) : K := l.foldl min d

/-- Maximum of a list of nonnegative values (seed `0`). -/
def foldMax (l : List K) : K := foldMaxD 0 l

/-- The (scaled) projection of `p` onto the direction of the edge `e`:
`((p - e.1) . (e.2 - e.1)) / |e.2 - e.1|`. -/
def projOf (ops : MathOps K) (e : Pt K × Pt K) (p : Pt K) : K :=
  widthNum e.1 e.2 e.1 p / ops.sqrt (segLenSq e.1 e.2)

/-- Spec side: the span (max minus min) of hull-point projections along
edge `e`. -/
def specSpan (ops : MathOps K) (e : Pt K × Pt K) : List (Pt K) → K
  | [] => 0
  | hd :: tl =>
    foldMaxD (projOf ops e hd) ((hd :: tl).map (projOf ops e))
      - foldMinD (projOf ops e hd) ((hd :: tl).map (projOf ops e))

/-- Spec side: the maximum perpendicular distance of any hull point from
the line through edge `e` (`|cross| / edge length`). -/
def specPerpAll (ops : MathOps K) (hull : List (Pt K)) (e : Pt K × Pt K) : K :=
  foldMax (hull.map (fun p => |heightNum e.1 e.2 p| / ops.sqrt (segLenSq e.1 e.2)))

/-- The maximal `|height_numerator|` over the `p3` candidates of an edge. -/
def maxPerpNum (hull : List (Pt K)) (e : Pt K × Pt K) : K :=
  foldMax ((candPts hull e).map (fun p3 => |heightNum e.1 e.2 p3|))

/-- The maximal `|width_numerator|` over the `(p4, p5)` pairs of an edge. -/
def maxSpanNum (hull : List (Pt K)) (e : Pt K × Pt K) : K :=
  foldMax ((pairsOf hull).map (fun pr => |widthNum e.1 e.2 pr.1 pr.2|))

/-- The cyclic edge list `findMinimumRectangle` walks. -/
def hullEdges (hull : List (Pt K)) : List (Pt K × Pt K) :=
  (hull ++ hull.take 1).zip ((hull ++ hull.take 1).drop 1)

theorem foldMaxD_init_le (l : List K) (a : K) : a ≤ l.foldl max a := by
  induction l generalizing a with
  | nil => exact le_refl a
  | cons x l ih => exact le_trans (le_max_left a x) (ih _)

theorem le_foldMaxD {l : List K} {x : K} (hx : x ∈ l) (a : K) : x ≤ l.foldl max a := by
  induction l generalizing a with
  | nil => cases hx
  | cons y l ih =>
    rcases List.mem_cons.mp hx with h | h
    · subst h
      exact le_trans (le_max_right a x) (foldMaxD_init_le l _)
    · exact ih h _

theorem foldMaxD_le {l : List K} {a c : K} (ha : a ≤ c) (h : ∀ x ∈ l, x ≤ c) :
    l.foldl max a ≤ c := by
  induction l generalizing a with
  | nil => exact ha
  | cons x l ih =>
    exact ih (max_le ha (h x (List.mem_cons_self x l)))
      (fun y hy => h y (List.mem_cons_of_mem _ hy))

theorem foldMaxD_mem (l : List K) (a : K) : l.foldl max a = a ∨ l.foldl max a ∈ l := by
  induction l generalizing a with
  | nil => exact Or.inl rfl
  | cons x l ih =>
    rw [List.foldl_cons]
    rcases ih (max a x) with h | h
    · rcases max_choice a x with h2 | h2
      · exact Or.inl (by rw [h, h2])
      · exact Or.inr (by rw [h, h2]; exact List.mem_cons_self x l)
    · exact Or.inr (List.mem_cons_of_mem _ h)

theorem foldMinD_init_le (l : List K) (a : K) : l.foldl min a ≤ a := by
  induction l generalizing a with
  | nil => exact le_refl a
  | cons x l ih => exact le_trans (ih _) (min_le_left a x)

theorem foldMinD_le {l : List K} {x : K} (hx : x ∈ l) (a : K) : l.foldl min a ≤ x := by
  induction l generalizing a with
  | nil => cases hx
  | cons y l ih =>
    rcases List.mem_cons.mp hx with h | h
    · subst h
      exact le_trans (foldMinD_init_le l _) (min_le_right a x)
    · exact ih h _

theorem le_foldMinD {l : List K} {a c : K} (ha : c ≤ a) (h : ∀ x ∈ l, c ≤ x) :
    c ≤ l.foldl min a := by
  induction l generalizing a with
  | nil => exact ha
  | cons x l ih =>
    exact ih (le_min ha (h x (List.mem_cons_self x l)))
      (fun y hy => h y (List.mem_cons_of_mem _ hy))

theorem foldMinD_mem (l : List K) (a : K) : l.foldl min a = a ∨ l.foldl min a ∈ l := by
  induction l generalizing a with
  | nil => exact Or.inl rfl
  | cons x l ih =>
    rw [List.foldl_cons]
    rcases ih (min a x) with h | h
    · rcases min_choice a x with h2 | h2
      · exact Or.inl (by rw [h, h2])
      · exact Or.inr (by rw [h, h2]; exact List.mem_cons_self x l)
    · exact Or.inr (List.mem_cons_of_mem _ h)

theorem foldMax_nonneg (l : List K) : 0 ≤ foldMax l :=
  foldMaxD_init_le l 0

theorem foldMax_cons (x : K) (l : List K) : foldMax (x :: l) = max x (foldMax l) := by
  unfold foldMax foldMaxD
  rw [List.foldl_cons]
  have hcomm : ∀ (l : List K) (a b : K), l.foldl max (max a b) = max a (l.foldl max b) := by
    intro l
    induction l with
    | nil => intro a b; rfl
    | cons y l ih =>
      intro a b
      rw [List.foldl_cons, List.foldl_cons, max_assoc, ih]
  rw [max_comm 0 x, hcomm]

theorem foldMaxD_div {l : List K} {s : K} (hs : 0 < s) :
    ∀ a : K, (l.map (fun x => x / s)).foldl max (a / s) = (l.foldl max a) / s := by
  induction l with
  | nil => intro a; rfl
  | cons x l ih =>
    intro a
    rw [List.map_cons, List.foldl_cons, List.foldl_cons, max_div_div_right hs.le, ih]

theorem foldMinD_div {l : List K} {s : K} (hs : 0 < s) :
    ∀ a : K, (l.map (fun x => x / s)).foldl min (a / s) = (l.foldl min a) / s := by
  induction l with
  | nil => intro a; rfl
  | cons x l ih =>
    intro a
    rw [List.map_cons, List.foldl_cons, List.foldl_cons, min_div_div_right hs.le, ih]

theorem foldMax_filter_eq {l : List (Pt K)} {p : Pt K → Bool} {f : Pt K → K}
    (h0 : ∀ x ∈ l, p x = false → f x = 0) :
    foldMax ((l.filter p).map f) = foldMax (l.map f) := by
  induction l with
  | nil => rfl
  | cons x l ih =>
    have ihl := ih (fun y hy hpy => h0 y (List.mem_cons_of_mem _ hy) hpy)
    cases hp : p x with
    | true =>
      rw [List.filter_cons_of_pos hp, List.map_cons, List.map_cons,
        foldMax_cons, foldMax_cons, ihl]
    | false =>
      rw [List.filter_cons_of_neg (by simp [hp]), List.map_cons, foldMax_cons, ihl,
        h0 x (List.mem_cons_self x l) hp, max_eq_right (foldMax_nonneg _)]

theorem mem_pairsOf {hull : List (Pt K)} {pr : Pt K × Pt K} :
    pr ∈ pairsOf hull ↔ pr.1 ∈ hull ∧ pr.2 ∈ hull := by
  unfold pairsOf
  rw [List.mem_flatMap]
  constructor
  · rintro ⟨p4, hp4, hpr⟩
    rcases List.mem_map.mp hpr with ⟨p5, hp5, hrfl⟩
    subst hrfl
    exact ⟨hp4, hp5⟩
  · rintro ⟨h1, h2⟩
    exact ⟨pr.1, h1, List.mem_map.mpr ⟨pr.2, h2, Prod.mk.eta⟩⟩

theorem mem_comboList {hull : List (Pt K)} {e : Pt K × Pt K} {c : Pt K × (Pt K × Pt K)} :
    c ∈ comboList hull e ↔ c.1 ∈ candPts hull e ∧ c.2 ∈ pairsOf hull := by
  unfold comboList
  rw [List.mem_flatMap]
  constructor
  · rintro ⟨p3, hp3, hc⟩
    rcases List.mem_map.mp hc with ⟨pr, hpr, hrfl⟩
    subst hrfl
    exact ⟨hp3, hpr⟩
  · rintro ⟨h1, h2⟩
    exact ⟨c.1, h1, List.mem_map.mpr ⟨c.2, h2, Prod.mk.eta⟩⟩

theorem heightNum_fst (p1 p2 : Pt K) : heightNum p1 p2 p1 = 0 := by
  unfold heightNum
  ring

theorem heightNum_snd (p1 p2 : Pt K) : heightNum p1 p2 p2 = 0 := by
  unfold heightNum
  ring

theorem segLenSq_nonneg (p1 p2 : Pt K) : 0 ≤ segLenSq p1 p2 := by
  unfold segLenSq
  positivity

theorem widthNum_sub (p1 p2 p4 p5 : Pt K) :
    widthNum p1 p2 p4 p5 = widthNum p1 p2 p1 p5 - widthNum p1 p2 p1 p4 := by
  unfold widthNum
  ring

theorem specPerpAll_eq {ops : MathOps K} {hull : List (Pt K)} {e : Pt K × Pt K}
    (hs : 0 < ops.sqrt (segLenSq e.1 e.2)) :
    specPerpAll ops hull e = maxPerpNum hull e / ops.sqrt (segLenSq e.1 e.2) := by
  have h2 : maxPerpNum hull e = foldMax (hull.map (fun p => |heightNum e.1 e.2 p|)) := by
    unfold maxPerpNum candPts
    refine foldMax_filter_eq ?_
    intro x _ hpx
    simp only [decide_eq_false_iff_not, not_and_or, not_not] at hpx
    rcases hpx with h | h
    · rw [h, heightNum_fst, abs_zero]
    · rw [h, heightNum_snd, abs_zero]
  rw [h2]
  have h1 : hull.map (fun p => |heightNum e.1 e.2 p| / ops.sqrt (segLenSq e.1 e.2))
      = (hull.map (fun p => |heightNum e.1 e.2 p|)).map
        (fun x => x / ops.sqrt (segLenSq e.1 e.2)) := by
    rw [List.map_map]
    rfl
  unfold specPerpAll
  rw [h1]
  unfold foldMax foldMaxD
  rw [← foldMaxD_div hs 0, zero_div]

theorem maxSpanNum_eq {e : Pt K × Pt K} (hd : Pt K) (tl : List (Pt K)) :
    maxSpanNum (hd :: tl) e
      = foldMaxD (widthNum e.1 e.2 e.1 hd)
          ((hd :: tl).map (fun p => widthNum e.1 e.2 e.1 p))
        - foldMinD (widthNum e.1 e.2 e.1 hd)
          ((hd :: tl).map (fun p => widthNum e.1 e.2 e.1 p)) := by
  have hmnle : foldMinD (widthNum e.1 e.2 e.1 hd)
        ((hd :: tl).map (fun p => widthNum e.1 e.2 e.1 p))
      ≤ foldMaxD (widthNum e.1 e.2 e.1 hd)
        ((hd :: tl).map (fun p => widthNum e.1 e.2 e.1 p)) :=
    le_trans (foldMinD_init_le _ _) (foldMaxD_init_le _ _)
  apply le_antisymm
  · apply foldMaxD_le (by linarith)
    intro x hx
    rcases List.mem_map.mp hx with ⟨pr, hpr, hrfl⟩
    subst hrfl
    rcases mem_pairsOf.mp hpr with ⟨h4, h5⟩
    have hub2 : widthNum e.1 e.2 e.1 pr.2
        ≤ foldMaxD (widthNum e.1 e.2 e.1 hd)
          ((hd :: tl).map (fun p => widthNum e.1 e.2 e.1 p)) :=
      le_foldMaxD (List.mem_map.mpr ⟨pr.2, h5, rfl⟩) _
    have hub1 : widthNum e.1 e.2 e.1 pr.1
        ≤ foldMaxD (widthNum e.1 e.2 e.1 hd)
          ((hd :: tl).map (fun p => widthNum e.1 e.2 e.1 p)) :=
      le_foldMaxD (List.mem_map.mpr ⟨pr.1, h4, rfl⟩) _
    have hlb1 : foldMinD (widthNum e.1 e.2 e.1 hd)
          ((hd :: tl).map (fun p => widthNum e.1 e.2 e.1 p))
        ≤ widthNum e.1 e.2 e.1 pr.1 :=
      foldMinD_le (List.mem_map.mpr ⟨pr.1, h4, rfl⟩) _
    have hlb2 : foldMinD (widthNum e.1 e.2 e.1 hd)
          ((hd :: tl).map (fun p => widthNum e.1 e.2 e.1 p))
        ≤ widthNum e.1 e.2 e.1 pr.2 :=
      foldMinD_le (List.mem_map.mpr ⟨pr.2, h5, rfl⟩) _
    rw [widthNum_sub, abs_sub_le_iff]
    constructor <;> linarith
  · obtain ⟨pM, hpM, hqM⟩ : ∃ p ∈ hd :: tl, widthNum e.1 e.2 e.1 p
        = foldMaxD (widthNum e.1 e.2 e.1 hd)
          ((hd :: tl).map (fun p => widthNum e.1 e.2 e.1 p)) := by
      rcases foldMaxD_mem ((hd :: tl).map (fun p => widthNum e.1 e.2 e.1 p))
          (widthNum e.1 e.2 e.1 hd) with h | h
      · exact ⟨hd, List.mem_cons_self _ _, h.symm⟩
      · rcases List.mem_map.mp h with ⟨p, hp, hqp⟩
        exact ⟨p, hp, hqp⟩
    obtain ⟨pm, hpm, hqm⟩ : ∃ p ∈ hd :: tl, widthNum e.1 e.2 e.1 p
        = foldMinD (widthNum e.1 e.2 e.1 hd)
          ((hd :: tl).map (fun p => widthNum e.1 e.2 e.1 p)) := by
      rcases foldMinD_mem ((hd :: tl).map (fun p => widthNum e.1 e.2 e.1 p))
          (widthNum e.1 e.2 e.1 hd) with h | h
      · exact ⟨hd, List.mem_cons_self _ _, h.symm⟩
      · rcases List.mem_map.mp h with ⟨p, hp, hqp⟩
        exact ⟨p, hp, hqp⟩
    have hpair : (pm, pM) ∈ pairsOf (hd :: tl) := mem_pairsOf.mpr ⟨hpm, hpM⟩
    have hval : |widthNum e.1 e.2 pm pM|
        = foldMaxD (widthNum e.1 e.2 e.1 hd)
            ((hd :: tl).map (fun p => widthNum e.1 e.2 e.1 p))
          - foldMinD (widthNum e.1 e.2 e.1 hd)
            ((hd :: tl).map (fun p => widthNum e.1 e.2 e.1 p)) := by
      rw [widthNum_sub, hqM, hqm, abs_of_nonneg (by linarith)]
    have hle := le_foldMaxD
      (List.mem_map.mpr ⟨(pm, pM), hpair, rfl⟩
        : |widthNum e.1 e.2 pm pM|
            ∈ (pairsOf (hd :: tl)).map (fun pr => |widthNum e.1 e.2 pr.1 pr.2|)) (0 : K)
    rw [hval] at hle
    exact hle

theorem specSpan_eq {ops : MathOps K} {e : Pt K × Pt K} (hd : Pt K) (tl : List (Pt K))
    (hs : 0 < ops.sqrt (segLenSq e.1 e.2)) :
    specSpan ops e (hd :: tl) = maxSpanNum (hd :: tl) e / ops.sqrt (segLenSq e.1 e.2) := by
  rw [maxSpanNum_eq hd tl]
  unfold specSpan
  dsimp only
  have h1 : (hd :: tl).map (projOf ops e)
      = ((hd :: tl).map (fun p => widthNum e.1 e.2 e.1 p)).map
        (fun x => x / ops.sqrt (segLenSq e.1 e.2)) := by
    rw [List.map_map]
    rfl
  rw [h1]
  unfold foldMaxD foldMinD
  rw [show projOf ops e hd = widthNum e.1 e.2 e.1 hd / ops.sqrt (segLenSq e.1 e.2) from rfl]
  rw [foldMaxD_div hs, foldMinD_div hs, div_sub_div_same]

theorem pydiv_ne {a b : K} (hb : b ≠ 0) : pydiv a b = .ok (a / b) := by
  rw [pydiv, if_neg hb]

theorem ebind_pure {α β : Type} (a : α) (f : α → Except Err β) :
    (bind (pure a : Except Err α) f : Except Err β) = f a := rfl

theorem bestEntry_fold_spec (e : Pt K × Pt K) (hL : segLenSq e.1 e.2 ≠ 0) :
    ∀ (combos : List (Pt K × (Pt K × Pt K))) (b : Option (CaliperEntry K)),
      ∃ res : Option (CaliperEntry K),
        combos.foldlM
          (fun best c => do
            let h := heightNum e.1 e.2 c.1
            let w := widthNum e.1 e.2 c.2.1 c.2.2
            let L := segLenSq e.1 e.2
            let area ← pydiv |h * w| L
            pure
              (match best with
                | none => some (⟨area, h, w, L⟩ : CaliperEntry K)
                | some b => if b.area < area then some (⟨area, h, w, L⟩ : CaliperEntry K) else some b))
          b = .ok res
        ∧ (res = none → b = none ∧ combos = [])
        ∧ ∀ ent, res = some ent →
            ((b = some ent ∨ ∃ c ∈ combos,
                ent = ⟨|heightNum e.1 e.2 c.1 * widthNum e.1 e.2 c.2.1 c.2.2|
                    / segLenSq e.1 e.2,
                  heightNum e.1 e.2 c.1, widthNum e.1 e.2 c.2.1 c.2.2,
                  segLenSq e.1 e.2⟩)
              ∧ (∀ bent, b = some bent → bent.area ≤ ent.area)
              ∧ ∀ c ∈ combos,
                  |heightNum e.1 e.2 c.1 * widthNum e.1 e.2 c.2.1 c.2.2|
                      / segLenSq e.1 e.2 ≤ ent.area) := by
  intro combos
  induction combos with
  | nil =>
    intro b
    refine ⟨b, rfl, fun h => ⟨h, rfl⟩, ?_⟩
    intro ent hent
    refine ⟨Or.inl hent, ?_, fun c hc => absurd hc (List.not_mem_nil c)⟩
    intro bent hb
    rw [hent] at hb
    injection hb with h2
    subst h2
    exact le_refl _
  | cons c combos ih =>
    intro b
    rw [List.foldlM_cons]
    dsimp only
    rw [pydiv_ne hL, ebind_ok]
    rw [ebind_pure]
    rcases b with _ | bb
    · dsimp only
      obtain ⟨res, hres, hnone, hsome⟩ := ih (some
        ⟨|heightNum e.1 e.2 c.1 * widthNum e.1 e.2 c.2.1 c.2.2| / segLenSq e.1 e.2,
          heightNum e.1 e.2 c.1, widthNum e.1 e.2 c.2.1 c.2.2, segLenSq e.1 e.2⟩)
      refine ⟨res, hres, fun h => absurd (hnone h).1 (by simp), ?_⟩
      intro ent hent
      obtain ⟨hprov, hbent, hmax⟩ := hsome ent hent
      refine ⟨?_, ?_, ?_⟩
      · rcases hprov with h | ⟨c2, hc2, h⟩
        · exact Or.inr ⟨c, List.mem_cons_self _ _, (Option.some.inj h).symm⟩
        · exact Or.inr ⟨c2, List.mem_cons_of_mem _ hc2, h⟩
      · intro bent hb
        cases hb
      · intro c2 hc2
        rcases List.mem_cons.mp hc2 with h | h
        · subst h
          exact hbent _ rfl
        · exact hmax c2 h
    · dsimp only
      by_cases hlt : bb.area
          < |heightNum e.1 e.2 c.1 * widthNum e.1 e.2 c.2.1 c.2.2| / segLenSq e.1 e.2
      · rw [if_pos hlt]
        obtain ⟨res, hres, hnone, hsome⟩ := ih (some
          ⟨|heightNum e.1 e.2 c.1 * widthNum e.1 e.2 c.2.1 c.2.2| / segLenSq e.1 e.2,
            heightNum e.1 e.2 c.1, widthNum e.1 e.2 c.2.1 c.2.2, segLenSq e.1 e.2⟩)
        refine ⟨res, hres, fun h => absurd (hnone h).1 (by simp), ?_⟩
        intro ent hent
        obtain ⟨hprov, hbent, hmax⟩ := hsome ent hent
        refine ⟨?_, ?_, ?_⟩
        · rcases hprov with h | ⟨c2, hc2, h⟩
          · exact Or.inr ⟨c, List.mem_cons_self _ _, (Option.some.inj h).symm⟩
          · exact Or.inr ⟨c2, List.mem_cons_of_mem _ hc2, h⟩
        · intro bent hb
          injection hb with hb2
          subst hb2
          exact le_trans hlt.le (hbent _ rfl)
        · intro c2 hc2
          rcases List.mem_cons.mp hc2 with h | h
          · subst h
            exact hbent _ rfl
          · exact hmax c2 h
      · rw [if_neg hlt]
        obtain ⟨res, hres, hnone, hsome⟩ := ih (some bb)
        refine ⟨res, hres, fun h => absurd (hnone h).1 (by simp), ?_⟩
        intro ent hent
        obtain ⟨hprov, hbent, hmax⟩ := hsome ent hent
        refine ⟨?_, ?_, ?_⟩
        · rcases hprov with h | ⟨c2, hc2, h⟩
          · exact Or.inl h
          · exact Or.inr ⟨c2, List.mem_cons_of_mem _ hc2, h⟩
        · intro bent hb
          injection hb with hb2
          subst hb2
          exact hbent _ rfl
        · intro c2 hc2
          rcases List.mem_cons.mp hc2 with h | h
          · subst h
            exact le_trans (not_lt.mp hlt) (hbent _ rfl)
          · exact hmax c2 h

theorem foldMax_mem_of_pos {l : List K} (h : 0 < foldMax l) : foldMax l ∈ l := by
  unfold foldMax foldMaxD at h ⊢
  rcases foldMaxD_mem l 0 with h2 | h2
  · rw [h2] at h
    exact absurd h (lt_irrefl 0)
  · exact h2

theorem bestEntryForEdge_max (hull : List (Pt K)) (e : Pt K × Pt K)
    (hL : segLenSq e.1 e.2 ≠ 0)
    (hA : 0 < maxPerpNum hull e) (hB : 0 < maxSpanNum hull e) :
    ∃ ent : CaliperEntry K,
      bestEntryForEdge e (comboList hull e) = .ok (some ent)
        ∧ |ent.h| = maxPerpNum hull e ∧ |ent.w| = maxSpanNum hull e
        ∧ ent.L = segLenSq e.1 e.2
        ∧ ent.area = maxPerpNum hull e * maxSpanNum hull e / segLenSq e.1 e.2 := by
  have hLpos : 0 < segLenSq e.1 e.2 := lt_of_le_of_ne (segLenSq_nonneg _ _) (Ne.symm hL)
  have hAatt : ∃ p3 ∈ candPts hull e, |heightNum e.1 e.2 p3| = maxPerpNum hull e := by
    have hmem := foldMax_mem_of_pos hA
    rcases List.mem_map.mp hmem with ⟨p3, hp3, hval⟩
    exact ⟨p3, hp3, hval⟩
  have hBatt : ∃ pr ∈ pairsOf hull, |widthNum e.1 e.2 pr.1 pr.2| = maxSpanNum hull e := by
    have hmem := foldMax_mem_of_pos hB
    rcases List.mem_map.mp hmem with ⟨pr, hpr, hval⟩
    exact ⟨pr, hpr, hval⟩
  obtain ⟨pa, hpa, hva⟩ := hAatt
  obtain ⟨pb, hpb, hvb⟩ := hBatt
  have hcmem : ((pa, pb) : Pt K × (Pt K × Pt K)) ∈ comboList hull e :=
    mem_comboList.mpr ⟨hpa, hpb⟩
  obtain ⟨res, hres, hnone, hsome⟩ := bestEntry_fold_spec e hL (comboList hull e) none
  rcases res with _ | ent
  · exact absurd (hnone rfl).2 (List.ne_nil_of_mem hcmem)
  obtain ⟨hprov, _, hmax⟩ := hsome ent rfl
  rcases hprov with h | ⟨c, hc, hcent⟩
  · cases h
  rcases mem_comboList.mp hc with ⟨hc1, hc2⟩
  have hhb : |heightNum e.1 e.2 c.1| ≤ maxPerpNum hull e := by
    have hm : |heightNum e.1 e.2 c.1|
        ∈ (candPts hull e).map (fun p3 => |heightNum e.1 e.2 p3|) :=
      List.mem_map.mpr ⟨c.1, hc1, rfl⟩
    unfold maxPerpNum foldMax foldMaxD
    exact le_foldMaxD hm 0
  have hwb : |widthNum e.1 e.2 c.2.1 c.2.2| ≤ maxSpanNum hull e := by
    have hm : |widthNum e.1 e.2 c.2.1 c.2.2|
        ∈ (pairsOf hull).map (fun pr => |widthNum e.1 e.2 pr.1 pr.2|) :=
      List.mem_map.mpr ⟨c.2, hc2, rfl⟩
    unfold maxSpanNum foldMax foldMaxD
    exact le_foldMaxD hm 0
  have hattle := hmax (pa, pb) hcmem
  rw [abs_mul, hva, hvb] at hattle
  have hub : |heightNum e.1 e.2 c.1 * widthNum e.1 e.2 c.2.1 c.2.2| / segLenSq e.1 e.2
      ≤ maxPerpNum hull e * maxSpanNum hull e / segLenSq e.1 e.2 := by
    rw [abs_mul]
    apply (div_le_div_right hLpos).mpr
    exact mul_le_mul hhb hwb (abs_nonneg _) (le_trans (abs_nonneg _) hhb)
  have hcarea : ent.area
      = |heightNum e.1 e.2 c.1 * widthNum e.1 e.2 c.2.1 c.2.2| / segLenSq e.1 e.2 := by
    rw [hcent]
  have hareaeq : ent.area
      = maxPerpNum hull e * maxSpanNum hull e / segLenSq e.1 e.2 := by
    rw [hcarea]
    exact le_antisymm hub (by rw [← hcarea]; exact hattle)
  have hprod : |heightNum e.1 e.2 c.1| * |widthNum e.1 e.2 c.2.1 c.2.2|
      = maxPerpNum hull e * maxSpanNum hull e := by
    have h1 := hcarea.symm.trans hareaeq
    rw [abs_mul] at h1
    have h2 := congrArg (fun z => z * segLenSq e.1 e.2) h1
    dsimp only at h2
    rwa [div_mul_cancel₀ _ hL, div_mul_cancel₀ _ hL] at h2
  have hxA : |heightNum e.1 e.2 c.1| = maxPerpNum hull e := by
    by_contra hx
    have hlt : |heightNum e.1 e.2 c.1| < maxPerpNum hull e := lt_of_le_of_ne hhb hx
    have h2 : |heightNum e.1 e.2 c.1| * |widthNum e.1 e.2 c.2.1 c.2.2|
        < maxPerpNum hull e * maxSpanNum hull e :=
      lt_of_le_of_lt (mul_le_mul_of_nonneg_left hwb (abs_nonneg _))
        (mul_lt_mul_of_pos_right hlt hB)
    rw [hprod] at h2
    exact absurd h2 (lt_irrefl _)
  have hyB : |widthNum e.1 e.2 c.2.1 c.2.2| = maxSpanNum hull e := by
    have h2 : maxPerpNum hull e * |widthNum e.1 e.2 c.2.1 c.2.2|
        = maxPerpNum hull e * maxSpanNum hull e := by
      nth_rewrite 1 [← hxA]
      exact hprod
    exact mul_left_cancel₀ (ne_of_gt hA) h2
  refine ⟨ent, hres, ?_, ?_, ?_, hareaeq⟩
  · rw [hcent]
    exact hxA
  · rw [hcent]
    exact hyB
  · rw [hcent]

theorem entriesFold_spec (hull : List (Pt K)) :
    ∀ (edges : List (Pt K × Pt K)) (acc : List ((Pt K × Pt K) × CaliperEntry K)),
      (∀ e2 ∈ edges, segLenSq e2.1 e2.2 ≠ 0
          ∧ 0 < maxPerpNum hull e2 ∧ 0 < maxSpanNum hull e2) →
      ∃ ents, edges.foldlM
          (fun acc e => do
            let b ← bestEntryForEdge e (comboList hull e)
            pure
              (match b with
                | none => acc
                | some ent => acc ++ [(e, ent)]))
          acc = .ok (acc ++ ents)
        ∧ List.Forall₂ (fun e2 pe => pe.1 = e2
            ∧ |pe.2.h| = maxPerpNum hull e2 ∧ |pe.2.w| = maxSpanNum hull e2
            ∧ pe.2.L = segLenSq e2.1 e2.2
            ∧ pe.2.area = maxPerpNum hull e2 * maxSpanNum hull e2 / segLenSq e2.1 e2.2)
          edges ents := by
  intro edges
  induction edges with
  | nil =>
    intro acc _
    exact ⟨[], by rw [List.append_nil]; rfl, List.Forall₂.nil⟩
  | cons e2 edges ih =>
    intro acc hh
    obtain ⟨h1, h2, h3⟩ := hh e2 (List.mem_cons_self _ _)
    obtain ⟨ent, hres, hp1, hp2, hp3, hp4⟩ := bestEntryForEdge_max hull e2 h1 h2 h3
    obtain ⟨ents2, hfold, hfa⟩ := ih (acc ++ [(e2, ent)])
      (fun x hx => hh x (List.mem_cons_of_mem _ hx))
    refine ⟨(e2, ent) :: ents2, ?_, List.Forall₂.cons ⟨rfl, hp1, hp2, hp3, hp4⟩ hfa⟩
    rw [List.foldlM_cons]
    rw [hres, ebind_ok]
    dsimp only
    rw [ebind_pure, hfold, List.append_assoc, List.singleton_append]

theorem selMin_spec :
    ∀ (rest : List ((Pt K × Pt K) × CaliperEntry K)) (b : (Pt K × Pt K) × CaliperEntry K),
      (rest.foldl (fun b x => if x.2.area < b.2.area then x else b) b = b
        ∨ rest.foldl (fun b x => if x.2.area < b.2.area then x else b) b ∈ rest)
      ∧ (rest.foldl (fun b x => if x.2.area < b.2.area then x else b) b).2.area ≤ b.2.area
      ∧ ∀ x ∈ rest,
          (rest.foldl (fun b x => if x.2.area < b.2.area then x else b) b).2.area
            ≤ x.2.area := by
  intro rest
  induction rest with
  | nil =>
    intro b
    exact ⟨Or.inl rfl, le_refl _, fun x hx => absurd hx (List.not_mem_nil x)⟩
  | cons x rest ih =>
    intro b
    simp only [List.foldl_cons]
    by_cases hlt : x.2.area < b.2.area
    · rw [if_pos hlt]
      obtain ⟨hmem, hle, hall⟩ := ih x
      refine ⟨?_, le_trans hle hlt.le, ?_⟩
      · rcases hmem with h | h
        · exact Or.inr (by rw [h]; exact List.mem_cons_self x rest)
        · exact Or.inr (List.mem_cons_of_mem _ h)
      · intro y hy
        rcases List.mem_cons.mp hy with h | h
        · subst h
          exact hle
        · exact hall y h
    · rw [if_neg hlt]
      obtain ⟨hmem, hle, hall⟩ := ih b
      refine ⟨?_, hle, ?_⟩
      · rcases hmem with h | h
        · exact Or.inl h
        · exact Or.inr (List.mem_cons_of_mem _ h)
      · intro y hy
        rcases List.mem_cons.mp hy with h | h
        · subst h
          exact le_trans hle (not_lt.mp hlt)
        · exact hall y h

theorem forall₂_mem_right {α β : Type} {R : α → β → Prop} :
    ∀ {l1 : List α} {l2 : List β}, List.Forall₂ R l1 l2 → ∀ y ∈ l2, ∃ x ∈ l1, R x y := by
  intro l1 l2 h
  induction h with
  | nil =>
    intro y hy
    cases hy
  | cons hR hl ih =>
    intro y hy
    rcases List.mem_cons.mp hy with h | h
    · subst h
      exact ⟨_, List.mem_cons_self _ _, hR⟩
    · obtain ⟨x, hx, hxy⟩ := ih y h
      exact ⟨x, List.mem_cons_of_mem _ hx, hxy⟩

theorem forall₂_mem_left {α β : Type} {R : α → β → Prop} :
    ∀ {l1 : List α} {l2 : List β}, List.Forall₂ R l1 l2 → ∀ x ∈ l1, ∃ y ∈ l2, R x y := by
  intro l1 l2 h
  induction h with
  | nil =>
    intro x hx
    cases hx
  | cons hR hl ih =>
    intro x hx
    rcases List.mem_cons.mp hx with h | h
    · subst h
      exact ⟨_, List.mem_cons_self _ _, hR⟩
    · obtain ⟨y, hy, hxy⟩ := ih x h
      exact ⟨y, List.mem_cons_of_mem _ hy, hxy⟩

/-- **C3.**  For a hull `hd :: tl` whose cyclic edges are nondegenerate
(nonzero squared length, some hull point strictly off each edge line, a
positive projection span) and whose square roots behave as square roots,
`findMinimumRectangle` returns `(H + PADDING) * (W + PADDING)` where `H`
is the maximum perpendicular distance of any hull point from the selected
edge and `W` is the span of hull-point projections along it, the selected
edge minimising the un-padded product `H * W` over all edges; the fixed
padding is added to each dimension, not multiplied. -/
theorem C3_min_rectangle (ops : MathOps K) (hd : Pt K) (tl : List (Pt K))
    (hL : ∀ e2 ∈ hullEdges (hd :: tl), segLenSq e2.1 e2.2 ≠ 0)
    (hs : ∀ e2 ∈ hullEdges (hd :: tl),
        0 < ops.sqrt (segLenSq e2.1 e2.2)
          ∧ ops.sqrt (segLenSq e2.1 e2.2) * ops.sqrt (segLenSq e2.1 e2.2)
            = segLenSq e2.1 e2.2)
    (hA : ∀ e2 ∈ hullEdges (hd :: tl), 0 < maxPerpNum (hd :: tl) e2)
    (hB : ∀ e2 ∈ hullEdges (hd :: tl), 0 < maxSpanNum (hd :: tl) e2) :
    ∃ sedge ∈ hullEdges (hd :: tl),
      findMinimumRectangle ops (hd :: tl)
          = .ok ((specPerpAll ops (hd :: tl) sedge + PADDING)
              * (specSpan ops sedge (hd :: tl) + PADDING))
        ∧ ∀ e2 ∈ hullEdges (hd :: tl),
            specPerpAll ops (hd :: tl) sedge * specSpan ops sedge (hd :: tl)
              ≤ specPerpAll ops (hd :: tl) e2 * specSpan ops e2 (hd :: tl) := by
  obtain ⟨ents, hfold, hfa⟩ := entriesFold_spec (hd :: tl) (hullEdges (hd :: tl)) []
    (fun e2 he2 => ⟨hL e2 he2, hA e2 he2, hB e2 he2⟩)
  rw [List.nil_append] at hfold
  have hlenpos : 0 < (hullEdges (hd :: tl)).length := by
    rw [show hullEdges (hd :: tl) = (hd :: (tl ++ [hd])).zip (tl ++ [hd]) from rfl,
      List.length_zip]
    simp
  rcases hents : ents with _ | ⟨e0, rest⟩
  · rw [hents] at hfa
    have hl2 := hfa.length_eq
    rw [List.length_nil] at hl2
    omega
  rw [hents] at hfold hfa
  set sel := rest.foldl (fun b x => if x.2.area < b.2.area then x else b) e0 with hseldef
  obtain ⟨hselmem, hselle, hselall⟩ := selMin_spec rest e0
  have hselments : sel ∈ e0 :: rest := by
    rcases hselmem with h | h
    · rw [hseldef, h]
      exact List.mem_cons_self _ _
    · exact List.mem_cons_of_mem _ h
  obtain ⟨sedge, hsedge, hsR⟩ := forall₂_mem_right hfa sel hselments
  obtain ⟨hseq, hsh, hsw, hsL, hsarea⟩ := hsR
  obtain ⟨hspos, hssq⟩ := hs sedge hsedge
  have hspecprod : specPerpAll ops (hd :: tl) sedge * specSpan ops sedge (hd :: tl)
      = maxPerpNum (hd :: tl) sedge * maxSpanNum (hd :: tl) sedge
        / segLenSq sedge.1 sedge.2 := by
    rw [specPerpAll_eq hspos, specSpan_eq hd tl hspos, div_mul_div_comm, hssq]
  refine ⟨sedge, hsedge, ?_, ?_⟩
  · simp only [findMinimumRectangle]
    rw [ebind_ok]
    try dsimp only
    rw [show ((hd :: tl) ++ [hd]).zip (((hd :: tl) ++ [hd]).drop 1)
        = hullEdges (hd :: tl) from rfl]
    rw [hfold, ebind_ok]
    try dsimp only
    rw [← hseldef, hsL, pysqrt, if_neg (not_lt.mpr (segLenSq_nonneg _ _)), ebind_ok]
    try dsimp only
    rw [pydiv_ne (ne_of_gt hspos), ebind_ok]
    try dsimp only
    rw [pydiv_ne (ne_of_gt hspos), ebind_ok]
    try dsimp only
    rw [hsh, hsw, specPerpAll_eq hspos, specSpan_eq hd tl hspos]
  · intro e2 he2
    obtain ⟨pe, hpe, hpR⟩ := forall₂_mem_left hfa e2 he2
    obtain ⟨hpeq, hph, hpw, hpL, hparea⟩ := hpR
    obtain ⟨hppos, hpsq⟩ := hs e2 he2
    have hple : sel.2.area ≤ pe.2.area := by
      rcases List.mem_cons.mp hpe with h | h
      · rw [h]
        exact hselle
      · exact hselall pe h
    have hspecprod2 : specPerpAll ops (hd :: tl) e2 * specSpan ops e2 (hd :: tl)
        = maxPerpNum (hd :: tl) e2 * maxSpanNum (hd :: tl) e2 / segLenSq e2.1 e2.2 := by
      rw [specPerpAll_eq hppos, specSpan_eq hd tl hppos, div_mul_div_comm, hpsq]
    rw [hspecprod, hspecprod2, ← hsarea, ← hparea]
    exact hple

theorem C3_min_rectangle_witness :
    ∃ sedge ∈ hullEdges [((0 : ℚ), (0 : ℚ)), (1, 0), (1, 1), (0, 1)],
      findMinimumRectangle ratOps [((0 : ℚ), (0 : ℚ)), (1, 0), (1, 1), (0, 1)]
          = .ok ((specPerpAll ratOps [((0 : ℚ), (0 : ℚ)), (1, 0), (1, 1), (0, 1)] sedge
                + PADDING)
              * (specSpan ratOps sedge [((0 : ℚ), (0 : ℚ)), (1, 0), (1, 1), (0, 1)]
                + PADDING))
        ∧ ∀ e2 ∈ hullEdges [((0 : ℚ), (0 : ℚ)), (1, 0), (1, 1), (0, 1)],
            specPerpAll ratOps [((0 : ℚ), (0 : ℚ)), (1, 0), (1, 1), (0, 1)] sedge
                * specSpan ratOps sedge [((0 : ℚ), (0 : ℚ)), (1, 0), (1, 1), (0, 1)]
              ≤ specPerpAll ratOps [((0 : ℚ), (0 : ℚ)), (1, 0), (1, 1), (0, 1)] e2
                * specSpan ratOps e2 [((0 : ℚ), (0 : ℚ)), (1, 0), (1, 1), (0, 1)] := by
  have hedges : hullEdges [((0 : ℚ), (0 : ℚ)), (1, 0), (1, 1), (0, 1)]
      = [(((0 : ℚ), (0 : ℚ)), ((1 : ℚ), (0 : ℚ))), (((1 : ℚ), (0 : ℚ)), ((1 : ℚ), (1 : ℚ))),
          (((1 : ℚ), (1 : ℚ)), ((0 : ℚ), (1 : ℚ))), (((0 : ℚ), (1 : ℚ)), ((0 : ℚ), (0 : ℚ)))] :=
    rfl
  apply C3_min_rectangle ratOps ((0 : ℚ), (0 : ℚ)) [(1, 0), (1, 1), (0, 1)]
  · intro e2 he2
    rw [hedges] at he2
    fin_cases he2 <;> norm_num [segLenSq]
  · intro e2 he2
    rw [hedges] at he2
    fin_cases he2 <;> norm_num [segLenSq, ratOps]
  · intro e2 he2
    rw [hedges] at he2
    fin_cases he2 <;>
      norm_num [maxPerpNum, foldMax, foldMaxD, candPts, heightNum, List.filter,
        List.foldl, decide_pt_eq, Bool.decide_and, decide_not]
  · intro e2 he2
    rw [hedges] at he2
    fin_cases he2 <;>
      norm_num [maxSpanNum, foldMax, foldMaxD, pairsOf, widthNum, List.flatMap,
        List.foldl, decide_pt_eq, Bool.decide_and, decide_not]

/-! ## Graham-scan hull containment (claim C5) -/

/-- Strict lexicographic order on points. -/
def lexLt (p q : Pt K) : Prop := lexLe p q ∧ p ≠ q

/-- The cross product `(b - a) x (c - a)` whose sign `turn` takes. -/
def cross3 (a b c : Pt K) : K :=
  (b.1 - a.1) * (c.2 - a.2) - (c.1 - a.1) * (b.2 - a.2)

/-- Adjacent pairs of a list, in order. -/
def adjPairs : List (Pt K) → List (Pt K × Pt K)
  | b :: a :: rest => (b, a) :: adjPairs (a :: rest)
  | _ => []

/-- `q` is accounted for by the (reversed-stored) chain `C`: it is a chain
point, or it lies on or left of some forward chain edge `pr.2 → pr.1`
between its endpoints. -/
def charged (C : List (Pt K)) (q : Pt K) : Prop :=
  q ∈ C ∨ ∃ pr ∈ adjPairs C, lexLe pr.2 q ∧ lexLe q pr.1 ∧ 0 ≤ cross3 pr.2 pr.1 q

/-- `q` lies on or left of the segment from the chain top to the incoming
point `r`. -/
def topCharge (C : List (Pt K)) (r q : Pt K) : Prop :=
  ∃ t, C.head? = some t ∧ lexLe t q ∧ lexLe q r ∧ 0 ≤ cross3 t r q

/-- Point reflection through the origin. -/
def negPt (p : Pt K) : Pt K := (-p.1, -p.2)

theorem lexLe_refl (p : Pt K) : lexLe p p := Or.inr ⟨rfl, le_refl _⟩

theorem lexLe_trans {p q r : Pt K} (h1 : lexLe p q) (h2 : lexLe q r) : lexLe p r := by
  rcases h1 with h1 | ⟨h1a, h1b⟩ <;> rcases h2 with h2 | ⟨h2a, h2b⟩
  · exact Or.inl (lt_trans h1 h2)
  · exact Or.inl (h2a ▸ h1)
  · exact Or.inl (h1a ▸ h2)
  · exact Or.inr ⟨h1a.trans h2a, le_trans h1b h2b⟩

theorem lexLe_antisymm {p q : Pt K} (h1 : lexLe p q) (h2 : lexLe q p) : p = q := by
  rcases h1 with h1 | ⟨h1a, h1b⟩ <;> rcases h2 with h2 | ⟨h2a, h2b⟩
  · exact absurd (lt_trans h1 h2) (lt_irrefl _)
  · exact absurd (h2a ▸ h1) (lt_irrefl _)
  · exact absurd (h1a ▸ h2) (lt_irrefl _)
  · exact Prod.ext h1a (le_antisymm h1b h2b)

theorem lexLe_total (p q : Pt K) : lexLe p q ∨ lexLe q p := by
  rcases lt_trichotomy p.1 q.1 with h | h | h
  · exact Or.inl (Or.inl h)
  · rcases le_total p.2 q.2 with h2 | h2
    · exact Or.inl (Or.inr ⟨h, h2⟩)
    · exact Or.inr (Or.inr ⟨h.symm, h2⟩)
  · exact Or.inr (Or.inl h)

theorem lexLe_x {p q : Pt K} (h : lexLe p q) : p.1 ≤ q.1 := by
  rcases h with h | ⟨h, _⟩
  · exact h.le
  · exact h.le

theorem lexLe_y_of_x_eq {p q : Pt K} (h : lexLe p q) (hx : p.1 = q.1) : p.2 ≤ q.2 := by
  rcases h with h | ⟨_, h2⟩
  · exact absurd hx (ne_of_lt h)
  · exact h2

theorem lexLt_of_le_ne {p q : Pt K} (h : lexLe p q) (hne : p ≠ q) : lexLt p q := ⟨h, hne⟩

theorem cross3_swap (a b c : Pt K) : cross3 a c b = -cross3 a b c := by
  unfold cross3
  ring

theorem cross3_self (a b : Pt K) : cross3 a b b = 0 := by
  unfold cross3
  ring

theorem turn_ne_one_iff (a b r : Pt K) : turn a b r ≠ 1 ↔ cross3 a b r ≤ 0 := by
  unfold turn cross3
  dsimp only
  split_ifs with h1 h2
  · exact iff_of_false (by simp) (not_le.mpr h1)
  · exact iff_of_true (by decide) h2.le
  · exact iff_of_true (by decide) (not_lt.mp h1)

theorem nonneg_of_mul_nonneg_pos {x c : K} (h : 0 ≤ x * c) (hc : 0 < c) : 0 ≤ x := by
  by_contra hx
  exact absurd h (not_le.mpr (mul_neg_of_neg_of_pos (not_le.mp hx) hc))

/-- Transfer of a top charge past a pop: if `q` is accounted to the
segment `b → r` and `r` pops `b` (right-or-straight turn `a, b, r`), then
`q` is accounted to the segment `a → r`. -/
theorem charge_transfer_top {a b r q : Pt K}
    (hab : lexLt a b) (hbr : lexLe b r) (har : lexLe a r)
    (hbq : lexLe b q) (hqr : lexLe q r)
    (hpop : cross3 a b r ≤ 0) (hch : 0 ≤ cross3 b r q) :
    0 ≤ cross3 a r q := by
  rcases lt_or_eq_of_le (lexLe_x hbr) with hx | hx
  · have hid : cross3 a r q * (r.1 - b.1)
        = cross3 b r q * (r.1 - a.1) + cross3 a b r * (q.1 - r.1) := by
      unfold cross3
      ring
    have h1 : 0 ≤ cross3 b r q * (r.1 - a.1) :=
      mul_nonneg hch (sub_nonneg.mpr (lexLe_x har))
    have h2 : 0 ≤ cross3 a b r * (q.1 - r.1) := by
      have h3 := mul_nonneg (neg_nonneg.mpr hpop)
        (neg_nonneg.mpr (sub_nonpos.mpr (lexLe_x hqr)))
      rwa [neg_mul_neg] at h3
    exact nonneg_of_mul_nonneg_pos (hid ▸ add_nonneg h1 h2) (sub_pos.mpr hx)
  · rcases lt_or_eq_of_le (lexLe_x hab.1) with hax | hax
    · have hfac : cross3 a b r = (b.1 - a.1) * (r.2 - b.2) := by
        unfold cross3
        rw [← hx]
        ring
      have hrb : r.2 ≤ b.2 := by
        by_contra hcon
        have hpos : 0 < (b.1 - a.1) * (r.2 - b.2) :=
          mul_pos (sub_pos.mpr hax) (sub_pos.mpr (not_le.mp hcon))
        rw [← hfac] at hpos
        exact absurd hpop (not_le.mpr hpos)
      have hbr2 : b = r :=
        Prod.ext hx (le_antisymm (lexLe_y_of_x_eq hbr hx) hrb)
      subst hbr2
      have hq : q = b := lexLe_antisymm hqr hbq
      rw [hq, cross3_self]
    · have hq1 : q.1 = a.1 :=
        le_antisymm (hax ▸ hx ▸ lexLe_x hqr) (hax ▸ lexLe_x hbq)
      have hr1 : r.1 = a.1 := (hax.trans hx).symm
      have hz : cross3 a r q = 0 := by
        unfold cross3
        rw [hq1, hr1]
        ring
      rw [hz]

/-- Transfer of a pair charge past a pop: if `q` is accounted to the chain
edge `a → b` and `r` pops `b` (right-or-straight turn `a, b, r`), then
`q` is accounted to the segment `a → r`. -/
theorem charge_transfer_pair {a b r q : Pt K}
    (hab : lexLt a b) (har : lexLe a r) (haq : lexLe a q)
    (hpop : cross3 a b r ≤ 0) (hch : 0 ≤ cross3 a b q) :
    0 ≤ cross3 a r q := by
  rcases lt_or_eq_of_le (lexLe_x hab.1) with hax | hax
  · have hid : cross3 a r q * (b.1 - a.1)
        = cross3 a b q * (r.1 - a.1) - cross3 a b r * (q.1 - a.1) := by
      unfold cross3
      ring
    have h1 : 0 ≤ cross3 a b q * (r.1 - a.1) :=
      mul_nonneg hch (sub_nonneg.mpr (lexLe_x har))
    have h2 : cross3 a b r * (q.1 - a.1) ≤ 0 := by
      have h3 := mul_nonneg (neg_nonneg.mpr hpop) (sub_nonneg.mpr (lexLe_x haq))
      rw [neg_mul] at h3
      linarith
    exact nonneg_of_mul_nonneg_pos (by rw [hid]; linarith) (sub_pos.mpr hax)
  · have hay : a.2 < b.2 :=
      lt_of_le_of_ne (lexLe_y_of_x_eq hab.1 hax)
        (fun he => hab.2 (Prod.ext hax he))
    have hq1 : q.1 = a.1 := by
      have hfac : cross3 a b q = -((q.1 - a.1) * (b.2 - a.2)) := by
        unfold cross3
        rw [← hax]
        ring
      have h3 : (q.1 - a.1) * (b.2 - a.2) ≤ 0 := by
        rw [hfac] at hch
        linarith
      have h4 : q.1 - a.1 ≤ 0 := by
        by_contra hc
        exact absurd h3
          (not_le.mpr (mul_pos (sub_pos.mpr (not_le.mp (fun h => hc (sub_nonpos.mpr h))))
            (sub_pos.mpr hay)))
      exact le_antisymm (by linarith) (lexLe_x haq)
    have hqy : a.2 ≤ q.2 := lexLe_y_of_x_eq haq hq1.symm
    have hfac2 : cross3 a r q = (r.1 - a.1) * (q.2 - a.2) := by
      unfold cross3
      rw [hq1]
      ring
    rw [hfac2]
    exact mul_nonneg (sub_nonneg.mpr (lexLe_x har)) (sub_nonneg.mpr hqy)

theorem keepLeft_head (C : List (Pt K)) (r : Pt K) : (keepLeft C r).head? = some r := by
  induction C with
  | nil => rfl
  | cons b C ih =>
    cases C with
    | nil =>
      unfold keepLeft
      split_ifs with h
      · rw [h]
        rfl
      · rfl
    | cons a rest =>
      unfold keepLeft
      split_ifs with h1 h2
      · exact ih
      · rw [List.head?_cons, h2]
      · rfl

theorem keepLeft_subset (C : List (Pt K)) (r : Pt K) :
    ∀ x ∈ keepLeft C r, x ∈ C ∨ x = r := by
  induction C with
  | nil =>
    intro x hx
    rw [show keepLeft [] r = [r] from rfl, List.mem_singleton] at hx
    exact Or.inr hx
  | cons b C ih =>
    cases C with
    | nil =>
      unfold keepLeft
      split_ifs with h
      · exact fun x hx => Or.inl hx
      · intro x hx
        rcases List.mem_cons.mp hx with h2 | h2
        · exact Or.inr h2
        · exact Or.inl h2
    | cons a rest =>
      unfold keepLeft
      split_ifs with h1 h2
      · intro x hx
        rcases ih x hx with h | h
        · exact Or.inl (List.mem_cons_of_mem _ h)
        · exact Or.inr h
      · exact fun x hx => Or.inl hx
      · intro x hx
        rcases List.mem_cons.mp hx with h | h
        · exact Or.inr h
        · exact Or.inl h

theorem keepLeft_chain (C : List (Pt K)) (r : Pt K)
    (hchain : C.Chain' (fun b a => lexLt a b)) (hle : ∀ x ∈ C, lexLe x r) :
    (keepLeft C r).Chain' (fun b a => lexLt a b) := by
  induction C with
  | nil => exact List.chain'_singleton r
  | cons b C ih =>
    cases C with
    | nil =>
      unfold keepLeft
      split_ifs with h
      · exact hchain
      · rw [List.chain'_cons]
        exact ⟨⟨hle b (List.mem_cons_self _ _), fun he => h he⟩, hchain⟩
    | cons a rest =>
      unfold keepLeft
      split_ifs with h1 h2
      · exact ih (List.chain'_cons.mp hchain).2
          (fun x hx => hle x (List.mem_cons_of_mem _ hx))
      · exact hchain
      · rw [List.chain'_cons]
        exact ⟨⟨hle b (List.mem_cons_self _ _), fun he => h2 he⟩, hchain⟩

theorem keepLeft_getLast (C : List (Pt K)) (r : Pt K) (h : C ≠ []) :
    (keepLeft C r).getLast? = C.getLast? := by
  induction C with
  | nil => exact absurd rfl h
  | cons b C ih =>
    cases C with
    | nil =>
      unfold keepLeft
      split_ifs with h2
      · rfl
      · rfl
    | cons a rest =>
      unfold keepLeft
      split_ifs with h1 h2
      · rw [ih (List.cons_ne_nil a rest)]
        rfl
      · rfl
      · rfl

theorem keepLeft_charges (r : Pt K) :
    ∀ (C : List (Pt K)),
      C.Chain' (fun b a => lexLt a b) →
      (∀ x ∈ C, lexLe x r) →
      ∀ q, lexLe q r → (charged C q ∨ topCharge C r q) →
        charged (keepLeft C r) q := by
  intro C
  induction C with
  | nil =>
    intro _ _ q hqr hcase
    rcases hcase with hch | htc
    · rcases hch with h | ⟨pr, hpr, _⟩
      · cases h
      · rw [show adjPairs ([] : List (Pt K)) = [] from rfl] at hpr
        cases hpr
    · obtain ⟨t, ht, _⟩ := htc
      cases ht
  | cons b C ih =>
    intro hchain hle q hqr hcase
    cases C with
    | nil =>
      unfold keepLeft
      split_ifs with h
      · subst h
        rcases hcase with hch | htc
        · rcases hch with hm | ⟨pr, hpr, _⟩
          · exact Or.inl hm
          · rw [show adjPairs [b] = [] from rfl] at hpr
            cases hpr
        · obtain ⟨t, ht, htq, hqr2, _⟩ := htc
          injection ht with ht2
          subst ht2
          left
          rw [lexLe_antisymm hqr2 htq]
          exact List.mem_cons_self _ _
      · rcases hcase with hch | htc
        · rcases hch with hm | ⟨pr, hpr, _⟩
          · exact Or.inl (List.mem_cons_of_mem _ hm)
          · rw [show adjPairs [b] = [] from rfl] at hpr
            cases hpr
        · obtain ⟨t, ht, htq, hqr2, hcr⟩ := htc
          injection ht with ht2
          subst ht2
          exact Or.inr ⟨(r, b), List.mem_cons_self _ _, htq, hqr2, hcr⟩
    | cons a rest =>
      have hab : lexLt a b := (List.chain'_cons.mp hchain).1
      have hchain2 := (List.chain'_cons.mp hchain).2
      unfold keepLeft
      split_ifs with h1 h2
      · have hpop : cross3 a b r ≤ 0 := (turn_ne_one_iff a b r).mp h1
        apply ih hchain2 (fun x hx => hle x (List.mem_cons_of_mem _ hx)) q hqr
        rcases hcase with hch | htc
        · rcases hch with hm | ⟨pr, hpr, hc1, hc2, hc3⟩
          · rcases List.mem_cons.mp hm with hqb | hm2
            · subst hqb
              right
              refine ⟨a, rfl, hab.1, hqr, ?_⟩
              rw [cross3_swap]
              linarith
            · exact Or.inl (Or.inl hm2)
          · rw [show adjPairs (b :: a :: rest) = (b, a) :: adjPairs (a :: rest) from rfl]
              at hpr
            rcases List.mem_cons.mp hpr with hpr1 | hpr2
            · subst hpr1
              right
              exact ⟨a, rfl, hc1, hqr,
                charge_transfer_pair hab (hle a (by simp)) hc1 hpop hc3⟩
            · exact Or.inl (Or.inr ⟨pr, hpr2, hc1, hc2, hc3⟩)
        · obtain ⟨t, ht, htq, hqr2, hcr⟩ := htc
          injection ht with ht2
          subst ht2
          right
          exact ⟨a, rfl, lexLe_trans hab.1 htq, hqr,
            charge_transfer_top hab (hle b (by simp)) (hle a (by simp)) htq hqr2 hpop hcr⟩
      · rcases hcase with hch | htc
        · exact hch
        · obtain ⟨t, ht, htq, hqr2, hcr⟩ := htc
          injection ht with ht2
          subst ht2
          rw [← h2] at hqr2
          left
          rw [lexLe_antisymm hqr2 htq]
          exact List.mem_cons_self _ _
      · rcases hcase with hch | htc
        · rcases hch with hm | ⟨pr, hpr, hc⟩
          · exact Or.inl (List.mem_cons_of_mem _ hm)
          · refine Or.inr ⟨pr, ?_, hc⟩
            rw [show adjPairs (r :: b :: a :: rest)
                = (r, b) :: adjPairs (b :: a :: rest) from rfl]
            exact List.mem_cons_of_mem _ hpr
        · obtain ⟨t, ht, htq, hqr2, hcr⟩ := htc
          injection ht with ht2
          subst ht2
          refine Or.inr ⟨(r, b), ?_, htq, hqr2, hcr⟩
          rw [show adjPairs (r :: b :: a :: rest)
              = (r, b) :: adjPairs (b :: a :: rest) from rfl]
          exact List.mem_cons_self _ _

theorem keepLeft_fold_inv (s : List (Pt K)) : s.Pairwise lexLe →
    (s.foldl keepLeft []).Chain' (fun b a => lexLt a b)
    ∧ (∀ x ∈ s.foldl keepLeft [], x ∈ s)
    ∧ (∀ p ∈ s, charged (s.foldl keepLeft []) p)
    ∧ (s ≠ [] → (s.foldl keepLeft []).head? = s.getLast?)
    ∧ (s ≠ [] → (s.foldl keepLeft []).getLast? = s.head?) := by
  induction s using List.reverseRecOn with
  | nil =>
    intro _
    refine ⟨List.chain'_nil, ?_, ?_, fun h => absurd rfl h, fun h => absurd rfl h⟩
    · intro x hx
      cases hx
    · intro p hp
      cases hp
  | append_singleton s r ih =>
    intro hsort
    rw [List.pairwise_append] at hsort
    obtain ⟨hs, _, hler0⟩ := hsort
    have hler : ∀ x ∈ s, lexLe x r :=
      fun x hx => hler0 x hx r (List.mem_singleton_self r)
    obtain ⟨hch, hsub, hcov, hhead, hlast⟩ := ih hs
    rw [List.foldl_append, List.foldl_cons, List.foldl_nil]
    have hle2 : ∀ x ∈ s.foldl keepLeft [], lexLe x r := fun x hx => hler x (hsub x hx)
    refine ⟨keepLeft_chain _ r hch hle2, ?_, ?_, ?_, ?_⟩
    · intro x hx
      rcases keepLeft_subset _ r x hx with h | h
      · exact List.mem_append_left _ (hsub x h)
      · exact List.mem_append_right _ (by rw [h]; exact List.mem_singleton_self r)
    · intro p hp
      rcases List.mem_append.mp hp with h | h
      · exact keepLeft_charges r _ hch hle2 p (hler p h) (Or.inl (hcov p h))
      · rw [List.mem_singleton] at h
        subst h
        cases hC : s.foldl keepLeft [] with
        | nil =>
          rw [show keepLeft ([] : List (Pt K)) p = [p] from rfl]
          exact Or.inl (List.mem_singleton_self p)
        | cons c rest =>
          rw [← hC]
          refine keepLeft_charges p _ hch hle2 p (lexLe_refl p) (Or.inr ?_)
          refine ⟨c, by rw [hC]; rfl, ?_, lexLe_refl p, by simp [cross3_self]⟩
          exact hle2 c (by rw [hC]; exact List.mem_cons_self _ _)
    · intro _
      rw [keepLeft_head, List.getLast?_concat]
    · intro _
      cases hs2 : s with
      | nil =>
        subst hs2
        rfl
      | cons x s2 =>
        subst hs2
        have hsne : (x :: s2) ≠ ([] : List (Pt K)) := List.cons_ne_nil x s2
        cases hC : (x :: s2).foldl keepLeft [] with
        | nil =>
          have h2 := List.getLast?_isSome.mpr hsne
          rw [← hhead hsne, hC] at h2
          cases h2
        | cons c rest =>
          rw [keepLeft_getLast _ r (List.cons_ne_nil c rest), ← hC, hlast hsne]
          rfl

theorem negPt_inj {p q : Pt K} (h : negPt p = negPt q) : p = q := by
  unfold negPt at h
  rw [Prod.mk.injEq] at h
  exact Prod.ext (neg_inj.mp h.1) (neg_inj.mp h.2)

theorem negPt_lexLe {p q : Pt K} : lexLe (negPt p) (negPt q) ↔ lexLe q p := by
  unfold lexLe negPt
  dsimp only
  constructor
  · rintro (h | ⟨h1, h2⟩)
    · exact Or.inl (by linarith)
    · exact Or.inr ⟨by linarith, by linarith⟩
  · rintro (h | ⟨h1, h2⟩)
    · exact Or.inl (by linarith)
    · exact Or.inr ⟨by linarith, by linarith⟩

theorem cross3_negPt (a b c : Pt K) :
    cross3 (negPt a) (negPt b) (negPt c) = cross3 a b c := by
  unfold cross3 negPt
  ring

theorem turn_negPt (a b c : Pt K) : turn (negPt a) (negPt b) (negPt c) = turn a b c := by
  have h := cross3_negPt a b c
  unfold turn
  dsimp only
  rw [show ((negPt b).1 - (negPt a).1) * ((negPt c).2 - (negPt a).2)
      - ((negPt c).1 - (negPt a).1) * ((negPt b).2 - (negPt a).2)
      = (b.1 - a.1) * (c.2 - a.2) - (c.1 - a.1) * (b.2 - a.2) from h]

theorem keepLeft_negPt (C : List (Pt K)) (r : Pt K) :
    keepLeft (C.map negPt) (negPt r) = (keepLeft C r).map negPt := by
  induction C with
  | nil => rfl
  | cons b C ih =>
    cases C with
    | nil =>
      by_cases h : b = r
      · subst h
        simp [keepLeft]
      · have h2 : negPt b ≠ negPt r := fun he => h (negPt_inj he)
        simp [keepLeft, h, h2]
    | cons a rest =>
      show keepLeft (negPt b :: negPt a :: rest.map negPt) (negPt r)
        = (keepLeft (b :: a :: rest) r).map negPt
      unfold keepLeft
      have he : (negPt b = negPt r) = (b = r) :=
        propext ⟨fun h => negPt_inj h, fun h => congrArg negPt h⟩
      rw [turn_negPt]
      simp only [he]
      split_ifs with h1 h2
      · exact ih
      · rfl
      · rfl

theorem foldl_keepLeft_negPt : ∀ (l C : List (Pt K)),
    (l.map negPt).foldl keepLeft (C.map negPt) = (l.foldl keepLeft C).map negPt := by
  intro l
  induction l with
  | nil =>
    intro C
    rfl
  | cons x l ih =>
    intro C
    rw [List.map_cons, List.foldl_cons, List.foldl_cons, keepLeft_negPt, ih]

theorem adjPairs_map_negPt : ∀ (C : List (Pt K)),
    adjPairs (C.map negPt) = (adjPairs C).map (fun pr => (negPt pr.1, negPt pr.2)) := by
  intro C
  induction C with
  | nil => rfl
  | cons b C ih =>
    cases C with
    | nil => rfl
    | cons a rest =>
      show (negPt b, negPt a) :: adjPairs (negPt a :: rest.map negPt) = _
      rw [show adjPairs (b :: a :: rest) = (b, a) :: adjPairs (a :: rest) from rfl,
        List.map_cons]
      exact congrArg (fun t => (negPt b, negPt a) :: t) ih

theorem adjPairs_mem : ∀ (C : List (Pt K)) (pr : Pt K × Pt K),
    pr ∈ adjPairs C → pr.1 ∈ C ∧ pr.2 ∈ C := by
  intro C
  induction C with
  | nil =>
    intro pr h
    rw [show adjPairs ([] : List (Pt K)) = [] from rfl] at h
    cases h
  | cons b C ih =>
    cases C with
    | nil =>
      intro pr h
      rw [show adjPairs [b] = [] from rfl] at h
      cases h
    | cons a rest =>
      intro pr h
      rw [show adjPairs (b :: a :: rest) = (b, a) :: adjPairs (a :: rest) from rfl] at h
      rcases List.mem_cons.mp h with h | h
      · subst h
        exact ⟨List.mem_cons_self _ _,
          List.mem_cons_of_mem _ (List.mem_cons_self _ _)⟩
      · obtain ⟨h1, h2⟩ := ih pr h
        exact ⟨List.mem_cons_of_mem _ h1, List.mem_cons_of_mem _ h2⟩

theorem combo_spec (t : K) (x y : Pt K) :
    (1 - t) • x + t • y = ((1 - t) * x.1 + t * y.1, (1 - t) * x.2 + t * y.2) := by
  apply Prod.ext <;>
    simp [Prod.fst_add, Prod.snd_add, Prod.smul_fst, Prod.smul_snd, smul_eq_mul]

theorem mem_hull_pair {S : Set (Pt K)} {x y z : Pt K} (hx : x ∈ convexHull K S)
    (hy : y ∈ convexHull K S) (t : K) (ht0 : 0 ≤ t) (ht1 : t ≤ 1)
    (hz : z = (1 - t) • x + t • y) : z ∈ convexHull K S := by
  rw [hz]
  exact (convex_convexHull K S) hx hy (by linarith) ht0 (by ring)

/-- The sandwich step: a point lexically between the endpoints of a lower
segment `a → b` (lying on or left of it) and between the endpoints of an
upper segment `c → d` (lying on or left of it) is in the convex hull of
the four endpoints. -/
theorem sandwich {a b c d q : Pt K}
    (haq : lexLe a q) (hqb : lexLe q b) (hlow : 0 ≤ cross3 a b q)
    (hdq : lexLe d q) (hqc : lexLe q c) (hup : 0 ≤ cross3 c d q) :
    q ∈ convexHull K ({a, b, c, d} : Set (Pt K)) := by
  have hamem : a ∈ convexHull K ({a, b, c, d} : Set (Pt K)) :=
    subset_convexHull K _ (by simp)
  have hbmem : b ∈ convexHull K ({a, b, c, d} : Set (Pt K)) :=
    subset_convexHull K _ (by simp)
  have hcmem : c ∈ convexHull K ({a, b, c, d} : Set (Pt K)) :=
    subset_convexHull K _ (by simp)
  have hdmem : d ∈ convexHull K ({a, b, c, d} : Set (Pt K)) :=
    subset_convexHull K _ (by simp)
  by_cases hab : a.1 = b.1
  · have hq1 : q.1 = a.1 := le_antisymm (hab ▸ lexLe_x hqb) (lexLe_x haq)
    by_cases habe : a = b
    · have hqa : lexLe q a := by rw [habe]; exact hqb
      rw [lexLe_antisymm hqa haq]
      exact hamem
    · have hy : a.2 < b.2 :=
        lt_of_le_of_ne (lexLe_y_of_x_eq (lexLe_trans haq hqb) hab)
          (fun he => habe (Prod.ext hab he))
      have hay : a.2 ≤ q.2 := lexLe_y_of_x_eq haq hq1.symm
      have hqy : q.2 ≤ b.2 := lexLe_y_of_x_eq hqb (by rw [hq1, hab])
      refine mem_hull_pair hamem hbmem ((q.2 - a.2) / (b.2 - a.2))
        (div_nonneg (by linarith) (by linarith))
        ((div_le_one (by linarith)).mpr (by linarith)) ?_
      rw [combo_spec]
      have hne : b.2 - a.2 ≠ 0 := ne_of_gt (by linarith)
      apply Prod.ext <;> dsimp only
      · rw [hq1, ← hab]
        ring
      · field_simp
        ring
  · have hab2 : a.1 < b.1 := lt_of_le_of_ne (lexLe_x (lexLe_trans haq hqb)) hab
    by_cases hcd : c.1 = d.1
    · have hq1 : q.1 = d.1 := le_antisymm (hcd ▸ lexLe_x hqc) (lexLe_x hdq)
      by_cases hdce : d = c
      · have hqd : lexLe q d := by rw [hdce]; exact hqc
        rw [lexLe_antisymm hqd hdq]
        exact hdmem
      · have hy : d.2 < c.2 :=
          lt_of_le_of_ne (lexLe_y_of_x_eq (lexLe_trans hdq hqc) hcd.symm)
            (fun he => hdce (Prod.ext hcd.symm he))
        have hdy : d.2 ≤ q.2 := lexLe_y_of_x_eq hdq hq1.symm
        have hqy : q.2 ≤ c.2 := lexLe_y_of_x_eq hqc (by rw [hq1, hcd])
        refine mem_hull_pair hdmem hcmem ((q.2 - d.2) / (c.2 - d.2))
          (div_nonneg (by linarith) (by linarith))
          ((div_le_one (by linarith)).mpr (by linarith)) ?_
        rw [combo_spec]
        have hne : c.2 - d.2 ≠ 0 := ne_of_gt (by linarith)
        apply Prod.ext <;> dsimp only
        · rw [hq1, hcd]
          ring
        · field_simp
          ring
    · have hcd2 : d.1 < c.1 :=
        lt_of_le_of_ne (lexLe_x (lexLe_trans hdq hqc)) (fun h => hcd h.symm)
      have haq1 : a.1 ≤ q.1 := lexLe_x haq
      have hqb1 : q.1 ≤ b.1 := lexLe_x hqb
      have hdq1 : d.1 ≤ q.1 := lexLe_x hdq
      have hqc1 : q.1 ≤ c.1 := lexLe_x hqc
      have hAmem : ((q.1, a.2 + (q.1 - a.1) / (b.1 - a.1) * (b.2 - a.2)) : Pt K)
          ∈ convexHull K ({a, b, c, d} : Set (Pt K)) := by
        refine mem_hull_pair hamem hbmem ((q.1 - a.1) / (b.1 - a.1))
          (div_nonneg (by linarith) (by linarith))
          ((div_le_one (by linarith)).mpr (by linarith)) ?_
        rw [combo_spec]
        have hne : b.1 - a.1 ≠ 0 := ne_of_gt (by linarith)
        apply Prod.ext <;> dsimp only
        · field_simp
          ring
        · field_simp
          ring
      have hBmem : ((q.1, d.2 + (q.1 - d.1) / (c.1 - d.1) * (c.2 - d.2)) : Pt K)
          ∈ convexHull K ({a, b, c, d} : Set (Pt K)) := by
        refine mem_hull_pair hdmem hcmem ((q.1 - d.1) / (c.1 - d.1))
          (div_nonneg (by linarith) (by linarith))
          ((div_le_one (by linarith)).mpr (by linarith)) ?_
        rw [combo_spec]
        have hne : c.1 - d.1 ≠ 0 := ne_of_gt (by linarith)
        apply Prod.ext <;> dsimp only
        · field_simp
          ring
        · field_simp
          ring
      have hAy : a.2 + (q.1 - a.1) / (b.1 - a.1) * (b.2 - a.2) ≤ q.2 := by
        have h1 : (q.1 - a.1) * (b.2 - a.2) ≤ (q.2 - a.2) * (b.1 - a.1) := by
          unfold cross3 at hlow
          nlinarith [hlow]
        have h3 : (q.1 - a.1) / (b.1 - a.1) * (b.2 - a.2) ≤ q.2 - a.2 := by
          rw [div_mul_eq_mul_div]
          exact (div_le_iff (by linarith)).mpr h1
        linarith
      have hBy : q.2 ≤ d.2 + (q.1 - d.1) / (c.1 - d.1) * (c.2 - d.2) := by
        have h1 : (q.2 - d.2) * (c.1 - d.1) ≤ (q.1 - d.1) * (c.2 - d.2) := by
          unfold cross3 at hup
          nlinarith [hup]
        have h3 : q.2 - d.2 ≤ (q.1 - d.1) / (c.1 - d.1) * (c.2 - d.2) := by
          rw [div_mul_eq_mul_div]
          exact (le_div_iff (by linarith)).mpr h1
        linarith
      set Ay := a.2 + (q.1 - a.1) / (b.1 - a.1) * (b.2 - a.2) with hAydef
      set By := d.2 + (q.1 - d.1) / (c.1 - d.1) * (c.2 - d.2) with hBydef
      by_cases hAB : By = Ay
      · have hq2 : q = ((q.1, Ay) : Pt K) := Prod.ext rfl (by linarith)
        rw [hq2]
        exact hAmem
      · have hlt : Ay < By := lt_of_le_of_ne (by linarith) (fun h => hAB h.symm)
        refine mem_hull_pair hAmem hBmem ((q.2 - Ay) / (By - Ay))
          (div_nonneg (by linarith) (by linarith))
          ((div_le_one (by linarith)).mpr (by linarith)) ?_
        rw [combo_spec]
        have hne : By - Ay ≠ 0 := ne_of_gt (by linarith)
        apply Prod.ext <;> dsimp only
        · ring
        · field_simp
          ring

instance : IsTotal (Pt K) lexLe := ⟨lexLe_total⟩

instance : IsTrans (Pt K) lexLe := ⟨fun _ _ _ => lexLe_trans⟩

theorem mem_dropLast_or_getLast? {α : Type} : ∀ (l : List α) (x : α), x ∈ l →
    x ∈ l.dropLast ∨ l.getLast? = some x := by
  intro l
  induction l with
  | nil =>
    intro x hx
    cases hx
  | cons a l ih =>
    intro x hx
    cases l with
    | nil =>
      rw [List.mem_singleton] at hx
      subst hx
      exact Or.inr rfl
    | cons b t =>
      rcases List.mem_cons.mp hx with h | h
      · subst h
        left
        rw [show (x :: b :: t).dropLast = x :: (b :: t).dropLast from rfl]
        exact List.mem_cons_self _ _
      · rcases ih x h with h2 | h2
        · left
          rw [show (a :: b :: t).dropLast = a :: (b :: t).dropLast from rfl]
          exact List.mem_cons_of_mem _ h2
        · right
          rw [List.getLast?_cons_cons]
          exact h2

theorem option_map_negPt_inj {o1 o2 : Option (Pt K)}
    (h : o1.map negPt = o2.map negPt) : o1 = o2 := by
  cases o1 with
  | none =>
    cases o2 with
    | none => rfl
    | some y =>
      rw [Option.map_none', Option.map_some'] at h
      cases h
  | some x =>
    cases o2 with
    | none =>
      rw [Option.map_none', Option.map_some'] at h
      cases h
    | some y =>
      rw [Option.map_some', Option.map_some'] at h
      injection h with h2
      rw [negPt_inj h2]

/-- **C5 (amended).**  Every point the Graham scan is run on lies within
or on the computed hull: it belongs to the convex hull of the set of
points `grahams_hull` returns.  (`computeInnerHull` runs the scan on each
cycle's vertex positions; a schema vertex on no cycle is not covered —
see the counterexample.) -/
theorem C5_hull_containment (pts : List (Pt K)) (q : Pt K) (hq : q ∈ pts) :
    q ∈ convexHull K {x : Pt K | x ∈ grahams_hull pts} := by
  have hsorted : (sortLex pts).Pairwise lexLe := List.sorted_insertionSort lexLe pts
  have hqs : q ∈ sortLex pts := ((List.perm_insertionSort lexLe pts).mem_iff).mpr hq
  have hsne : sortLex pts ≠ [] := List.ne_nil_of_mem hqs
  set L := (sortLex pts).foldl keepLeft [] with hLdef
  set U := (sortLex pts).reverse.foldl keepLeft [] with hUdef
  obtain ⟨hchL, hsubL, hcovL, hheadL, hlastL⟩ := keepLeft_fold_inv (sortLex pts) hsorted
  have hsorted2 : ((sortLex pts).reverse.map negPt).Pairwise lexLe := by
    rw [List.pairwise_map, List.pairwise_reverse]
    refine hsorted.imp ?_
    intro a b h
    exact negPt_lexLe.mpr h
  obtain ⟨hchU0, hsubU0, hcovU0, hheadU0, hlastU0⟩ :=
    keepLeft_fold_inv ((sortLex pts).reverse.map negPt) hsorted2
  have hcomm : ((sortLex pts).reverse.map negPt).foldl keepLeft [] = U.map negPt :=
    foldl_keepLeft_negPt (sortLex pts).reverse []
  have hrevne : (sortLex pts).reverse.map negPt ≠ [] := by
    intro h
    rw [List.map_eq_nil_iff, List.reverse_eq_nil_iff] at h
    exact hsne h
  have hgh : grahams_hull pts = L.reverse ++ ((U.reverse.drop 1).dropLast) := rfl
  have hLmem : ∀ x ∈ L, x ∈ grahams_hull pts := by
    intro x hx
    rw [hgh]
    exact List.mem_append_left _ (List.mem_reverse.mpr hx)
  have hheadU : U.head? = (sortLex pts).head? := by
    have h := hheadU0 hrevne
    rw [hcomm, List.head?_map, List.getLast?_map, List.getLast?_reverse] at h
    exact option_map_negPt_inj h
  have hlastU : U.getLast? = (sortLex pts).getLast? := by
    have h := hlastU0 hrevne
    rw [hcomm, List.getLast?_map, List.head?_map, List.head?_reverse] at h
    exact option_map_negPt_inj h
  have hUmem : ∀ x ∈ U, x ∈ grahams_hull pts := by
    intro x hx
    have hx2 : x ∈ U.reverse := List.mem_reverse.mpr hx
    cases hur : U.reverse with
    | nil =>
      rw [hur] at hx2
      cases hx2
    | cons h0 t =>
      rw [hur] at hx2
      rcases List.mem_cons.mp hx2 with hxh | hxt
      · subst hxh
        have h1 : U.reverse.head? = some x := by
          rw [hur]
          rfl
        rw [List.head?_reverse, hlastU, ← hheadL hsne] at h1
        exact hLmem x (List.mem_of_mem_head? h1)
      · rcases mem_dropLast_or_getLast? t x hxt with h2 | h2
        · rw [hgh]
          refine List.mem_append_right _ ?_
          rw [hur, show (h0 :: t).drop 1 = t from rfl]
          exact h2
        · cases t with
          | nil => cases h2
          | cons b t2 =>
            have h3 : U.reverse.getLast? = some x := by
              rw [hur, List.getLast?_cons_cons]
              exact h2
            rw [List.getLast?_reverse, hheadU] at h3
            exact hLmem x (List.mem_of_mem_getLast? ((hlastL hsne).trans h3))
  have hcovUq : charged (U.map negPt) (negPt q) := by
    have hm : negPt q ∈ (sortLex pts).reverse.map negPt :=
      List.mem_map.mpr ⟨q, List.mem_reverse.mpr hqs, rfl⟩
    have h := hcovU0 (negPt q) hm
    rwa [hcomm] at h
  have hupper : q ∈ U ∨ ∃ pr ∈ adjPairs U,
      lexLe pr.1 q ∧ lexLe q pr.2 ∧ 0 ≤ cross3 pr.2 pr.1 q := by
    rcases hcovUq with hm | ⟨pr2, hpr2, hc1, hc2, hc3⟩
    · left
      rcases List.mem_map.mp hm with ⟨y, hy, hyy⟩
      rw [negPt_inj hyy] at hy
      exact hy
    · right
      rw [adjPairs_map_negPt] at hpr2
      rcases List.mem_map.mp hpr2 with ⟨pr, hpr, hprr⟩
      subst hprr
      refine ⟨pr, hpr, negPt_lexLe.mp hc2, negPt_lexLe.mp hc1, ?_⟩
      rw [cross3_negPt] at hc3
      exact hc3
  rcases hcovL q hqs with hmL | ⟨prL, hprL, hL1, hL2, hL3⟩
  · exact subset_convexHull K _ (hLmem q hmL)
  · rcases hupper with hmU | ⟨prU, hprU, hU1, hU2, hU3⟩
    · exact subset_convexHull K _ (hUmem q hmU)
    · have hs := sandwich hL1 hL2 hL3 hU1 hU2 hU3
      refine convexHull_mono ?_ hs
      intro x hx
      simp only [Set.mem_insert_iff, Set.mem_singleton_iff] at hx
      rcases hx with rfl | rfl | rfl | rfl
      · exact hLmem _ (adjPairs_mem _ _ hprL).2
      · exact hLmem _ (adjPairs_mem _ _ hprL).1
      · exact hUmem _ (adjPairs_mem _ _ hprU).2
      · exact hUmem _ (adjPairs_mem _ _ hprU).1

theorem C5_hull_containment_witness :
    ((1 : ℚ), (0 : ℚ)) ∈ ([((0 : ℚ), (0 : ℚ)), (2, 0), (0, 2), (1, 0)] : List (Pt ℚ))
      ∧ (((1 : ℚ), (0 : ℚ)) : Pt ℚ) ∈ convexHull ℚ
        {x : Pt ℚ | x ∈ grahams_hull [((0 : ℚ), (0 : ℚ)), (2, 0), (0, 2), (1, 0)]} :=
  ⟨by norm_num, C5_hull_containment _ _ (by norm_num)⟩

/-- The pendant vertex `4` at `(9, 9)` is a schema vertex, yet it lies
strictly outside the inner hull computed for the only cycle (the
triangle `1, 2, 3`): the original claim fails for vertices on no cycle. -/
theorem C5_counterexample :
    computeInnerHull pendantSchema ⟨[1, 2, 3, 4], [(1, 2), (2, 3), (1, 3), (1, 4)]⟩
        = .ok [[1, 2, 3]]
      ∧ (4, ((9 : ℚ), (9 : ℚ))) ∈ pendantSchema.vertices.getD []
      ∧ hullCoords pendantSchema [1, 2, 3] = .ok [((0 : ℚ), (0 : ℚ)), (2, 0), (0, 2)]
      ∧ ¬ (((9 : ℚ), (9 : ℚ)) : Pt ℚ) ∈ convexHull ℚ
          {x : Pt ℚ | x ∈ grahams_hull [((0 : ℚ), (0 : ℚ)), (2, 0), (0, 2)]} := by
  refine ⟨?_, by norm_num [pendantSchema], rfl, ?_⟩
  · norm_num [computeInnerHull,
      show findPath ⟨[1, 2, 3, 4], [(1, 2), (2, 3), (1, 3), (1, 4)]⟩ = .ok [[1, 2, 3]]
        from rfl,
      getVerts, getKey, pointLookup, pendantSchema, grahams_hull, sortLex,
      List.insertionSort, List.orderedInsert, lexLe, keepLeft, turn, List.foldl,
      List.mapM_cons, List.mapM_nil, List.mapM.loop, bind, Except.bind, pure,
      Except.pure, List.find?, List.filter, Prod.mk.injEq, decide_pt_eq,
      Bool.decide_and, decide_not]
  · intro hmem
    have hhull : grahams_hull [((0 : ℚ), (0 : ℚ)), (2, 0), (0, 2)]
        = [((0 : ℚ), (0 : ℚ)), (2, 0), (0, 2)] := by
      norm_num [grahams_hull, sortLex, List.insertionSort, List.orderedInsert, lexLe,
        keepLeft, turn, List.foldl, Prod.mk.injEq, Prod.ext_iff, Prod.fst_zero,
        Prod.snd_zero, decide_pt_eq, Bool.decide_and, decide_not]
    have hlin : IsLinearMap ℚ (fun p : Pt ℚ => p.1 + p.2) :=
      ⟨fun x y => by
          simp only [Prod.fst_add, Prod.snd_add]
          ring,
        fun c x => by
          simp only [Prod.smul_fst, Prod.smul_snd, smul_eq_mul]
          ring⟩
    have hconv : Convex ℚ {p : Pt ℚ | p.1 + p.2 ≤ 2} := convex_halfspace_le hlin 2
    have hsub : {x : Pt ℚ | x ∈ grahams_hull [((0 : ℚ), (0 : ℚ)), (2, 0), (0, 2)]}
        ⊆ {p : Pt ℚ | p.1 + p.2 ≤ 2} := by
      rw [hhull]
      intro x hx
      simp only [Set.mem_setOf_eq] at hx ⊢
      fin_cases hx <;> norm_num
    have h2 := convexHull_min hsub hconv hmem
    simp only [Set.mem_setOf_eq] at h2
    norm_num at h2
